import Mathlib

/-!
A verification development for the modlist-bisector core: a shallow embedding of
`src/modlist_bisector/mod_graph.py`, `paths.py` and `mod_log.py`, together with
theorems about the embedded operations.

Modelling conventions:
* A networkx node-attribute dict is modelled as `Option ModNode`: `none` is the
  empty attribute dict that `G.add_edge` creates for a previously unknown
  endpoint, `some n` is a fully populated record.  `ModGraph.set_good` adds an
  `is_good` key to an existing record; its presence is `Option (Option Bool)`
  (the Python value may itself be `None`).
* The filesystem is the set of existing path strings, kept as a `List String`;
  `Path.rename` removes the source string and adds the target string.
* Python exceptions abort the invocation (the CLI never catches them), so every
  side-effecting operation returns `Except Err _` and an error discards the
  state, matching the observable abort-and-discard behaviour.
* `nx.topological_sort` yields some topological order of the full graph and
  Python `set` iteration yields some enumeration order.  Loops driven by
  `nx.topological_sort` take the order as an explicit argument; theorems about
  them hypothesise that the argument is a topological order, and therefore
  cover whatever order networkx produces.  Set-driven loops
  (`set_enabled_good`) enumerate in the graph's node-insertion order.
* `dict` values from the TOML config (`overrides`, `extra_deps`) are
  association lists; Python guarantees their keys unique, which theorems state
  as `Nodup` hypotheses where needed.
-/

abbrev NodeId := String

/-- DISABLED_SUFFIX from `modloaders.py`. -/
def DISABLED_SUFFIX : String := ".disabled"

/-- The node attribute record of `ModNode` in `mod_graph.py` (a `TypedDict`
with keys `name`, `path`, `enabled`, `locked`), extended by the `is_good` key
that `ModGraph.set_good` may add later (`none` = key absent). -/
structure ModNode where
  name : String
  path : String
  enabled : Bool
  locked : Bool
  is_good : Option (Option Bool) := none
deriving DecidableEq, Repr

/-- The `Config` model from `config.py`: absolute root, `overrides` and
`extra_deps` dictionaries. -/
structure Config where
  root : String
  overrides : List (NodeId × Bool)
  extra_deps : List (NodeId × List NodeId)
deriving DecidableEq, Repr

/-- The directed graph `ModGraph.G`: insertion-ordered association list of
nodes (attribute dict per node) plus the edge list.  For an edge `A -> B`,
`A` needs `B`. -/
structure Graph where
  nodes : List (NodeId × Option ModNode)
  edges : List (NodeId × NodeId)
deriving DecidableEq, Repr

/-- The full mutable state an invocation works on: the in-memory graph plus
the set of filesystem paths that currently exist under the root. -/
structure St where
  g : Graph
  fs : List String
deriving DecidableEq, Repr

/-- The Python exceptions the embedded operations can raise:
`KeyError` from `self.nodes[modid]`, a missing-attribute failure on a
metadata-less node, the `ValueError` of `assert_acyclic_pending`, and the
`RuntimeError` / `FileNotFoundError` of `rename_path`. -/
inductive Err where
  | keyError (id : NodeId)
  | attrError (id : NodeId)
  | cycleError
  | bothExist (source target : String)
  | notFound (source : String)
deriving DecidableEq, Repr

/-! ### Association-list primitives for the node table -/

/-- Lookup of a node's attribute dict, `self.G.nodes.get(modid)`. -/
def lookupN : List (NodeId × Option ModNode) → NodeId → Option (Option ModNode)
  | [], _ => none
  | p :: rest, id => if p.1 = id then some p.2 else lookupN rest id

/-- Replace the attribute dict stored under a key (no-op on absent keys). -/
def setN : List (NodeId × Option ModNode) → NodeId → Option ModNode →
    List (NodeId × Option ModNode)
  | [], _, _ => []
  | p :: rest, id, v => (if p.1 = id then (id, v) else p) :: setN rest id v

def Graph.find? (g : Graph) (id : NodeId) : Option (Option ModNode) :=
  lookupN g.nodes id

def Graph.setNode (g : Graph) (id : NodeId) (v : Option ModNode) : Graph :=
  { g with nodes := setN g.nodes id v }

def Graph.ids (g : Graph) : List NodeId :=
  g.nodes.map Prod.fst

def Graph.mem (g : Graph) (id : NodeId) : Bool :=
  (g.find? id).isSome

/-- The `enabled` attribute of a node, when the node exists with metadata. -/
def Graph.enabled? (g : Graph) (id : NodeId) : Option Bool :=
  match g.find? id with
  | some (some n) => some n.enabled
  | _ => none

/-- The `locked` attribute of a node, when the node exists with metadata. -/
def Graph.locked? (g : Graph) (id : NodeId) : Option Bool :=
  match g.find? id with
  | some (some n) => some n.locked
  | _ => none

/-- The `is_good` attribute of a node, when the node exists with metadata. -/
def Graph.isGood? (g : Graph) (id : NodeId) : Option (Option (Option Bool)) :=
  match g.find? id with
  | some (some n) => some n.is_good
  | _ => none

/-- Every node of the graph carries a metadata record (no empty attribute
dicts). -/
def Graph.allSome (g : Graph) : Bool :=
  g.nodes.all fun p => p.2.isSome

/-- `networkx.DiGraph.add_edge` creates missing endpoints with empty
attribute dicts. -/
def Graph.ensureNode (g : Graph) (id : NodeId) : Graph :=
  if g.mem id then g else { g with nodes := g.nodes ++ [(id, none)] }

def Graph.addEdge (g : Graph) (a b : NodeId) : Graph :=
  let g := (g.ensureNode a).ensureNode b
  if (a, b) ∈ g.edges then g else { g with edges := g.edges ++ [(a, b)] }

/-! ### Reachability (`nx.ancestors` / `nx.descendants`) -/

/-- One saturation pass: for every edge whose source is already in the
accumulator, add the target. -/
def expand (edges : List (NodeId × NodeId)) (acc : List NodeId) : List NodeId :=
  edges.foldl
    (fun acc e => if acc.contains e.1 && !acc.contains e.2 then acc ++ [e.2] else acc)
    acc

/-- Iterated saturation: with fuel at least the number of nodes this computes
all nodes reachable from the start set (including the start set itself). -/
def reachableFrom (edges : List (NodeId × NodeId)) : Nat → List NodeId → List NodeId
  | 0, acc => acc
  | fuel + 1, acc => reachableFrom edges fuel (expand edges acc)

/-- `nx.ancestors(G, target)`: all nodes with a path *to* `target`, excluding
`target` itself. -/
def Graph.ancestors (g : Graph) (target : NodeId) : List NodeId :=
  g.ids.filter fun a =>
    decide (a ≠ target) && (reachableFrom g.edges g.nodes.length [a]).contains target

/-- `nx.descendants(G, source)`: all nodes reachable *from* `source`,
excluding `source` itself. -/
def Graph.descendants (g : Graph) (source : NodeId) : List NodeId :=
  (reachableFrom g.edges g.nodes.length [source]).filter fun b => decide (b ≠ source)

/-! ### `paths.py` -/

/-- `rename_path` from `paths.py`: returns `False` if the path was already
renamed, renames and returns `True` when only the source exists, raises when
both or neither path exists. -/
def rename_path (fs : List String) (source target : String) :
    Except Err (Bool × List String) :=
  match fs.contains source, fs.contains target with
  | true, false => .ok (true, fs.erase source ++ [target])
  | false, true => .ok (false, fs)
  | true, true => .error (.bothExist source target)
  | false, false => .error (.notFound source)

/-- `ModGraph.node_paths`: the (enabled, disabled) path pair of a node.
`config.root / path` is string concatenation with a separator, and
`with_name(name + DISABLED_SUFFIX)` appends the suffix to the path. -/
def node_paths (c : Config) (n : ModNode) : String × String :=
  (c.root ++ "/" ++ n.path, c.root ++ "/" ++ n.path ++ DISABLED_SUFFIX)

/-! ### Direct state operations of `ModGraph` -/

/-- `ModGraph.set_enabled`: no-op returning `False` when the target state
already holds (unless forced); otherwise updates the in-memory flag and
invokes `rename_path` toward the requested state.  A `rename_path` failure
aborts the invocation. -/
def set_enabled (c : Config) (st : St) (modid : NodeId) (enabled : Bool)
    (force : Bool := false) : Except Err (Bool × St) :=
  match st.g.find? modid with
  | none => .error (.keyError modid)
  | some none => .error (.attrError modid)
  | some (some node) =>
    if !force && enabled == node.enabled then
      .ok (false, st)
    else
      let g' := st.g.setNode modid (some { node with enabled := enabled })
      let (enabledPath, disabledPath) := node_paths c node
      let (source, target) :=
        if enabled then (disabledPath, enabledPath) else (enabledPath, disabledPath)
      match rename_path st.fs source target with
      | .error e => .error e
      | .ok (changed, fs') => .ok (changed, { g := g', fs := fs' })

def enable (c : Config) (st : St) (modid : NodeId) : Except Err (Bool × St) :=
  set_enabled c st modid true

def disable (c : Config) (st : St) (modid : NodeId) : Except Err (Bool × St) :=
  set_enabled c st modid false

/-- `ModGraph.set_good`: `self.G.add_node(modid, is_good=is_good)`.  In the
modelled flows it is only invoked on existing metadata-carrying nodes, so the
other cases leave the graph unchanged. -/
def set_good (g : Graph) (modid : NodeId) (v : Option Bool) : Graph :=
  match g.find? modid with
  | some (some n) => g.setNode modid (some { n with is_good := some v })
  | _ => g

/-! ### Queries -/

/-- The unlocked (pending) nodes, in graph order, with their records.
(`pending_nodes` in the source; attribute-less nodes never reach this point
in the modelled flows.) -/
def Graph.pendingNodes (g : Graph) : List (NodeId × ModNode) :=
  g.nodes.filterMap fun p =>
    match p.2 with
    | some n => if n.locked then none else some (p.1, n)
    | none => none

def Graph.pendingIds (g : Graph) : List NodeId :=
  g.pendingNodes.map Prod.fst

/-- `ModGraph.count_nodes` -> (enabled, disabled, total): locked nodes count
only toward the total. -/
def count_nodes (g : Graph) : Nat × Nat × Nat :=
  g.nodes.foldl
    (fun acc p =>
      match p.2 with
      | some n =>
        if n.locked then (acc.1, acc.2.1, acc.2.2 + 1)
        else if n.enabled then (acc.1 + 1, acc.2.1, acc.2.2 + 1)
        else (acc.1, acc.2.1 + 1, acc.2.2 + 1)
      | none => (acc.1, acc.2.1, acc.2.2 + 1))
    (0, 0, 0)

/-- An attribute dict counts as unlocked-and-enabled. -/
def predE : Option ModNode → Bool
  | some n => !n.locked && n.enabled
  | none => false

/-- The number of unlocked, enabled nodes (the first component of
`count_nodes`). -/
def cntEnabled (g : Graph) : Nat :=
  g.nodes.countP fun p => predE p.2

/-! ### Reconciliation (`ModGraph.sync`) -/

/-- Step 1 of `sync`: for every override `modid -> enabled`, look the node up
(`KeyError` when absent) and merge `{"locked": True, "enabled": enabled}`.
Fidelity note: on a metadata-less node Python builds a partial attribute dict
here and the same `sync` call then fails with a `KeyError` on the missing
`path` attribute in step 6; the model fails at the point the partial record
would be created, since every modelled flow only distinguishes whether `sync`
completes. -/
def applyOverrides (ovs : List (NodeId × Bool)) (g : Graph) : Except Err Graph :=
  match ovs with
  | [] => .ok g
  | (id, v) :: rest =>
    match g.find? id with
    | none => .error (.keyError id)
    | some none => .error (.attrError id)
    | some (some n) =>
      applyOverrides rest (g.setNode id (some { n with locked := true, enabled := v }))

/-- Step 2 of `sync`: splice the configured extra dependency edges in. -/
def addExtraDeps (eds : List (NodeId × List NodeId)) (g : Graph) : Graph :=
  eds.foldl (fun g p => p.2.foldl (fun g d => g.addEdge p.1 d) g) g

/-- Step 3 of `sync`: remove every node whose attribute dict is empty,
together with its incident edges. -/
def removeEmptyNodes (g : Graph) : Graph :=
  let keep := g.nodes.filter fun p => p.2.isSome
  let keptIds := keep.map Prod.fst
  { nodes := keep
    edges := g.edges.filter fun e => keptIds.contains e.1 && keptIds.contains e.2 }

/-- Steps 1-3 of `sync` combined (the part that runs before the acyclicity
check and the propagation walk). -/
def stage123 (c : Config) (g : Graph) : Except Err Graph :=
  (applyOverrides c.overrides g).map fun g1 => removeEmptyNodes (addExtraDeps c.extra_deps g1)

/-- The edges of the pending view (both endpoints unlocked). -/
def Graph.pendingEdges (g : Graph) : List (NodeId × NodeId) :=
  g.edges.filter fun e => g.pendingIds.contains e.1 && g.pendingIds.contains e.2

/-- Kahn-style elimination: repeatedly delete the nodes without outgoing
edges; the node set empties iff the graph is acyclic. -/
def acyclicAux : Nat → List NodeId → List (NodeId × NodeId) → Bool
  | _, [], _ => true
  | 0, _ :: _, _ => false
  | fuel + 1, id :: ids, edges =>
    let remaining := id :: ids
    let sinks := remaining.filter fun a => !(edges.any fun e => e.1 == a)
    if sinks.isEmpty then false
    else
      acyclicAux fuel (remaining.filter fun a => !(sinks.contains a))
        (edges.filter fun e => !(sinks.contains e.1) && !(sinks.contains e.2))

/-- `ModGraph.assert_acyclic_pending`: `nx.find_cycle` over the pending view
finds no cycle. -/
def pendingAcyclic (g : Graph) : Bool :=
  acyclicAux g.pendingIds.length g.pendingIds g.pendingEdges

/-- The ancestor scan in step 5 of `sync`: whether some ancestor of `modid`
is currently enabled (Python breaks at the first enabled ancestor; `any` has
the same value). -/
def anyEnabledAncestor (g : Graph) (modid : NodeId) : Bool :=
  (g.ancestors modid).any fun a =>
    match g.find? a with
    | some (some n) => n.enabled
    | _ => false

/-- One iteration of the step 5-6 walk of `sync`: enable the node if an
ancestor is enabled, then force-apply the resulting state to the filesystem. -/
def syncStep (c : Config) (st : St) (modid : NodeId) : Except Err St :=
  match st.g.find? modid with
  | none => .error (.keyError modid)
  | some none => .error (.attrError modid)
  | some (some node) =>
    let e := node.enabled || anyEnabledAncestor st.g modid
    let st' : St := { st with g := st.g.setNode modid (some { node with enabled := e }) }
    match set_enabled c st' modid e true with
    | .error err => .error err
    | .ok (_, st'') => .ok st''

/-- The step 5-6 walk of `sync` over a topological order of the graph. -/
def propagate (c : Config) (st : St) : List NodeId → Except Err St
  | [] => .ok st
  | modid :: rest =>
    match syncStep c st modid with
    | .error e => .error e
    | .ok st' => propagate c st' rest

/-- `ModGraph.sync`, with the order produced by `nx.topological_sort` over
the cleaned-up graph passed explicitly. -/
def sync (c : Config) (st : St) (ord : List NodeId) : Except Err St :=
  match stage123 c st.g with
  | .error e => .error e
  | .ok g3 =>
    if pendingAcyclic g3 then propagate c { st with g := g3 } ord
    else .error .cycleError

/-! ### Bisection (`ModGraph.bisect`) -/

/-- The walk of `bisect`: skip locked nodes, attempt to disable every other
node, count only state-changing disables, stop once the target is reached.
Returns the final state together with the `newly_disabled` counter. -/
def bisectLoop (c : Config) (st : St) (ord : List NodeId) (to_disable : Nat)
    (newly : Nat) : Except Err (St × Nat) :=
  match ord with
  | [] => .ok (st, newly)
  | modid :: rest =>
    match st.g.find? modid with
    | none => .error (.keyError modid)
    | some none => .error (.attrError modid)
    | some (some node) =>
      if node.locked then bisectLoop c st rest to_disable newly
      else
        match disable c st modid with
        | .error e => .error e
        | .ok (changed, st') =>
          if changed then
            if newly + 1 ≥ to_disable then .ok (st', newly + 1)
            else bisectLoop c st' rest to_disable (newly + 1)
          else bisectLoop c st' rest to_disable newly

/-- `ModGraph.bisect`, with the `nx.topological_sort` order passed
explicitly: target `enabled // 2` newly disabled nodes.  (The running
`enabled` counter of the source is only used for the progress message and is
omitted.) -/
def bisect (c : Config) (st : St) (ord : List NodeId) : Except Err St :=
  let enabled := (count_nodes st.g).1
  match bisectLoop c st ord (enabled / 2) 0 with
  | .error e => .error e
  | .ok (st', _) => .ok st'

/-! ### Verdict operations -/

/-- `ModGraph.set_disabled_good`: mark every unlocked, currently-disabled
node with `is_good = True`.  A pure graph operation (no filesystem access). -/
def set_disabled_good (g : Graph) : Graph :=
  g.pendingNodes.foldl
    (fun g p => if !p.2.enabled then set_good g p.1 (some true) else g) g

/-- One step of the inner loop of `enableWithDeps`: enable a descendant and
discard it from the `to_disable` set. -/
def ewdStep (c : Config) (acc : St × List NodeId) (d : NodeId) :
    Except Err (St × List NodeId) :=
  match enable c acc.1 d with
  | .error e => .error e
  | .ok (_, st2) => .ok (st2, acc.2.erase d)

/-- The body of the first loop of `set_enabled_good` for one element of
`to_enable`: enable it, then enable all of its descendants, discarding each
from the `to_disable` set. -/
def enableWithDeps (c : Config) (acc : St × List NodeId) (modid : NodeId) :
    Except Err (St × List NodeId) :=
  match enable c acc.1 modid with
  | .error e => .error e
  | .ok (_, st1) => (st1.g.descendants modid).foldlM (ewdStep c) (st1, acc.2)

/-- The body of the second loop of `set_enabled_good`: disable the node and
record `is_good = True` on it. -/
def sdgStep (c : Config) (st : St) (m : NodeId) : Except Err St :=
  match disable c st m with
  | .error e => .error e
  | .ok (_, st2) => .ok { st2 with g := set_good st2.g m (some true) }

/-- `ModGraph.set_enabled_good`: partition the pending nodes by `enabled`;
re-enable every disabled one together with all of its descendants (removing
those from the disable set); disable and mark `is_good = True` everything
left.  The Python sets are enumerated in the graph's node order. -/
def set_enabled_good (c : Config) (st : St) : Except Err St :=
  let pend := st.g.pendingNodes
  let to_enable := (pend.filter fun p => !p.2.enabled).map Prod.fst
  let to_disable := (pend.filter fun p => p.2.enabled).map Prod.fst
  match to_enable.foldlM (enableWithDeps c) (st, to_disable) with
  | .error e => .error e
  | .ok (st1, to_disable') => to_disable'.foldlM (sdgStep c) st1

/-! ### `mod_log.py` -/

/-- `LOG_PATTERN.format(i)` from `mod_log.py`. -/
def logPattern (s : String) : String := "log_" ++ s ++ ".json"

/-- `next_log`: the next segment name is indexed by the number of existing
segments. -/
def next_log (paths : List String) : String := logPattern (toString paths.length)

/-- Python string comparison: lexicographic over code points. -/
def strLtAux : List Char → List Char → Bool
  | [], [] => false
  | [], _ :: _ => true
  | _ :: _, [] => false
  | a :: as, b :: bs =>
    if a.toNat < b.toNat then true
    else if b.toNat < a.toNat then false
    else strLtAux as bs

def strLt (a b : String) : Bool := strLtAux a.data b.data

/-- Python's `max` over a non-empty iterable: left fold keeping the current
value unless the candidate is strictly greater.  `Path` comparison on
single-component relative paths is lexicographic string comparison. -/
def pyMax : List String → Option String
  | [] => none
  | p :: rest => some (rest.foldl (fun acc x => if strLt acc x then x else acc) p)

/-- The segment `load_log` reads (`max(paths)`), `none` when no segment
exists (then `load_log` returns the empty log). -/
def load_log_segment (paths : List String) : Option String := pyMax paths

/-- The segment `save_log` writes: `max(paths) if paths else next_log([])`. -/
def save_log_segment (paths : List String) : String :=
  match pyMax paths with
  | some p => p
  | none => next_log []

/-! ### Derived predicates used by the testable properties -/

/-- The dependency-closure invariant on the unlocked subgraph: for every edge
`A -> B` with both ends unlocked, `A.enabled` implies `B.enabled`. -/
def closureB (g : Graph) : Bool :=
  g.edges.all fun e =>
    !(g.locked? e.1 == some false) || !(g.locked? e.2 == some false) ||
      !(g.enabled? e.1 == some true) || (g.enabled? e.2 == some true)

/-- All enabled-form and disabled-form paths of the graph's nodes, in node
order. -/
def nodePathList (c : Config) (g : Graph) : List String :=
  g.nodes.foldr
    (fun p acc =>
      match p.2 with
      | some n => (node_paths c n).1 :: (node_paths c n).2 :: acc
      | none => acc)
    []

/-- No two artifact paths (enabled or disabled form, across all nodes)
coincide. -/
def pathsOK (c : Config) (g : Graph) : Bool :=
  decide (nodePathList c g).Nodup

/-! ### Concrete instances (used by witnesses and counterexamples) -/

def cW : Config := { root := "r", overrides := [], extra_deps := [] }

def nW : ModNode := { name := "A", path := "a.jar", enabled := true, locked := false }

def stW : St := { g := { nodes := [("A", some nW)], edges := [] }, fs := ["r/a.jar"] }

/-- Two-node chain `A -> B`, both enabled, both unlocked, filesystem in the
matching state. -/
def gW2 : Graph :=
  { nodes :=
      [("A", some { name := "A", path := "a.jar", enabled := true, locked := false }),
       ("B", some { name := "B", path := "b.jar", enabled := true, locked := false })]
    edges := [("A", "B")] }

def stW2 : St := { g := gW2, fs := ["r/a.jar", "r/b.jar"] }

/-- Override scenario: `X` enabled and unlocked, `Y` disabled with a `false`
override, edge `X -> Y`. -/
def cC2 : Config := { root := "r", overrides := [("Y", false)], extra_deps := [] }

def stC2 : St :=
  { g :=
      { nodes :=
          [("X", some { name := "X", path := "x.jar", enabled := true, locked := false }),
           ("Y", some { name := "Y", path := "y.jar", enabled := false, locked := false })]
        edges := [("X", "Y")] }
    fs := ["r/x.jar", "r/y.jar.disabled"] }

/-- The cleaned-up graph `stage123` produces from `stC2` under `cC2`:
the override has locked `Y` disabled. -/
def gC2s : Graph :=
  { nodes :=
      [("X", some { name := "X", path := "x.jar", enabled := true, locked := false }),
       ("Y", some { name := "Y", path := "y.jar", enabled := false, locked := true })]
    edges := [("X", "Y")] }

/-- The state `sync` produces from `stC2` under `cC2`: the propagation walk
has re-enabled the locked `Y` because its ancestor `X` is enabled. -/
def stC2s : St :=
  { g :=
      { nodes :=
          [("X", some { name := "X", path := "x.jar", enabled := true, locked := false }),
           ("Y", some { name := "Y", path := "y.jar", enabled := true, locked := true })]
        edges := [("X", "Y")] }
    fs := ["r/x.jar", "r/y.jar"] }

/-- One unlocked, disabled node. -/
def gC3 : Graph :=
  { nodes := [("A", some { name := "A", path := "a.jar", enabled := false, locked := false })]
    edges := [] }

/-- `set_enabled_good` scenario: `D` disabled and unlocked, `B` an enabled
dependency of `D`, `C` enabled and unrelated. -/
def stC4 : St :=
  { g :=
      { nodes :=
          [("D", some { name := "D", path := "d.jar", enabled := false, locked := false }),
           ("B", some { name := "B", path := "b.jar", enabled := true, locked := false }),
           ("C", some { name := "C", path := "c.jar", enabled := true, locked := false })]
        edges := [("D", "B")] }
    fs := ["r/d.jar.disabled", "r/b.jar", "r/c.jar"] }

/-- The state `bisect` produces from `stW2` with walk order `[A, B]`:
target `2 / 2 = 1`, `A` (the dependent) disabled first. -/
def stW2b : St :=
  { g :=
      { nodes :=
          [("A", some { name := "A", path := "a.jar", enabled := false, locked := false }),
           ("B", some { name := "B", path := "b.jar", enabled := true, locked := false })]
        edges := [("A", "B")] }
    fs := ["r/b.jar", "r/a.jar.disabled"] }

/-- Eleven log segments, indices 0 through 10. -/
def elevenLogs : List String :=
  ["log_0.json", "log_1.json", "log_2.json", "log_3.json", "log_4.json",
   "log_5.json", "log_6.json", "log_7.json", "log_8.json", "log_9.json",
   "log_10.json"]

/-- What a sequence of `enable` calls may do to the graph: keys and edges
unchanged, `enabled` flags possibly raised (never lowered from `true`), all
other fields untouched. -/
def eShape (g g' : Graph) : Prop :=
  g'.edges = g.edges ∧
  g'.nodes.map Prod.fst = g.nodes.map Prod.fst ∧
  (∀ id, g.find? id = none → g'.find? id = none) ∧
  (∀ id, g.find? id = some none → g'.find? id = some none) ∧
  (∀ id n, g.find? id = some (some n) →
    ∃ e, g'.find? id = some (some { n with enabled := e }) ∧ (n.enabled = true → e = true))

/-- Replace the `enabled` flag of a (possibly attribute-less) node value by a
prescribed value when its id is still to be walked. -/
def overlayV (pre : NodeId → Bool) (rem : List NodeId) (k : NodeId)
    (w : Option ModNode) : Option ModNode :=
  if k ∈ rem then w.map fun nf => { nf with enabled := pre k } else w

/-- The node-table entry transformation induced by `overlayV`. -/
def enabledOverlay (pre : NodeId → Bool) (rem : List NodeId)
    (p : NodeId × Option ModNode) : NodeId × Option ModNode :=
  (p.1, overlayV pre rem p.1 p.2)

/-- The projection of a node-table entry that the pending view depends on:
the key and the `locked` flag. -/
def lockEntry (p : NodeId × Option ModNode) : NodeId × Option Bool :=
  (p.1, p.2.map fun n => n.locked)

/-- The key selector underlying `pendingIds`. -/
def pendSel (p : NodeId × Option ModNode) : Option NodeId :=
  match p.2 with
  | some n => if n.locked then none else some p.1
  | none => none

/-- Pairwise distinctness of the artifact paths of distinct nodes. -/
def distinctPaths (c : Config) (g : Graph) : Prop :=
  ∀ x y nx ny, x ≠ y → g.find? x = some (some nx) → g.find? y = some (some ny) →
    (node_paths c nx).1 ≠ (node_paths c ny).1 ∧ (node_paths c nx).1 ≠ (node_paths c ny).2 ∧
    (node_paths c nx).2 ≠ (node_paths c ny).1 ∧ (node_paths c nx).2 ≠ (node_paths c ny).2

/-! ### Basic lemmas about the node table -/

theorem lookupN_eq_none (l : List (NodeId × Option ModNode)) (id : NodeId) :
    lookupN l id = none ↔ id ∉ l.map Prod.fst := by
  induction l with
  | nil => simp [lookupN]
  | cons p rest ih =>
    by_cases h : p.1 = id
    · simp [lookupN, h]
    · simp only [lookupN, if_neg h, List.map_cons, List.mem_cons, not_or, ih]
      have hne : ¬id = p.1 := fun he => h he.symm
      tauto

theorem lookupN_isSome (l : List (NodeId × Option ModNode)) (id : NodeId) :
    (lookupN l id).isSome = true ↔ id ∈ l.map Prod.fst := by
  rw [Option.isSome_iff_ne_none, not_iff_comm, ← lookupN_eq_none]

theorem lookupN_setN_self (l : List (NodeId × Option ModNode)) (id : NodeId)
    (v : Option ModNode) :
    lookupN (setN l id v) id = if (lookupN l id).isSome then some v else none := by
  induction l with
  | nil => simp [lookupN, setN]
  | cons p rest ih =>
    by_cases h : p.1 = id <;> simp [lookupN, setN, h, ih]

theorem lookupN_setN_ne (l : List (NodeId × Option ModNode)) (id id' : NodeId)
    (v : Option ModNode) (h : id' ≠ id) :
    lookupN (setN l id v) id' = lookupN l id' := by
  induction l with
  | nil => simp [setN]
  | cons p rest ih =>
    by_cases hp : p.1 = id
    · subst hp
      simp [setN, lookupN, Ne.symm h, ih]
    · by_cases hp' : p.1 = id' <;> simp [setN, lookupN, hp, hp', h, ih]

theorem setN_map_fst (l : List (NodeId × Option ModNode)) (id : NodeId)
    (v : Option ModNode) : (setN l id v).map Prod.fst = l.map Prod.fst := by
  induction l with
  | nil => rfl
  | cons p rest ih =>
    by_cases h : p.1 = id <;> simp [setN, h, ih]

theorem setN_absent (l : List (NodeId × Option ModNode)) (id : NodeId)
    (v : Option ModNode) (h : id ∉ l.map Prod.fst) : setN l id v = l := by
  induction l with
  | nil => rfl
  | cons p rest ih =>
    simp only [List.map_cons, List.mem_cons, not_or] at h
    have hne : ¬p.1 = id := fun he => h.1 he.symm
    simp [setN, hne, ih h.2]

theorem setN_lookup_self (l : List (NodeId × Option ModNode)) (id : NodeId)
    (v : Option ModNode) (hn : (l.map Prod.fst).Nodup)
    (h : lookupN l id = some v) : setN l id v = l := by
  induction l with
  | nil => rfl
  | cons p rest ih =>
    simp only [List.map_cons, List.nodup_cons] at hn
    by_cases hp : p.1 = id
    · subst hp
      have h2 : p.2 = v := by simpa [lookupN] using h
      subst h2
      simp [setN, setN_absent rest p.1 p.2 hn.1]
    · simp only [lookupN, if_neg hp] at h
      simp [setN, hp, ih hn.2 h]

/-! ### Graph-level wrappers -/

theorem find?_setNode_self (g : Graph) (id : NodeId) (v : Option ModNode)
    (h : (g.find? id).isSome) : (g.setNode id v).find? id = some v := by
  unfold Graph.find? Graph.setNode at *
  simp [lookupN_setN_self, h]

theorem find?_setNode_ne (g : Graph) (id id' : NodeId) (v : Option ModNode)
    (h : id' ≠ id) : (g.setNode id v).find? id' = g.find? id' := by
  unfold Graph.find? Graph.setNode
  simpa using lookupN_setN_ne g.nodes id id' v h

theorem ids_setNode (g : Graph) (id : NodeId) (v : Option ModNode) :
    (g.setNode id v).ids = g.ids := by
  unfold Graph.ids Graph.setNode
  simpa using setN_map_fst g.nodes id v

theorem edges_setNode (g : Graph) (id : NodeId) (v : Option ModNode) :
    (g.setNode id v).edges = g.edges := rfl

theorem setNode_self (g : Graph) (id : NodeId) (v : Option ModNode)
    (hn : g.ids.Nodup) (h : g.find? id = some v) : g.setNode id v = g := by
  unfold Graph.setNode
  rw [setN_lookup_self g.nodes id v hn h]

theorem find?_isSome_iff_mem_ids (g : Graph) (id : NodeId) :
    (g.find? id).isSome = true ↔ id ∈ g.ids :=
  lookupN_isSome g.nodes id

/-- Eta for the `enabled` field. -/
theorem ModNode.update_enabled_self (n : ModNode) : { n with enabled := n.enabled } = n := rfl

/-- Overwriting an already-true `locked` field changes nothing. -/
theorem ModNode.update_locked_true (n : ModNode) (h : n.locked = true) (e : Bool) :
    ({ n with locked := true, enabled := e } : ModNode) = { n with enabled := e } := by
  cases n
  simp_all

/-! ### Lemmas about `rename_path` and `set_enabled` -/

theorem rename_path_noop (fs : List String) (source target : String)
    (hs : source ∉ fs) (ht : target ∈ fs) :
    rename_path fs source target = .ok (false, fs) := by
  unfold rename_path
  have h1 : fs.contains source = false := by
    simpa [List.elem_iff] using hs
  have h2 : fs.contains target = true := by
    simpa [List.elem_iff] using ht
  rw [h1, h2]

theorem rename_path_move (fs : List String) (source target : String)
    (hs : source ∈ fs) (ht : target ∉ fs) :
    rename_path fs source target = .ok (true, fs.erase source ++ [target]) := by
  unfold rename_path
  have h1 : fs.contains source = true := by
    simpa [List.elem_iff] using hs
  have h2 : fs.contains target = false := by
    simpa [List.elem_iff] using ht
  rw [h1, h2]

theorem rename_path_both (fs : List String) (source target : String)
    (hs : source ∈ fs) (ht : target ∈ fs) :
    rename_path fs source target = .error (.bothExist source target) := by
  unfold rename_path
  have h1 : fs.contains source = true := by
    simpa [List.elem_iff] using hs
  have h2 : fs.contains target = true := by
    simpa [List.elem_iff] using ht
  rw [h1, h2]

theorem rename_path_neither (fs : List String) (source target : String)
    (hs : source ∉ fs) (ht : target ∉ fs) :
    rename_path fs source target = .error (.notFound source) := by
  unfold rename_path
  have h1 : fs.contains source = false := by
    simpa [List.elem_iff] using hs
  have h2 : fs.contains target = false := by
    simpa [List.elem_iff] using ht
  rw [h1, h2]

/-- Case analysis for a successful rename. -/
theorem rename_path_ok_cases (fs : List String) (source target : String)
    (b : Bool) (fs' : List String)
    (h : rename_path fs source target = .ok (b, fs')) :
    (b = false ∧ fs' = fs ∧ source ∉ fs ∧ target ∈ fs) ∨
    (b = true ∧ fs' = fs.erase source ++ [target] ∧ source ∈ fs ∧ target ∉ fs) := by
  unfold rename_path at h
  rcases hs : fs.contains source <;> rcases ht : fs.contains target <;>
    rw [hs, ht] at h <;> simp_all [List.elem_iff]

/-- Membership in the result of a successful rename, for a path distinct from
both endpoints. -/
theorem rename_path_ok_mem_other (fs : List String) (source target : String)
    (b : Bool) (fs' : List String) (p : String)
    (h : rename_path fs source target = .ok (b, fs'))
    (hps : p ≠ source) (hpt : p ≠ target) : p ∈ fs' ↔ p ∈ fs := by
  rcases rename_path_ok_cases fs source target b fs' h with ⟨_, rfl, _, _⟩ | ⟨_, rfl, _, _⟩
  · exact Iff.rfl
  · simp [List.mem_erase_of_ne hps, hpt]

/-- A successful rename preserves `Nodup` of the path set. -/
theorem rename_path_ok_nodup (fs : List String) (source target : String)
    (b : Bool) (fs' : List String)
    (h : rename_path fs source target = .ok (b, fs')) (hn : fs.Nodup) :
    fs'.Nodup := by
  rcases rename_path_ok_cases fs source target b fs' h with ⟨_, rfl, _, _⟩ | ⟨_, rfl, _, ht⟩
  · exact hn
  · refine List.Nodup.append (hn.erase source) (List.nodup_singleton target) ?_
    intro x hx hx'
    simp only [List.mem_singleton] at hx'
    subst hx'
    exact ht (List.mem_of_mem_erase hx)

/-- After a successful rename the target exists and (for a duplicate-free
path set) the source does not. -/
theorem rename_path_move_result (fs : List String) (source target : String)
    (fs' : List String) (hn : fs.Nodup)
    (h : rename_path fs source target = .ok (true, fs')) :
    target ∈ fs' ∧ source ∉ fs' := by
  rcases rename_path_ok_cases fs source target true fs' h with ⟨hb, _, _, _⟩ | ⟨_, rfl, hs, ht⟩
  · cases hb
  · constructor
    · simp
    · intro hmem
      rcases List.mem_append.mp hmem with hmem | hmem
      · exact (List.Nodup.not_mem_erase hn) hmem
      · simp only [List.mem_singleton] at hmem
        exact ht (hmem ▸ hs)

/-- The enabled-form and disabled-form paths of a node differ. -/
theorem node_paths_ne (c : Config) (n : ModNode) :
    (node_paths c n).1 ≠ (node_paths c n).2 := by
  intro h
  have h2 := congrArg String.length h
  have hl : DISABLED_SUFFIX.length = 9 := rfl
  simp only [node_paths, String.length_append, hl] at h2
  omega

/-- The filesystem agrees with a node record: the path form matching
`enabled` exists, the other form does not. -/
def fsConsistent (c : Config) (fs : List String) (n : ModNode) : Prop :=
  (if n.enabled then (node_paths c n).1 else (node_paths c n).2) ∈ fs ∧
  (if n.enabled then (node_paths c n).2 else (node_paths c n).1) ∉ fs

/-- Full case analysis of a successful `set_enabled`. -/
theorem set_enabled_ok_cases {c : Config} {st : St} {modid : NodeId} {v force b : Bool}
    {st' : St} (h : set_enabled c st modid v force = .ok (b, st')) :
    ∃ n, st.g.find? modid = some (some n) ∧
      ((b = false ∧ st' = st ∧ (!force && (v == n.enabled)) = true) ∨
       ((!force && (v == n.enabled)) = false ∧
        st'.g = st.g.setNode modid (some { n with enabled := v }) ∧
        rename_path st.fs
          (if v then (node_paths c n).2 else (node_paths c n).1)
          (if v then (node_paths c n).1 else (node_paths c n).2) = .ok (b, st'.fs))) := by
  unfold set_enabled at h
  cases hfind : st.g.find? modid with
  | none => rw [hfind] at h; cases h
  | some o =>
    cases o with
    | none => rw [hfind] at h; cases h
    | some n =>
      rw [hfind] at h
      dsimp only at h
      refine ⟨n, rfl, ?_⟩
      by_cases hc : (!force && (v == n.enabled)) = true
      · rw [if_pos hc] at h
        cases h
        exact Or.inl ⟨rfl, rfl, hc⟩
      · rw [if_neg hc] at h
        refine Or.inr ⟨by simpa using hc, ?_⟩
        cases v with
        | true =>
          dsimp only [node_paths] at h ⊢
          simp only [if_pos rfl, eq_self_iff_true, if_true] at h ⊢
          cases hr : rename_path st.fs (c.root ++ "/" ++ n.path ++ DISABLED_SUFFIX)
              (c.root ++ "/" ++ n.path) with
          | error e => rw [hr] at h; cases h
          | ok p =>
            obtain ⟨chg, fs2⟩ := p
            rw [hr] at h
            cases h
            exact ⟨rfl, by simp [hr]⟩
        | false =>
          dsimp only [node_paths] at h ⊢
          simp only [Bool.false_eq_true, if_false] at h ⊢
          cases hr : rename_path st.fs (c.root ++ "/" ++ n.path)
              (c.root ++ "/" ++ n.path ++ DISABLED_SUFFIX) with
          | error e => rw [hr] at h; cases h
          | ok p =>
            obtain ⟨chg, fs2⟩ := p
            rw [hr] at h
            cases h
            exact ⟨rfl, by simp [hr]⟩

theorem set_enabled_ok_edges {c : Config} {st : St} {modid : NodeId} {v force b : Bool}
    {st' : St} (h : set_enabled c st modid v force = .ok (b, st')) :
    st'.g.edges = st.g.edges := by
  rcases set_enabled_ok_cases h with ⟨n, _, ⟨_, rfl, _⟩ | ⟨_, hg, _⟩⟩
  · rfl
  · rw [hg]; rfl

theorem set_enabled_ok_keys {c : Config} {st : St} {modid : NodeId} {v force b : Bool}
    {st' : St} (h : set_enabled c st modid v force = .ok (b, st')) :
    st'.g.nodes.map Prod.fst = st.g.nodes.map Prod.fst := by
  rcases set_enabled_ok_cases h with ⟨n, _, ⟨_, rfl, _⟩ | ⟨_, hg, _⟩⟩
  · rfl
  · rw [hg]; exact setN_map_fst _ _ _

theorem set_enabled_ok_find_ne {c : Config} {st : St} {modid : NodeId} {v force b : Bool}
    {st' : St} (h : set_enabled c st modid v force = .ok (b, st')) (id' : NodeId)
    (hne : id' ≠ modid) : st'.g.find? id' = st.g.find? id' := by
  rcases set_enabled_ok_cases h with ⟨n, _, ⟨_, rfl, _⟩ | ⟨_, hg, _⟩⟩
  · rfl
  · rw [hg]; exact find?_setNode_ne _ _ _ _ hne

theorem set_enabled_ok_find_self {c : Config} {st : St} {modid : NodeId} {v force b : Bool}
    {st' : St} {n : ModNode} (h : set_enabled c st modid v force = .ok (b, st'))
    (hfind : st.g.find? modid = some (some n)) :
    st'.g.find? modid = some (some { n with enabled := v }) := by
  rcases set_enabled_ok_cases h with ⟨m, hm, ⟨_, rfl, hc⟩ | ⟨_, hg, _⟩⟩
  · rw [hfind] at hm
    cases hm
    simp only [Bool.and_eq_true, beq_iff_eq] at hc
    rw [hc.2, ModNode.update_enabled_self]
    exact hfind
  · rw [hfind] at hm
    cases hm
    rw [hg]
    exact find?_setNode_self _ _ _ (by rw [hfind]; rfl)

theorem set_enabled_ok_fs_other {c : Config} {st : St} {modid : NodeId} {v force b : Bool}
    {st' : St} {n : ModNode} (h : set_enabled c st modid v force = .ok (b, st'))
    (hfind : st.g.find? modid = some (some n)) (p : String)
    (hp1 : p ≠ (node_paths c n).1) (hp2 : p ≠ (node_paths c n).2) :
    p ∈ st'.fs ↔ p ∈ st.fs := by
  rcases set_enabled_ok_cases h with ⟨m, hm, ⟨_, rfl, _⟩ | ⟨_, _, hr⟩⟩
  · exact Iff.rfl
  · rw [hfind] at hm
    cases hm
    cases v with
    | true => exact rename_path_ok_mem_other _ _ _ _ _ p hr hp2 hp1
    | false => exact rename_path_ok_mem_other _ _ _ _ _ p hr hp1 hp2

theorem set_enabled_ok_fs_nodup {c : Config} {st : St} {modid : NodeId} {v force b : Bool}
    {st' : St} (h : set_enabled c st modid v force = .ok (b, st'))
    (hn : st.fs.Nodup) : st'.fs.Nodup := by
  rcases set_enabled_ok_cases h with ⟨m, hm, ⟨_, rfl, _⟩ | ⟨_, _, hr⟩⟩
  · exact hn
  · exact rename_path_ok_nodup _ _ _ _ _ hr hn

/-- A forced `set_enabled` succeeds when the filesystem is consistent with
the node's current record, and it re-establishes consistency for the updated
record while touching no other path. -/
theorem set_enabled_force_from_consistent (c : Config) (st : St) (modid : NodeId)
    (v : Bool) (n : ModNode) (hfind : st.g.find? modid = some (some n))
    (hcons : fsConsistent c st.fs n) (hnodup : st.fs.Nodup) :
    ∃ b fs', set_enabled c st modid v true =
        .ok (b, { g := st.g.setNode modid (some { n with enabled := v }), fs := fs' }) ∧
      fsConsistent c fs' ({ n with enabled := v }) ∧ fs'.Nodup ∧
      ∀ p, p ≠ (node_paths c n).1 → p ≠ (node_paths c n).2 → (p ∈ fs' ↔ p ∈ st.fs) := by
  obtain ⟨hin, hout⟩ := hcons
  have hne := node_paths_ne c n
  dsimp only [node_paths] at hin hout hne
  unfold set_enabled
  rw [hfind]
  dsimp only
  simp only [Bool.not_true, Bool.false_and, Bool.false_eq_true, if_false]
  cases hv : n.enabled with
  | true =>
    rw [hv] at hin hout
    simp only [if_pos rfl, eq_self_iff_true, if_true] at hin hout
    cases v with
    | true =>
      simp only [if_pos rfl, eq_self_iff_true, if_true]
      dsimp only [node_paths]
      rw [rename_path_noop st.fs _ _ hout hin]
      refine ⟨false, st.fs, rfl, ?_, hnodup, fun p _ _ => Iff.rfl⟩
      constructor
      · simpa [node_paths] using hin
      · simpa [node_paths] using hout
    | false =>
      simp only [Bool.false_eq_true, if_false]
      dsimp only [node_paths]
      rw [rename_path_move st.fs _ _ hin hout]
      refine ⟨true, _, rfl, ?_, ?_, ?_⟩
      · constructor
        · simp [node_paths]
        · simp only [node_paths, Bool.false_eq_true, if_false]
          intro hmem
          rcases List.mem_append.mp hmem with hmem | hmem
          · exact (List.Nodup.not_mem_erase hnodup) hmem
          · simp only [List.mem_singleton] at hmem
            exact hne hmem
      · exact rename_path_ok_nodup st.fs _ _ _ _
          (rename_path_move st.fs _ _ hin hout) hnodup
      · intro p hp1 hp2
        simp [List.mem_erase_of_ne hp1, hp2]
  | false =>
    rw [hv] at hin hout
    simp only [Bool.false_eq_true, if_false] at hin hout
    cases v with
    | true =>
      simp only [if_pos rfl, eq_self_iff_true, if_true]
      dsimp only [node_paths]
      rw [rename_path_move st.fs _ _ hin hout]
      refine ⟨true, _, rfl, ?_, ?_, ?_⟩
      · constructor
        · simp [node_paths]
        · simp only [node_paths, if_pos rfl, eq_self_iff_true, if_true]
          intro hmem
          rcases List.mem_append.mp hmem with hmem | hmem
          · exact (List.Nodup.not_mem_erase hnodup) hmem
          · simp only [List.mem_singleton] at hmem
            exact hne hmem.symm
      · exact rename_path_ok_nodup st.fs _ _ _ _
          (rename_path_move st.fs _ _ hin hout) hnodup
      · intro p hp1 hp2
        simp [List.mem_erase_of_ne hp2, hp1]
    | false =>
      simp only [Bool.false_eq_true, if_false]
      dsimp only [node_paths]
      rw [rename_path_noop st.fs _ _ hout hin]
      refine ⟨false, st.fs, rfl, ?_, hnodup, fun p _ _ => Iff.rfl⟩
      constructor
      · simpa [node_paths] using hin
      · simpa [node_paths] using hout

/-! ### Reachability lemmas -/

/-- Path relation along the edge list (reflexive-transitive closure). -/
inductive Reaches (edges : List (NodeId × NodeId)) : NodeId → NodeId → Prop
  | refl (a : NodeId) : Reaches edges a a
  | head {a b c : NodeId} : (a, b) ∈ edges → Reaches edges b c → Reaches edges a c

theorem Reaches.trans {edges : List (NodeId × NodeId)} {a b c : NodeId}
    (h1 : Reaches edges a b) (h2 : Reaches edges b c) : Reaches edges a c := by
  induction h1 with
  | refl => exact h2
  | head he _ ih => exact Reaches.head he (ih h2)

/-- `expand` only appends to the accumulator. -/
theorem mem_expand_of_mem (edges sub : List (NodeId × NodeId)) (acc : List NodeId)
    (x : NodeId) (hx : x ∈ acc) :
    x ∈ sub.foldl
      (fun acc e => if acc.contains e.1 && !acc.contains e.2 then acc ++ [e.2] else acc)
      acc := by
  induction sub generalizing acc with
  | nil => exact hx
  | cons e rest ih =>
    refine ih _ ?_
    dsimp only
    by_cases hc : (acc.contains e.1 && !acc.contains e.2) = true
    · rw [if_pos hc]
      exact List.mem_append_left _ hx
    · rw [if_neg hc]
      exact hx

theorem mem_expand (edges : List (NodeId × NodeId)) (acc : List NodeId)
    (x : NodeId) (hx : x ∈ acc) : x ∈ expand edges acc :=
  mem_expand_of_mem edges edges acc x hx

/-- Everything `expand` adds is reachable from the accumulator. -/
theorem expand_sound_aux (edges sub : List (NodeId × NodeId)) (acc : List NodeId)
    (hsub : ∀ e ∈ sub, e ∈ edges) (x : NodeId)
    (hx : x ∈ sub.foldl
      (fun acc e => if acc.contains e.1 && !acc.contains e.2 then acc ++ [e.2] else acc)
      acc) :
    ∃ y ∈ acc, Reaches edges y x := by
  induction sub generalizing acc with
  | nil => exact ⟨x, hx, Reaches.refl x⟩
  | cons e rest ih =>
    simp only [List.foldl_cons] at hx
    have hsub' : ∀ e' ∈ rest, e' ∈ edges := fun e' he' => hsub e' (List.mem_cons_of_mem e he')
    by_cases hc : (acc.contains e.1 && !acc.contains e.2) = true
    · rw [if_pos hc] at hx
      obtain ⟨y, hy, hr⟩ := ih (acc ++ [e.2]) hsub' hx
      rcases List.mem_append.mp hy with hy | hy
      · exact ⟨y, hy, hr⟩
      · simp only [List.mem_singleton] at hy
        subst hy
        have he1 : e.1 ∈ acc := by
          simp only [Bool.and_eq_true] at hc
          exact (List.elem_iff).mp hc.1
        have hedge : (e.1, e.2) ∈ edges := hsub e (List.mem_cons_self e rest)
        exact ⟨e.1, he1, Reaches.head hedge hr⟩
    · rw [if_neg hc] at hx
      exact ih acc hsub' hx

theorem expand_sound (edges : List (NodeId × NodeId)) (acc : List NodeId)
    (x : NodeId) (hx : x ∈ expand edges acc) : ∃ y ∈ acc, Reaches edges y x :=
  expand_sound_aux edges edges acc (fun _ he => he) x hx

theorem reachableFrom_sound (edges : List (NodeId × NodeId)) (fuel : Nat)
    (acc : List NodeId) (x : NodeId) (hx : x ∈ reachableFrom edges fuel acc) :
    ∃ y ∈ acc, Reaches edges y x := by
  induction fuel generalizing acc with
  | zero => exact ⟨x, hx, Reaches.refl x⟩
  | succ fuel ih =>
    obtain ⟨y, hy, hr⟩ := ih (expand edges acc) hx
    obtain ⟨z, hz, hr'⟩ := expand_sound edges acc y hy
    exact ⟨z, hz, hr'.trans hr⟩

theorem mem_reachableFrom_of_mem (edges : List (NodeId × NodeId)) (fuel : Nat)
    (acc : List NodeId) (x : NodeId) (hx : x ∈ acc) :
    x ∈ reachableFrom edges fuel acc := by
  induction fuel generalizing acc with
  | zero => exact hx
  | succ fuel ih => exact ih _ (mem_expand edges acc x hx)

/-- A single edge step lands in `expand`. -/
theorem mem_expand_of_edge_aux (edges sub : List (NodeId × NodeId)) (acc : List NodeId)
    (a b : NodeId) (he : (a, b) ∈ sub) (ha : a ∈ acc) :
    b ∈ sub.foldl
      (fun acc e => if acc.contains e.1 && !acc.contains e.2 then acc ++ [e.2] else acc)
      acc := by
  induction sub generalizing acc with
  | nil => cases he
  | cons e rest ih =>
    simp only [List.foldl_cons]
    rcases List.mem_cons.mp he with he | he
    · subst he
      by_cases hc : (acc.contains a && !acc.contains b) = true
      · rw [if_pos hc]
        exact mem_expand_of_mem edges rest _ b (by simp)
      · rw [if_neg hc]
        have hb : b ∈ acc := by
          by_contra hb
          apply hc
          have h1 : acc.contains a = true := List.elem_iff.mpr ha
          have h2 : acc.contains b = false := by
            rcases Bool.eq_false_or_eq_true (acc.contains b) with h | h
            · exact absurd (List.elem_iff.mp h) hb
            · exact h
          rw [h1, h2]
          rfl
        exact mem_expand_of_mem edges rest _ b hb
    · refine ih _ he ?_
      dsimp only
      by_cases hc : (acc.contains e.1 && !acc.contains e.2) = true
      · rw [if_pos hc]
        exact List.mem_append_left _ ha
      · rw [if_neg hc]
        exact ha

theorem mem_expand_of_edge (edges : List (NodeId × NodeId)) (acc : List NodeId)
    (a b : NodeId) (he : (a, b) ∈ edges) (ha : a ∈ acc) : b ∈ expand edges acc :=
  mem_expand_of_edge_aux edges edges acc a b he ha

/-- One edge suffices to appear in `reachableFrom` with positive fuel. -/
theorem mem_reachableFrom_of_edge (edges : List (NodeId × NodeId)) (fuel : Nat)
    (a b : NodeId) (he : (a, b) ∈ edges) (hfuel : 1 ≤ fuel) :
    b ∈ reachableFrom edges fuel [a] := by
  cases fuel with
  | zero => omega
  | succ fuel =>
    exact mem_reachableFrom_of_mem edges fuel _ b
      (mem_expand_of_edge edges [a] a b he (by simp))

/-- Direct edges produce ancestors. -/
theorem mem_ancestors_of_edge (g : Graph) (a b : NodeId) (he : (a, b) ∈ g.edges)
    (ha : a ∈ g.ids) (hne : a ≠ b) : a ∈ g.ancestors b := by
  unfold Graph.ancestors
  refine List.mem_filter.mpr ⟨ha, ?_⟩
  have hlen : 1 ≤ g.nodes.length := by
    unfold Graph.ids at ha
    cases hn : g.nodes with
    | nil => rw [hn] at ha; cases ha
    | cons p l => simp [hn]
  simp only [Bool.and_eq_true, decide_eq_true_eq, List.elem_iff]
  exact ⟨hne, mem_reachableFrom_of_edge g.edges g.nodes.length a b he hlen⟩

/-- Ancestors reach the target. -/
theorem ancestors_sound (g : Graph) (t a : NodeId) (ha : a ∈ g.ancestors t) :
    a ∈ g.ids ∧ a ≠ t ∧ Reaches g.edges a t := by
  unfold Graph.ancestors at ha
  have h := List.mem_filter.mp ha
  refine ⟨h.1, ?_, ?_⟩
  · have := h.2
    simp only [Bool.and_eq_true, decide_eq_true_eq] at this
    exact this.1
  · have := h.2
    simp only [Bool.and_eq_true, decide_eq_true_eq, List.elem_iff] at this
    obtain ⟨y, hy, hr⟩ := reachableFrom_sound g.edges g.nodes.length [a] t this.2
    simp only [List.mem_singleton] at hy
    subst hy
    exact hr

/-! ### Topological orders -/

/-- The contract of `nx.topological_sort`: a duplicate-free enumeration of
the node set in which every edge goes from an earlier to a later position. -/
def isTopoOrder (ids : List NodeId) (edges : List (NodeId × NodeId))
    (ord : List NodeId) : Prop :=
  ord.Nodup ∧ (∀ x ∈ ord, x ∈ ids) ∧ (∀ x ∈ ids, x ∈ ord) ∧
    ∀ e ∈ edges, ord.indexOf e.1 < ord.indexOf e.2

instance (ids : List NodeId) (edges : List (NodeId × NodeId)) (ord : List NodeId) :
    Decidable (isTopoOrder ids edges ord) := by
  unfold isTopoOrder
  infer_instance

theorem reaches_indexOf_le (edges : List (NodeId × NodeId)) (ord : List NodeId)
    (htopo : ∀ e ∈ edges, ord.indexOf e.1 < ord.indexOf e.2) (a b : NodeId)
    (h : Reaches edges a b) : ord.indexOf a ≤ ord.indexOf b := by
  induction h with
  | refl => exact le_refl _
  | head he _ ih => exact le_trans (le_of_lt (htopo _ he)) ih

theorem reaches_indexOf_lt (edges : List (NodeId × NodeId)) (ord : List NodeId)
    (htopo : ∀ e ∈ edges, ord.indexOf e.1 < ord.indexOf e.2) (a b : NodeId)
    (h : Reaches edges a b) (hne : a ≠ b) : ord.indexOf a < ord.indexOf b := by
  cases h with
  | refl => exact absurd rfl hne
  | head he hr =>
    exact lt_of_lt_of_le (htopo _ he) (reaches_indexOf_le edges ord htopo _ _ hr)

/-! ### Lemmas about `set_good` and the pending view -/

theorem lookupN_mem (l : List (NodeId × Option ModNode)) (id : NodeId)
    (v : Option ModNode) (h : lookupN l id = some v) : (id, v) ∈ l := by
  induction l with
  | nil => cases h
  | cons p rest ih =>
    by_cases hp : p.1 = id
    · rw [lookupN, if_pos hp] at h
      cases h
      subst hp
      exact List.mem_cons_self _ _
    · rw [lookupN, if_neg hp] at h
      exact List.mem_cons_of_mem _ (ih h)

theorem lookupN_of_mem_nodup (l : List (NodeId × Option ModNode)) (id : NodeId)
    (v : Option ModNode) (hmem : (id, v) ∈ l) (hn : (l.map Prod.fst).Nodup) :
    lookupN l id = some v := by
  induction l with
  | nil => cases hmem
  | cons p rest ih =>
    simp only [List.map_cons, List.nodup_cons] at hn
    rcases List.mem_cons.mp hmem with hmem | hmem
    · subst hmem
      simp [lookupN]
    · have hne : p.1 ≠ id := by
        intro he
        exact hn.1 (he ▸ (List.mem_map.mpr ⟨(id, v), hmem, rfl⟩))
      rw [lookupN, if_neg hne]
      exact ih hmem hn.2

theorem set_good_find_self (g : Graph) (id : NodeId) (v : Option Bool) (n : ModNode)
    (h : g.find? id = some (some n)) :
    (set_good g id v).find? id = some (some { n with is_good := some v }) := by
  unfold set_good
  rw [h]
  exact find?_setNode_self _ _ _ (by rw [h]; rfl)

theorem set_good_find_ne (g : Graph) (id : NodeId) (v : Option Bool) (id' : NodeId)
    (h : id' ≠ id) : (set_good g id v).find? id' = g.find? id' := by
  unfold set_good
  cases g.find? id with
  | none => rfl
  | some o =>
    cases o with
    | none => rfl
    | some n => exact find?_setNode_ne _ _ _ _ h

theorem set_good_edges (g : Graph) (id : NodeId) (v : Option Bool) :
    (set_good g id v).edges = g.edges := by
  unfold set_good
  cases g.find? id with
  | none => rfl
  | some o => cases o with
    | none => rfl
    | some n => rfl

theorem set_good_keys (g : Graph) (id : NodeId) (v : Option Bool) :
    (set_good g id v).nodes.map Prod.fst = g.nodes.map Prod.fst := by
  unfold set_good
  cases g.find? id with
  | none => rfl
  | some o => cases o with
    | none => rfl
    | some n => exact setN_map_fst _ _ _

theorem pendingNodes_mem (g : Graph) (p : NodeId × ModNode)
    (hp : p ∈ g.pendingNodes) : (p.1, some p.2) ∈ g.nodes ∧ p.2.locked = false := by
  unfold Graph.pendingNodes at hp
  obtain ⟨q, hq, hqe⟩ := List.mem_filterMap.mp hp
  cases q with
  | mk qid qv =>
    cases qv with
    | none => cases hqe
    | some m =>
      dsimp only at hqe
      by_cases hl : m.locked
      · rw [if_pos hl] at hqe; cases hqe
      · rw [if_neg hl] at hqe
        cases hqe
        exact ⟨hq, by simpa using hl⟩

theorem pendingNodes_complete (g : Graph) (id : NodeId) (n : ModNode)
    (h : g.find? id = some (some n)) (hl : n.locked = false) :
    (id, n) ∈ g.pendingNodes := by
  unfold Graph.pendingNodes
  refine List.mem_filterMap.mpr ⟨(id, some n), lookupN_mem _ _ _ h, ?_⟩
  simp [hl]

theorem pendingNodes_find (g : Graph) (p : NodeId × ModNode)
    (hp : p ∈ g.pendingNodes) (hn : g.ids.Nodup) :
    g.find? p.1 = some (some p.2) ∧ p.2.locked = false := by
  obtain ⟨hmem, hl⟩ := pendingNodes_mem g p hp
  exact ⟨lookupN_of_mem_nodup _ _ _ hmem hn, hl⟩

theorem pendingNodes_keys_sublist (g : Graph) :
    (g.pendingNodes.map Prod.fst).Sublist g.ids := by
  unfold Graph.pendingNodes Graph.ids
  induction g.nodes with
  | nil => simp
  | cons p rest ih =>
    cases p with
    | mk qid qv =>
      cases qv with
      | none => simpa using ih.cons qid
      | some m =>
        by_cases hl : m.locked
        · simp only [List.filterMap_cons]
          rw [if_pos hl]
          simpa using ih.cons qid
        · simp only [List.filterMap_cons]
          rw [if_neg hl]
          simpa using ih.cons₂ qid

theorem pendingNodes_keys_nodup (g : Graph) (hn : g.ids.Nodup) :
    (g.pendingNodes.map Prod.fst).Nodup :=
  (pendingNodes_keys_sublist g).nodup hn

/-! ### The `set_disabled_good` fold -/

theorem sdg_fold_find_notin (todo : List (NodeId × ModNode)) (g : Graph) (id : NodeId)
    (hid : id ∉ todo.map Prod.fst) :
    (todo.foldl (fun g p => if !p.2.enabled then set_good g p.1 (some true) else g) g).find? id
      = g.find? id := by
  induction todo generalizing g with
  | nil => rfl
  | cons p rest ih =>
    simp only [List.map_cons, List.mem_cons, not_or] at hid
    simp only [List.foldl_cons]
    rw [ih _ hid.2]
    by_cases he : (!p.2.enabled) = true
    · rw [if_pos he]
      exact set_good_find_ne _ _ _ _ (fun h => hid.1 h)
    · rw [if_neg he]

theorem sdg_fold_find_mem (todo : List (NodeId × ModNode)) (g : Graph) (id : NodeId)
    (n : ModNode) (hkeys : (todo.map Prod.fst).Nodup) (hmem : (id, n) ∈ todo)
    (hfind : g.find? id = some (some n)) :
    (todo.foldl (fun g p => if !p.2.enabled then set_good g p.1 (some true) else g) g).find? id
      = some (some (if n.enabled = false then { n with is_good := some (some true) } else n)) := by
  induction todo generalizing g with
  | nil => cases hmem
  | cons p rest ih =>
    simp only [List.map_cons, List.nodup_cons] at hkeys
    simp only [List.foldl_cons]
    rcases List.mem_cons.mp hmem with hmem | hmem
    · cases hmem
      have hnotin : id ∉ rest.map Prod.fst := hkeys.1
      rw [sdg_fold_find_notin rest _ id hnotin]
      by_cases he : n.enabled = false
      · rw [if_pos (by simp [he] : (!(id, n).2.enabled) = true)]
        rw [if_pos he]
        exact set_good_find_self g id (some true) n hfind
      · rw [if_neg (by simp_all : ¬(!(id, n).2.enabled) = true)]
        rw [if_neg he]
        exact hfind
    · have hne : id ≠ p.1 := by
        intro he
        exact hkeys.1 (he ▸ (List.mem_map.mpr ⟨(id, n), hmem, rfl⟩))
      have hfind' :
          (if (!p.2.enabled) = true then set_good g p.1 (some true) else g).find? id
            = some (some n) := by
        by_cases he : (!p.2.enabled) = true
        · rw [if_pos he, set_good_find_ne _ _ _ _ hne]
          exact hfind
        · rw [if_neg he]
          exact hfind
      exact ih _ hkeys.2 hmem hfind'

theorem sdg_fold_edges (todo : List (NodeId × ModNode)) (g : Graph) :
    (todo.foldl (fun g p => if !p.2.enabled then set_good g p.1 (some true) else g) g).edges
      = g.edges := by
  induction todo generalizing g with
  | nil => rfl
  | cons p rest ih =>
    simp only [List.foldl_cons]
    rw [ih]
    by_cases he : (!p.2.enabled) = true
    · rw [if_pos he, set_good_edges]
    · rw [if_neg he]

theorem sdg_fold_keys (todo : List (NodeId × ModNode)) (g : Graph) :
    (todo.foldl (fun g p => if !p.2.enabled then set_good g p.1 (some true) else g) g).nodes.map Prod.fst
      = g.nodes.map Prod.fst := by
  induction todo generalizing g with
  | nil => rfl
  | cons p rest ih =>
    simp only [List.foldl_cons]
    rw [ih]
    by_cases he : (!p.2.enabled) = true
    · rw [if_pos he, set_good_keys]
    · rw [if_neg he]

/-! ### Claim C3: `set_disabled_good` -/

/-- C3 (amended form): `set_disabled_good` maps every unlocked, disabled node
to the same record with `is_good = True` added, and leaves every other node,
the key order and the edges unchanged.  (It does not lock anything.) -/
theorem set_disabled_good_spec (g : Graph) (hn : g.ids.Nodup) :
    (set_disabled_good g).edges = g.edges ∧
    (set_disabled_good g).nodes.map Prod.fst = g.nodes.map Prod.fst ∧
    ∀ id, (set_disabled_good g).find? id =
      match g.find? id with
      | some (some n) =>
          some (some (if n.locked = false ∧ n.enabled = false
            then { n with is_good := some (some true) } else n))
      | o => o := by
  refine ⟨sdg_fold_edges _ _, sdg_fold_keys _ _, fun id => ?_⟩
  unfold set_disabled_good
  cases hf : g.find? id with
  | none =>
    have hid : id ∉ g.pendingNodes.map Prod.fst := by
      intro hmem
      obtain ⟨p, hp, hpe⟩ := List.mem_map.mp hmem
      obtain ⟨hfind, _⟩ := pendingNodes_find g p hp hn
      rw [hpe, hf] at hfind
      cases hfind
    rw [sdg_fold_find_notin _ _ _ hid, hf]
  | some o =>
    cases o with
    | none =>
      have hid : id ∉ g.pendingNodes.map Prod.fst := by
        intro hmem
        obtain ⟨p, hp, hpe⟩ := List.mem_map.mp hmem
        obtain ⟨hfind, _⟩ := pendingNodes_find g p hp hn
        rw [hpe, hf] at hfind
        cases hfind
      rw [sdg_fold_find_notin _ _ _ hid, hf]
    | some n =>
      by_cases hl : n.locked = false
      · have hmem := pendingNodes_complete g id n hf hl
        rw [sdg_fold_find_mem _ _ _ n (pendingNodes_keys_nodup g hn) hmem hf]
        simp [hl]
      · have hid : id ∉ g.pendingNodes.map Prod.fst := by
          intro hmem
          obtain ⟨p, hp, hpe⟩ := List.mem_map.mp hmem
          obtain ⟨hfind, hpl⟩ := pendingNodes_find g p hp hn
          rw [hpe, hf] at hfind
          cases hfind
          exact hl hpl
        rw [sdg_fold_find_notin _ _ _ hid, hf]
        simp [hl]

/-- C3 counterexample: on a graph with one unlocked, disabled item,
`set_disabled_good` leaves `locked = false`; it only writes the (otherwise
unread) `is_good` attribute, so the claim "has locked = true" fails. -/
theorem set_disabled_good_does_not_lock :
    gC3.locked? "A" = some false ∧ gC3.enabled? "A" = some false ∧
    (set_disabled_good gC3).locked? "A" = some false ∧
    (set_disabled_good gC3).isGood? "A" = some (some (some true)) := by decide

theorem set_disabled_good_spec_witness :
    (set_disabled_good gC3).find? "A" =
      some (some { name := "A", path := "a.jar", enabled := false,
                   locked := false, is_good := some (some true) }) := by
  rw [(set_disabled_good_spec gC3 (by decide)).2.2 "A"]
  decide

/-! ### Claim C6: the `set_enabled` contract -/

/-- C6: with `force = false`, `set_enabled` returns the unchanged result
`False` and modifies nothing when the node's flag already equals the target;
otherwise it writes the in-memory flag and invokes the path toggler; and a
toggler failure propagates as the error of the whole call (the failed call
yields no resulting state, matching the abort on a raised exception). -/
theorem set_enabled_contract (c : Config) (st : St) (modid : NodeId) (v : Bool)
    (n : ModNode) (hfind : st.g.find? modid = some (some n)) :
    (n.enabled = v → set_enabled c st modid v false = .ok (false, st)) ∧
    (n.enabled ≠ v →
      set_enabled c st modid v false =
        (rename_path st.fs
            (if v then (node_paths c n).2 else (node_paths c n).1)
            (if v then (node_paths c n).1 else (node_paths c n).2)).map
          fun r => (r.1, { g := st.g.setNode modid (some { n with enabled := v })
                           fs := r.2 })) ∧
    (∀ e, n.enabled ≠ v →
      rename_path st.fs
          (if v then (node_paths c n).2 else (node_paths c n).1)
          (if v then (node_paths c n).1 else (node_paths c n).2) = .error e →
      set_enabled c st modid v false = .error e) := by
  have hmain : ∀ hne : n.enabled ≠ v,
      set_enabled c st modid v false =
        (rename_path st.fs
            (if v then (node_paths c n).2 else (node_paths c n).1)
            (if v then (node_paths c n).1 else (node_paths c n).2)).map
          fun r => (r.1, { g := st.g.setNode modid (some { n with enabled := v })
                           fs := r.2 }) := by
    intro hne
    unfold set_enabled
    rw [hfind]
    dsimp only
    have hc : (!false && (v == n.enabled)) = false := by
      simp [Bool.not_eq_true]
      exact fun he => hne he.symm
    rw [hc]
    simp only [Bool.false_eq_true, if_false]
    cases v with
    | true =>
      dsimp only [node_paths]
      simp only [if_pos rfl, eq_self_iff_true, if_true]
      cases rename_path st.fs (c.root ++ "/" ++ n.path ++ DISABLED_SUFFIX)
          (c.root ++ "/" ++ n.path) with
      | error e => rfl
      | ok r => cases r; rfl
    | false =>
      dsimp only [node_paths]
      simp only [Bool.false_eq_true, if_false]
      cases rename_path st.fs (c.root ++ "/" ++ n.path)
          (c.root ++ "/" ++ n.path ++ DISABLED_SUFFIX) with
      | error e => rfl
      | ok r => cases r; rfl
  refine ⟨?_, hmain, ?_⟩
  · intro he
    unfold set_enabled
    rw [hfind]
    dsimp only
    have hc : (!false && (v == n.enabled)) = true := by simp [he]
    rw [hc]
    simp only [if_pos rfl, eq_self_iff_true, if_true]
  · intro e hne hr
    rw [hmain hne, hr]
    rfl

theorem set_enabled_contract_witness :
    set_enabled cW stW "A" true false = .ok (false, stW) :=
  (set_enabled_contract cW stW "A" true nW rfl).1 rfl

/-! ### Claim C7: the `rename_path` contract -/

/-- C7: `rename_path` returns `False` doing nothing when only the target form
exists, renames and returns `True` when only the source form exists (the
target then exists and the source is gone), raises a consistency error when
both forms exist, and raises a not-found error when neither exists. -/
theorem rename_path_contract (fs : List String) (source target : String) :
    (source ∉ fs → target ∈ fs → rename_path fs source target = .ok (false, fs)) ∧
    (source ∈ fs → target ∉ fs →
      rename_path fs source target = .ok (true, fs.erase source ++ [target]) ∧
      target ∈ fs.erase source ++ [target] ∧
      (fs.Nodup → source ∉ fs.erase source ++ [target])) ∧
    (source ∈ fs → target ∈ fs →
      rename_path fs source target = .error (.bothExist source target)) ∧
    (source ∉ fs → target ∉ fs →
      rename_path fs source target = .error (.notFound source)) := by
  refine ⟨rename_path_noop fs source target, ?_,
    rename_path_both fs source target, rename_path_neither fs source target⟩
  intro hs ht
  have hm := rename_path_move fs source target hs ht
  refine ⟨hm, by simp, fun hn => ?_⟩
  exact (rename_path_move_result fs source target _ hn hm).2

theorem rename_path_contract_witness :
    rename_path ["r/a.jar"] "r/a.jar" "r/a.jar.disabled" =
      .ok (true, ["r/a.jar.disabled"]) :=
  ((rename_path_contract ["r/a.jar"] "r/a.jar" "r/a.jar.disabled").2.1
    (by decide) (by decide)).1

/-! ### Claim C9: log segment selection -/

/-- C9 (code bug): with eleven segments `log_0.json` .. `log_10.json`
present, both `load_log` and `save_log` pick `max(paths)`, which is the
lexicographic maximum `log_9.json`, not the highest-indexed segment
`log_10.json` produced by `next_log`; only the empty case (`log_0`) behaves
as the claim says. -/
theorem log_segment_lexicographic_bug :
    load_log_segment elevenLogs = some "log_9.json" ∧
    save_log_segment elevenLogs = "log_9.json" ∧
    logPattern (toString 10) ∈ elevenLogs ∧
    logPattern (toString 10) ≠ "log_9.json" ∧
    next_log [] = logPattern (toString 0) := by decide

/-! ### Claim C10: unknown override identifiers -/

theorem allSome_find_not_none (g : Graph) (hall : g.allSome = true) (id : NodeId) :
    g.find? id ≠ some none := by
  intro h
  have hmem := lookupN_mem _ _ _ h
  have := (List.all_eq_true.mp hall) _ hmem
  simp at this

theorem allSome_setN (l : List (NodeId × Option ModNode)) (id : NodeId) (n : ModNode)
    (hall : ∀ p ∈ l, p.2.isSome = true) :
    ∀ p ∈ setN l id (some n), p.2.isSome = true := by
  induction l with
  | nil => intro p hp; cases hp
  | cons q rest ih =>
    intro p hp
    rw [setN] at hp
    rcases List.mem_cons.mp hp with hp | hp
    · by_cases hq : q.1 = id
      · rw [if_pos hq] at hp
        subst hp
        rfl
      · rw [if_neg hq] at hp
        subst hp
        exact hall _ (List.mem_cons_self _ _)
    · exact ih (fun r hr => hall r (List.mem_cons_of_mem _ hr)) p hp

theorem allSome_setNode_some (g : Graph) (id : NodeId) (n : ModNode)
    (hall : g.allSome = true) : (g.setNode id (some n)).allSome = true := by
  unfold Graph.allSome Graph.setNode at *
  rw [List.all_eq_true] at hall ⊢
  exact allSome_setN g.nodes id n hall

theorem applyOverrides_missing (ovs : List (NodeId × Bool)) (g : Graph)
    (hall : g.allSome = true) (hmiss : ∃ p ∈ ovs, p.1 ∉ g.ids) :
    ∃ id', id' ∉ g.ids ∧ (∃ v, (id', v) ∈ ovs) ∧
      applyOverrides ovs g = .error (.keyError id') := by
  induction ovs generalizing g with
  | nil => obtain ⟨p, hp, _⟩ := hmiss; cases hp
  | cons q rest ih =>
    obtain ⟨id, v⟩ := q
    by_cases hid : id ∈ g.ids
    · have hs : (g.find? id).isSome = true := (find?_isSome_iff_mem_ids g id).mpr hid
      cases hf : g.find? id with
      | none => rw [hf] at hs; cases hs
      | some o =>
        cases o with
        | none => exact absurd hf (allSome_find_not_none g hall id)
        | some n =>
          have hmiss' : ∃ p ∈ rest, p.1 ∉ g.ids := by
            obtain ⟨p, hp, hpx⟩ := hmiss
            rcases List.mem_cons.mp hp with hp | hp
            · subst hp; exact absurd hid hpx
            · exact ⟨p, hp, hpx⟩
          have hg' := allSome_setNode_some g id { n with locked := true, enabled := v } hall
          have hids : (g.setNode id (some { n with locked := true, enabled := v })).ids = g.ids :=
            ids_setNode g id _
          obtain ⟨id', h1, ⟨v', h2⟩, h3⟩ := ih _ hg' (by rw [hids]; exact hmiss')
          refine ⟨id', by rwa [hids] at h1, ⟨v', List.mem_cons_of_mem _ h2⟩, ?_⟩
          rw [applyOverrides, hf]
          exact h3
    · refine ⟨id, hid, ⟨v, List.mem_cons_self _ _⟩, ?_⟩
      have hf : g.find? id = none := by
        unfold Graph.find?
        rw [lookupN_eq_none]
        exact hid
      rw [applyOverrides, hf]

/-- C10: if some override identifier is not a node of the graph, `sync` fails
with a key-lookup error in its first step, whatever walk order would have
been used later, before any filesystem interaction.  (The `allSome`
hypothesis says the graph carries metadata on every node, which holds for
every graph the program persists.) -/
theorem sync_missing_override_key (c : Config) (st : St)
    (hall : st.g.allSome = true) (hmiss : ∃ p ∈ c.overrides, p.1 ∉ st.g.ids) :
    ∃ id', id' ∉ st.g.ids ∧ (∃ v, (id', v) ∈ c.overrides) ∧
      ∀ ord, sync c st ord = .error (.keyError id') := by
  obtain ⟨id', h1, h2, h3⟩ := applyOverrides_missing c.overrides st.g hall hmiss
  refine ⟨id', h1, h2, fun ord => ?_⟩
  unfold sync stage123
  rw [h3]
  rfl

theorem sync_missing_override_key_witness :
    ∃ id', id' ∉ stW.g.ids ∧ (∃ v, (id', v) ∈ cC2.overrides) ∧
      ∀ ord, sync cC2 stW ord = .error (.keyError id') :=
  sync_missing_override_key cC2 stW (by decide) ⟨("Y", false), by decide, by decide⟩

/-! ### Counting lemmas -/

theorem count_nodes_fold (l : List (NodeId × Option ModNode)) (acc : Nat × Nat × Nat) :
    (l.foldl
      (fun acc p =>
        match p.2 with
        | some n =>
          if n.locked then (acc.1, acc.2.1, acc.2.2 + 1)
          else if n.enabled then (acc.1 + 1, acc.2.1, acc.2.2 + 1)
          else (acc.1, acc.2.1 + 1, acc.2.2 + 1)
        | none => (acc.1, acc.2.1, acc.2.2 + 1))
      acc).1 = acc.1 + l.countP (fun p => predE p.2) := by
  induction l generalizing acc with
  | nil => simp
  | cons p rest ih =>
    simp only [List.foldl_cons, List.countP_cons]
    cases hp : p.2 with
    | none =>
      rw [ih]
      simp [predE]
    | some n =>
      by_cases hl : n.locked
      · simp only [if_pos hl]
        rw [ih]
        simp [predE, hl]
      · by_cases he : n.enabled
        · simp only [if_neg hl, if_pos he]
          rw [ih]
          simp [predE, hl, he]
          omega
        · simp only [if_neg hl, if_neg he]
          rw [ih]
          simp [predE, hl, he]

theorem count_nodes_fst (g : Graph) : (count_nodes g).1 = cntEnabled g := by
  unfold count_nodes cntEnabled
  simpa using count_nodes_fold g.nodes (0, 0, 0)

/-- Replacing the (unique) entry of a key changes `countP` by the difference
of the predicate on the old and new values. -/
theorem countP_setN (l : List (NodeId × Option ModNode)) (id : NodeId)
    (v w : Option ModNode) (hn : (l.map Prod.fst).Nodup)
    (hfind : lookupN l id = some w) :
    (setN l id v).countP (fun p => predE p.2) + (if predE w then 1 else 0) =
      l.countP (fun p => predE p.2) + (if predE v then 1 else 0) := by
  induction l with
  | nil => cases hfind
  | cons q rest ih =>
    simp only [List.map_cons, List.nodup_cons] at hn
    by_cases hq : q.1 = id
    · rw [lookupN, if_pos hq] at hfind
      cases hfind
      rw [setN]
      rw [if_pos hq]
      rw [setN_absent rest id v (hq ▸ hn.1)]
      simp only [List.countP_cons]
      omega
    · rw [lookupN, if_neg hq] at hfind
      rw [setN, if_neg hq]
      simp only [List.countP_cons]
      have := ih hn.2 hfind
      omega

theorem cntEnabled_setNode (g : Graph) (id : NodeId) (v w : Option ModNode)
    (hn : g.ids.Nodup) (hfind : g.find? id = some w) :
    cntEnabled (g.setNode id v) + (if predE w then 1 else 0) =
      cntEnabled g + (if predE v then 1 else 0) :=
  countP_setN g.nodes id v w hn hfind

/-! ### The shape relation preserved by `bisect` -/

/-- What a sequence of (non-forced) disables may do to the graph: keys, order
and edges unchanged, `enabled` flags possibly lowered, locked nodes entirely
untouched. -/
def gShape (g g' : Graph) : Prop :=
  g'.edges = g.edges ∧
  g'.nodes.map Prod.fst = g.nodes.map Prod.fst ∧
  (∀ id, g.find? id = none → g'.find? id = none) ∧
  (∀ id, g.find? id = some none → g'.find? id = some none) ∧
  (∀ id n, g.find? id = some (some n) →
    ∃ e, g'.find? id = some (some { n with enabled := e }) ∧
      (e = true → n.enabled = true) ∧ (n.locked = true → e = n.enabled))

theorem gShape_refl (g : Graph) : gShape g g := by
  refine ⟨rfl, rfl, fun _ h => h, fun _ h => h, fun id n h => ⟨n.enabled, ?_, fun h' => h', fun _ => rfl⟩⟩
  rw [ModNode.update_enabled_self]
  exact h

theorem gShape_trans {g1 g2 g3 : Graph} (h12 : gShape g1 g2) (h23 : gShape g2 g3) :
    gShape g1 g3 := by
  obtain ⟨he12, hk12, hn12, hsn12, hs12⟩ := h12
  obtain ⟨he23, hk23, hn23, hsn23, hs23⟩ := h23
  refine ⟨he23.trans he12, hk23.trans hk12, fun id h => hn23 id (hn12 id h),
    fun id h => hsn23 id (hsn12 id h), fun id n h => ?_⟩
  obtain ⟨e2, hf2, himp2, hlock2⟩ := hs12 id n h
  obtain ⟨e3, hf3, himp3, hlock3⟩ := hs23 id _ hf2
  refine ⟨e3, hf3, fun h3 => himp2 (himp3 h3), fun hl => ?_⟩
  have := hlock3 hl
  dsimp only at this
  rw [this]
  exact hlock2 hl

/-- One (non-forced) `disable` of an unlocked node is a `gShape` step. -/
theorem gShape_disable_step {c : Config} {st : St} {modid : NodeId} {b : Bool}
    {st' : St} {node : ModNode} (h : disable c st modid = .ok (b, st'))
    (hfind : st.g.find? modid = some (some node)) (hnl : node.locked = false) :
    gShape st.g st'.g := by
  unfold disable at h
  rcases set_enabled_ok_cases h with ⟨m, hm, ⟨_, rfl, _⟩ | ⟨_, hg, _⟩⟩
  · exact gShape_refl _
  · rw [hfind] at hm
    cases hm
    rw [hg]
    refine ⟨rfl, setN_map_fst _ _ _, ?_, ?_, ?_⟩
    · intro id hid
      have hne : id ≠ modid := by
        intro he
        rw [he, hfind] at hid
        cases hid
      rw [find?_setNode_ne _ _ _ _ hne]
      exact hid
    · intro id hid
      have hne : id ≠ modid := by
        intro he
        rw [he, hfind] at hid
        cases hid
      rw [find?_setNode_ne _ _ _ _ hne]
      exact hid
    · intro id n hid
      by_cases hne : id = modid
      · subst hne
        rw [hfind] at hid
        cases hid
        refine ⟨false, ?_, fun h' => (by cases h'), fun hl => ?_⟩
        · exact find?_setNode_self _ _ _ (by rw [hfind]; rfl)
        · rw [hl] at hnl
          cases hnl
      · rw [find?_setNode_ne _ _ _ _ hne]
        refine ⟨n.enabled, ?_, fun h' => h', fun _ => rfl⟩
        rw [ModNode.update_enabled_self]
        exact hid

/-- The whole `bisect` walk is a `gShape` step. -/
theorem bisectLoop_gShape (c : Config) (ord : List NodeId) :
    ∀ (st : St) (td newly : Nat) (st' : St) (newly' : Nat),
    bisectLoop c st ord td newly = .ok (st', newly') → gShape st.g st'.g := by
  induction ord with
  | nil =>
    intro st td newly st' newly' h
    rw [bisectLoop] at h
    cases h
    exact gShape_refl _
  | cons modid rest ih =>
    intro st td newly st' newly' h
    rw [bisectLoop] at h
    cases hf : st.g.find? modid with
    | none => rw [hf] at h; cases h
    | some o =>
      cases o with
      | none => rw [hf] at h; cases h
      | some node =>
        rw [hf] at h
        dsimp only at h
        by_cases hl : node.locked = true
        · rw [if_pos hl] at h
          exact ih st td newly st' newly' h
        · rw [if_neg hl] at h
          cases hdis : disable c st modid with
          | error e => rw [hdis] at h; cases h
          | ok p =>
            obtain ⟨chg, st1⟩ := p
            rw [hdis] at h
            dsimp only at h
            have hstep : gShape st.g st1.g :=
              gShape_disable_step hdis hf (by simpa using hl)
            cases chg with
            | true =>
              rw [if_pos rfl] at h
              by_cases hbr : newly + 1 ≥ td
              · rw [if_pos hbr] at h
                cases h
                exact hstep
              · rw [if_neg hbr] at h
                exact gShape_trans hstep (ih st1 td (newly + 1) st' newly' h)
            | false =>
              rw [if_neg (by simp)] at h
              exact gShape_trans hstep (ih st1 td newly st' newly' h)

/-! ### Counting through the `bisect` walk -/

theorem gShape_ids {g g' : Graph} (h : gShape g g') : g'.ids = g.ids := h.2.1

/-- The newly-disabled counter never overcounts the drop in the
unlocked-enabled count. -/
theorem bisectLoop_count (c : Config) (ord : List NodeId) :
    ∀ (st : St) (td newly : Nat) (st' : St) (newly' : Nat),
    st.g.ids.Nodup → bisectLoop c st ord td newly = .ok (st', newly') →
    cntEnabled st'.g + newly' ≤ cntEnabled st.g + newly := by
  induction ord with
  | nil =>
    intro st td newly st' newly' _ h
    rw [bisectLoop] at h
    cases h
    exact le_refl _
  | cons modid rest ih =>
    intro st td newly st' newly' hkeys h
    rw [bisectLoop] at h
    cases hf : st.g.find? modid with
    | none => rw [hf] at h; cases h
    | some o =>
      cases o with
      | none => rw [hf] at h; cases h
      | some node =>
        rw [hf] at h
        dsimp only at h
        by_cases hl : node.locked = true
        · rw [if_pos hl] at h
          exact ih st td newly st' newly' hkeys h
        · rw [if_neg hl] at h
          cases hdis : disable c st modid with
          | error e => rw [hdis] at h; cases h
          | ok p =>
            obtain ⟨chg, st1⟩ := p
            rw [hdis] at h
            dsimp only at h
            have hkeys1 : st1.g.ids.Nodup := by
              rw [gShape_ids (gShape_disable_step hdis hf (by simpa using hl))]
              exact hkeys
            unfold disable at hdis
            rcases set_enabled_ok_cases hdis with
              ⟨m, hm, ⟨hb, rfl, _⟩ | ⟨hcond, hg, _⟩⟩
            · -- no-op: state unchanged, counter not incremented
              subst hb
              rw [if_neg (by simp)] at h
              exact ih _ td newly st' newly' hkeys h
            · -- the node was enabled and has been disabled in memory
              rw [hf] at hm
              cases hm
              have hen : node.enabled = true := by
                simpa using hcond
              have hdrop : cntEnabled st1.g + 1 = cntEnabled st.g := by
                have := cntEnabled_setNode st.g modid
                  (some { node with enabled := false }) (some node) hkeys hf
                rw [← hg] at this
                have hpe : predE (some node) = true := by
                  simp [predE, hen, hl]
                have hpe' : predE (some { node with enabled := false }) = false := by
                  simp [predE]
                rw [hpe, hpe'] at this
                simp only [if_pos rfl, eq_self_iff_true, if_true, Bool.false_eq_true,
                  if_false] at this
                omega
              cases chg with
              | true =>
                rw [if_pos rfl] at h
                by_cases hbr : newly + 1 ≥ td
                · rw [if_pos hbr] at h
                  cases h
                  omega
                · rw [if_neg hbr] at h
                  have := ih st1 td (newly + 1) st' newly' hkeys1 h
                  omega
              | false =>
                rw [if_neg (by simp)] at h
                have := ih st1 td newly st' newly' hkeys1 h
                omega

/-- If the walk neither reaches its target count nor fails, it has disabled
every unlocked node it covers. -/
theorem bisectLoop_exhaust (c : Config) (ord : List NodeId) :
    ∀ (st : St) (td newly : Nat) (st' : St) (newly' : Nat),
    st.g.ids.Nodup →
    (∀ id n, st.g.find? id = some (some n) → n.locked = false → n.enabled = true →
      id ∈ ord) →
    bisectLoop c st ord td newly = .ok (st', newly') →
    newly' ≥ td ∨ cntEnabled st'.g = 0 := by
  induction ord with
  | nil =>
    intro st td newly st' newly' hkeys hcov h
    rw [bisectLoop] at h
    cases h
    refine Or.inr ?_
    unfold cntEnabled
    rw [List.countP_eq_zero]
    intro p hp
    cases hpv : p.2 with
    | none => simp [predE]
    | some n =>
      have hfind : st.g.find? p.1 = some (some n) := by
        have := lookupN_of_mem_nodup st.g.nodes p.1 p.2 (by simpa using hp) hkeys
        rw [hpv] at this
        exact this
      by_cases hl : n.locked = false
      · by_cases he : n.enabled = true
        · exact absurd (hcov p.1 n hfind hl he) (List.not_mem_nil _)
        · simp [predE, hpv]
          intro
          simp_all
      · simp [predE, hpv]
        intro hl2
        simp_all
  | cons modid rest ih =>
    intro st td newly st' newly' hkeys hcov h
    rw [bisectLoop] at h
    cases hf : st.g.find? modid with
    | none => rw [hf] at h; cases h
    | some o =>
      cases o with
      | none => rw [hf] at h; cases h
      | some node =>
        rw [hf] at h
        dsimp only at h
        by_cases hl : node.locked = true
        · rw [if_pos hl] at h
          refine ih st td newly st' newly' hkeys ?_ h
          intro id n hfind hnl hne
          rcases List.mem_cons.mp (hcov id n hfind hnl hne) with he | he
          · subst he
            rw [hf] at hfind
            cases hfind
            rw [hl] at hnl
            cases hnl
          · exact he
        · rw [if_neg hl] at h
          cases hdis : disable c st modid with
          | error e => rw [hdis] at h; cases h
          | ok p =>
            obtain ⟨chg, st1⟩ := p
            rw [hdis] at h
            dsimp only at h
            have hshape := gShape_disable_step hdis hf (by simpa using hl)
            have hkeys1 : st1.g.ids.Nodup := by
              rw [gShape_ids hshape]; exact hkeys
            have hmodid1 : st1.g.enabled? modid = some false := by
              unfold disable at hdis
              rcases set_enabled_ok_cases hdis with
                ⟨m, hm, ⟨_, rfl, hc⟩ | ⟨_, hg, _⟩⟩
              · rw [hf] at hm
                cases hm
                have hne : node.enabled = false := by simpa using hc
                simp [Graph.enabled?, hf, hne]
              · rw [hf] at hm
                cases hm
                have hres := find?_setNode_self st.g modid
                  (some { node with enabled := false }) (by rw [hf]; rfl)
                simp [Graph.enabled?, hg, hres]
            have hcov1 : ∀ id n, st1.g.find? id = some (some n) → n.locked = false →
                n.enabled = true → id ∈ rest := by
              intro id n hfind hnl hne
              by_cases hid : id = modid
              · subst hid
                unfold Graph.enabled? at hmodid1
                rw [hfind] at hmodid1
                simp only [Option.some.injEq] at hmodid1
                rw [hmodid1] at hne
                cases hne
              · obtain ⟨_, _, hn0, hsn0, hs0⟩ := hshape
                cases hf0 : st.g.find? id with
                | none => rw [hn0 id hf0] at hfind; cases hfind
                | some o0 =>
                  cases o0 with
                  | none => rw [hsn0 id hf0] at hfind; cases hfind
                  | some n0 =>
                    obtain ⟨e, hfe, himp, _⟩ := hs0 id n0 hf0
                    rw [hfe] at hfind
                    cases hfind
                    have hnl0 : n0.locked = false := hnl
                    have hne0 : n0.enabled = true := himp hne
                    rcases List.mem_cons.mp (hcov id n0 hf0 hnl0 hne0) with he | he
                    · exact absurd he hid
                    · exact he
            cases chg with
            | true =>
              rw [if_pos rfl] at h
              by_cases hbr : newly + 1 ≥ td
              · rw [if_pos hbr] at h
                cases h
                exact Or.inl hbr
              · rw [if_neg hbr] at h
                exact ih st1 td (newly + 1) st' newly' hkeys1 hcov1 h
            | false =>
              rw [if_neg (by simp)] at h
              exact ih st1 td newly st' newly' hkeys1 hcov1 h

/-! ### The dependency-closure invariant -/

/-- Propositional form of `closureB`. -/
def closureP (g : Graph) : Prop :=
  ∀ a b na nb, (a, b) ∈ g.edges → g.find? a = some (some na) →
    g.find? b = some (some nb) → na.locked = false → nb.locked = false →
    na.enabled = true → nb.enabled = true

theorem locked?_eq_some (g : Graph) (id : NodeId) (v : Bool) :
    g.locked? id = some v ↔ ∃ n, g.find? id = some (some n) ∧ n.locked = v := by
  unfold Graph.locked?
  cases h : g.find? id with
  | none => simp
  | some o =>
    cases o with
    | none => simp
    | some n =>
      simp only [Option.some.injEq]
      constructor
      · intro hv
        exact ⟨n, rfl, hv⟩
      · rintro ⟨m, hm, hv⟩
        cases hm
        exact hv

theorem enabled?_eq_some (g : Graph) (id : NodeId) (v : Bool) :
    g.enabled? id = some v ↔ ∃ n, g.find? id = some (some n) ∧ n.enabled = v := by
  unfold Graph.enabled?
  cases h : g.find? id with
  | none => simp
  | some o =>
    cases o with
    | none => simp
    | some n =>
      simp only [Option.some.injEq]
      constructor
      · intro hv
        exact ⟨n, rfl, hv⟩
      · rintro ⟨m, hm, hv⟩
        cases hm
        exact hv

theorem closureB_iff (g : Graph) : closureB g = true ↔ closureP g := by
  unfold closureB closureP
  rw [List.all_eq_true]
  constructor
  · intro h a b na nb he hfa hfb hla hlb hea
    have hx := h (a, b) he
    have h1 : g.locked? (a, b).1 = some false :=
      (locked?_eq_some g a false).mpr ⟨na, hfa, hla⟩
    have h2 : g.locked? (a, b).2 = some false :=
      (locked?_eq_some g b false).mpr ⟨nb, hfb, hlb⟩
    have h3 : g.enabled? (a, b).1 = some true :=
      (enabled?_eq_some g a true).mpr ⟨na, hfa, hea⟩
    rw [h1, h2, h3] at hx
    simp only [beq_self_eq_true, Bool.not_true, Bool.false_or] at hx
    have h4 : g.enabled? b = some true := by
      simpa using hx
    obtain ⟨nb', hfb', henb⟩ := (enabled?_eq_some g b true).mp h4
    rw [hfb] at hfb'
    cases hfb'
    exact henb
  · intro h e he
    by_cases h1 : g.locked? e.1 = some false
    case neg =>
      have hb1 : (g.locked? e.1 == some false) = false := by simpa using h1
      simp [hb1]
    by_cases h2 : g.locked? e.2 = some false
    case neg =>
      have hb2 : (g.locked? e.2 == some false) = false := by simpa using h2
      simp [hb2]
    by_cases h3 : g.enabled? e.1 = some true
    case neg =>
      have hb3 : (g.enabled? e.1 == some true) = false := by simpa using h3
      simp [hb3]
    obtain ⟨na, hfa, hla⟩ := (locked?_eq_some g e.1 false).mp h1
    obtain ⟨nb, hfb, hlb⟩ := (locked?_eq_some g e.2 false).mp h2
    obtain ⟨na', hfa', hea⟩ := (enabled?_eq_some g e.1 true).mp h3
    rw [hfa] at hfa'
    cases hfa'
    have hnb := h e.1 e.2 na nb he hfa hfb hla hlb hea
    have h4 : g.enabled? e.2 = some true :=
      (enabled?_eq_some g e.2 true).mpr ⟨nb, hfb, hnb⟩
    simp [h4]

/-- In `full = done ++ modid :: rest`, the head of the remainder sits strictly
before every element of `rest`. -/
theorem indexOf_head_lt (done rest : List NodeId) (modid a : NodeId)
    (hnodup : (done ++ modid :: rest).Nodup) (ha : a ∈ rest) :
    (done ++ modid :: rest).indexOf modid < (done ++ modid :: rest).indexOf a := by
  have hmod_not : modid ∉ done := fun hm =>
    List.disjoint_of_nodup_append hnodup hm (List.mem_cons_self _ _)
  have ha_not : a ∉ done := fun hm =>
    List.disjoint_of_nodup_append hnodup hm (List.mem_cons_of_mem _ ha)
  rw [List.indexOf_append_of_not_mem hmod_not, List.indexOf_append_of_not_mem ha_not]
  have hamod : a ≠ modid := by
    intro he
    subst he
    have h2 := hnodup.of_append_right
    rw [List.nodup_cons] at h2
    exact h2.1 ha
  rw [List.indexOf_cons_self, List.indexOf_cons_ne _ (Ne.symm hamod)]
  omega

/-- The `bisect` walk preserves the dependency-closure invariant: it disables
a topologically downward-closed prefix of the unlocked nodes. -/
theorem bisectLoop_closure (c : Config) (ord : List NodeId) :
    ∀ (done : List NodeId) (st : St) (td newly : Nat) (st' : St) (newly' : Nat),
    (done ++ ord).Nodup →
    (∀ e ∈ st.g.edges, (done ++ ord).indexOf e.1 < (done ++ ord).indexOf e.2) →
    (∀ id ∈ st.g.ids, id ∈ done ++ ord) →
    (∀ id n, st.g.find? id = some (some n) → n.locked = false → id ∉ ord →
      n.enabled = false) →
    closureP st.g →
    bisectLoop c st ord td newly = .ok (st', newly') →
    closureP st'.g := by
  induction ord with
  | nil =>
    intro done st td newly st' newly' _ _ _ _ hclo h
    rw [bisectLoop] at h
    cases h
    exact hclo
  | cons modid rest ih =>
    intro done st td newly st' newly' hnodup htopo hcov hdone hclo h
    rw [bisectLoop] at h
    cases hf : st.g.find? modid with
    | none => rw [hf] at h; cases h
    | some o =>
      cases o with
      | none => rw [hf] at h; cases h
      | some node =>
        rw [hf] at h
        dsimp only at h
        have hassoc : done ++ modid :: rest = (done ++ [modid]) ++ rest := by
          simp
        by_cases hl : node.locked = true
        · rw [if_pos hl] at h
          refine ih (done ++ [modid]) st td newly st' newly' ?_ ?_ ?_ ?_ hclo h
          · rw [← hassoc]; exact hnodup
          · rw [← hassoc]; exact htopo
          · rw [← hassoc]; exact hcov
          · intro id n hfind hnl hnr
            by_cases hid : id = modid
            · subst hid
              rw [hf] at hfind
              cases hfind
              rw [hl] at hnl
              cases hnl
            · exact hdone id n hfind hnl (by
                intro hm
                rcases List.mem_cons.mp hm with hm | hm
                · exact hid hm
                · exact hnr hm)
        · rw [if_neg hl] at h
          cases hdis : disable c st modid with
          | error e => rw [hdis] at h; cases h
          | ok p =>
            obtain ⟨chg, st1⟩ := p
            rw [hdis] at h
            dsimp only at h
            have hshape := gShape_disable_step hdis hf (by simpa using hl)
            obtain ⟨hedges1, hkeys1, hn1, hsn1, hs1⟩ := hshape
            -- the record of `modid` in `st1`
            obtain ⟨e1, hfe1, himp1, _⟩ := hs1 modid node hf
            have he1false : e1 = false := by
              unfold disable at hdis
              rcases set_enabled_ok_cases hdis with
                ⟨m, hm, ⟨_, hsteq, hc⟩ | ⟨_, hg, _⟩⟩
              · rw [hf] at hm
                cases hm
                have hnen : node.enabled = false := by simpa using hc
                rcases Bool.eq_false_or_eq_true e1 with h' | h'
                · exact absurd (himp1 h') (by simp [hnen])
                · exact h' 
              · rw [hf] at hm
                cases hm
                have := find?_setNode_self st.g modid
                  (some { node with enabled := false }) (by rw [hf]; rfl)
                rw [hg] at hfe1
                rw [this] at hfe1
                simp only [Option.some.injEq, ModNode.mk.injEq] at hfe1
                exact hfe1.2.2.1.symm
            -- preserved records away from `modid`
            have hpres : ∀ id, id ≠ modid → st1.g.find? id = st.g.find? id := by
              intro id hid
              cases hf0 : st.g.find? id with
              | none => exact hn1 id hf0
              | some o0 =>
                cases o0 with
                | none => exact hsn1 id hf0
                | some n0 =>
                  obtain ⟨e0, hfe0, _, _⟩ := hs1 id n0 hf0
                  unfold disable at hdis
                  have := set_enabled_ok_find_ne hdis id hid
                  rw [this, hf0]
            -- closure holds in `st1`
            have hclo1 : closureP st1.g := by
              intro a b na nb he hfa hfb hla hlb hea
              rw [hedges1] at he
              by_cases hb : modid = b
              · subst hb
                by_cases hamod : modid = a
                · subst hamod
                  rw [hfa] at hfb
                  cases hfb
                  rw [hla] at hlb
                  exact hea
                · rw [hpres a (fun h => hamod h.symm)] at hfa
                  -- `a` is unlocked and enabled in `st`
                  have hamem : a ∈ rest := by
                    by_cases har : a ∈ modid :: rest
                    · rcases List.mem_cons.mp har with h' | h'
                      · exact absurd h'.symm hamod
                      · exact h'
                    · exact absurd hea (by simp [hdone a na hfa hla har])
                  have hlt := htopo (a, modid) he
                  dsimp only at hlt
                  have hgt := indexOf_head_lt done rest modid a hnodup hamem
                  omega
              · rw [hpres b (fun h => hb h.symm)] at hfb
                by_cases hamod : modid = a
                · subst hamod
                  rw [hfe1] at hfa
                  cases hfa
                  rw [he1false] at hea
                  cases hea
                · rw [hpres a (fun h => hamod h.symm)] at hfa
                  exact hclo a b na nb he hfa hfb hla hlb hea
            have hrec : ∀ (newly2 : Nat),
                bisectLoop c st1 rest td newly2 = .ok (st', newly') →
                closureP st'.g := by
              intro newly2 hr
              refine ih (done ++ [modid]) st1 td newly2 st' newly' ?_ ?_ ?_ ?_ hclo1 hr
              · rw [← hassoc]; exact hnodup
              · rw [← hassoc, hedges1]; exact htopo
              · rw [← hassoc]
                intro id hid
                exact hcov id (by rw [← gShape_ids ⟨hedges1, hkeys1, hn1, hsn1, hs1⟩]; exact hid)
              · intro id n hfind hnl hnr
                by_cases hid : id = modid
                · subst hid
                  rw [hfe1] at hfind
                  cases hfind
                  exact he1false
                · rw [hpres id hid] at hfind
                  exact hdone id n hfind hnl (by
                    intro hm
                    rcases List.mem_cons.mp hm with hm | hm
                    · exact hid hm
                    · exact hnr hm)
            cases chg with
            | true =>
              rw [if_pos rfl] at h
              by_cases hbr : newly + 1 ≥ td
              · rw [if_pos hbr] at h
                cases h
                exact hclo1
              · rw [if_neg hbr] at h
                exact hrec (newly + 1) h
            | false =>
              rw [if_neg (by simp)] at h
              exact hrec newly h

/-! ### Claim C5: bisection monotonicity -/

/-- C5: `bisect` targets `enabled / 2` (integer division) state-changing
disables (see the definition of `bisect`), never enables an item, and leaves
at most `⌈enabled / 2⌉` unlocked enabled items (fewer when it runs out of
eligible nodes). -/
theorem bisect_monotone (c : Config) (st : St) (ord : List NodeId) (st' : St)
    (hkeys : st.g.ids.Nodup) (hcov : ∀ id ∈ st.g.ids, id ∈ ord)
    (h : bisect c st ord = .ok st') :
    (∀ id, st'.g.enabled? id = some true → st.g.enabled? id = some true) ∧
    (count_nodes st'.g).1 ≤ ((count_nodes st.g).1 + 1) / 2 := by
  unfold bisect at h
  dsimp only at h
  cases hbl : bisectLoop c st ord ((count_nodes st.g).1 / 2) 0 with
  | error e => rw [hbl] at h; cases h
  | ok p =>
    obtain ⟨st1, newly'⟩ := p
    rw [hbl] at h
    cases h
    obtain ⟨hedges, hkeysE, hn0, hsn0, hs0⟩ := bisectLoop_gShape c ord st _ 0 _ _ hbl
    constructor
    · intro id hen
      obtain ⟨m, hfm, hme⟩ := (enabled?_eq_some _ id true).mp hen
      cases hf0 : st.g.find? id with
      | none => rw [hn0 id hf0] at hfm; cases hfm
      | some o0 =>
        cases o0 with
        | none => rw [hsn0 id hf0] at hfm; cases hfm
        | some n =>
          obtain ⟨e, hfe, himp, _⟩ := hs0 id n hf0
          rw [hfe] at hfm
          cases hfm
          exact (enabled?_eq_some _ id true).mpr ⟨n, hf0, himp hme⟩
    · have hcnt := bisectLoop_count c ord st _ 0 _ _ hkeys hbl
      have hex := bisectLoop_exhaust c ord st _ 0 _ _ hkeys
        (fun id n hf _ _ => hcov id ((find?_isSome_iff_mem_ids st.g id).mp (by rw [hf]; rfl)))
        hbl
      rw [count_nodes_fst, count_nodes_fst]
      rw [count_nodes_fst] at hex
      omega

theorem bisect_monotone_witness :
    (∀ id, stW2b.g.enabled? id = some true → stW2.g.enabled? id = some true) ∧
    (count_nodes stW2b.g).1 ≤ ((count_nodes stW2.g).1 + 1) / 2 :=
  bisect_monotone cW stW2 ["A", "B"] stW2b (by decide) (by decide) rfl

/-! ### `bisect` helpers for the remaining claims -/

/-- `bisect` leaves locked nodes entirely untouched. -/
theorem bisect_locked_unchanged_aux (c : Config) (st : St) (ord : List NodeId)
    (st' : St) (h : bisect c st ord = .ok st') :
    ∀ id n, st.g.find? id = some (some n) → n.locked = true →
      st'.g.find? id = some (some n) := by
  unfold bisect at h
  dsimp only at h
  cases hbl : bisectLoop c st ord ((count_nodes st.g).1 / 2) 0 with
  | error e => rw [hbl] at h; cases h
  | ok p =>
    obtain ⟨st1, newly'⟩ := p
    rw [hbl] at h
    cases h
    obtain ⟨_, _, _, _, hs0⟩ := bisectLoop_gShape c ord st _ 0 _ _ hbl
    intro id n hf hl
    obtain ⟨e, hfe, _, hlock⟩ := hs0 id n hf
    rw [hlock hl] at hfe
    rw [ModNode.update_enabled_self] at hfe
    exact hfe

/-- `bisect` preserves the dependency-closure invariant. -/
theorem bisect_closure_aux (c : Config) (st : St) (ord : List NodeId) (st' : St)
    (hnodup : ord.Nodup)
    (htopo : ∀ e ∈ st.g.edges, ord.indexOf e.1 < ord.indexOf e.2)
    (hcov : ∀ id ∈ st.g.ids, id ∈ ord) (hclo : closureP st.g)
    (h : bisect c st ord = .ok st') : closureP st'.g := by
  unfold bisect at h
  dsimp only at h
  cases hbl : bisectLoop c st ord ((count_nodes st.g).1 / 2) 0 with
  | error e => rw [hbl] at h; cases h
  | ok p =>
    obtain ⟨st1, newly'⟩ := p
    rw [hbl] at h
    cases h
    refine bisectLoop_closure c ord [] st _ 0 _ _ (by simpa using hnodup)
      (by simpa using htopo) (by simpa using hcov) ?_ hclo hbl
    intro id n hf _ hnot
    exact absurd (hcov id ((find?_isSome_iff_mem_ids st.g id).mp (by rw [hf]; rfl))) hnot

/-! ### More node-table lemmas -/

theorem setN_setN (l : List (NodeId × Option ModNode)) (id : NodeId)
    (v w : Option ModNode) : setN (setN l id v) id w = setN l id w := by
  induction l with
  | nil => rfl
  | cons p rest ih =>
    by_cases hp : p.1 = id
    · simp [setN, hp, ih]
    · simp [setN, hp, ih]

theorem lookupN_map (l : List (NodeId × Option ModNode))
    (F : NodeId → Option ModNode → Option ModNode) (id : NodeId) :
    lookupN (l.map fun p => (p.1, F p.1 p.2)) id = (lookupN l id).map (F id) := by
  induction l with
  | nil => rfl
  | cons p rest ih =>
    by_cases hp : p.1 = id
    · subst hp
      simp [lookupN, ih]
    · simp [lookupN, hp, ih]

theorem lookupN_append_left (l l2 : List (NodeId × Option ModNode)) (id : NodeId)
    (v : Option ModNode) (h : lookupN l id = some v) :
    lookupN (l ++ l2) id = some v := by
  induction l with
  | nil => cases h
  | cons p rest ih =>
    by_cases hp : p.1 = id
    · rw [lookupN, if_pos hp] at h
      rw [List.cons_append, lookupN, if_pos hp]
      exact h
    · rw [lookupN, if_neg hp] at h
      rw [List.cons_append, lookupN, if_neg hp]
      exact ih h

/-- Two node tables with the same (duplicate-free) key sequence and the same
lookups are equal. -/
theorem nodes_eq_of_find (l1 l2 : List (NodeId × Option ModNode))
    (hk : l1.map Prod.fst = l2.map Prod.fst) (hnodup : (l1.map Prod.fst).Nodup)
    (hfind : ∀ id, lookupN l1 id = lookupN l2 id) : l1 = l2 := by
  induction l1 generalizing l2 with
  | nil =>
    cases l2 with
    | nil => rfl
    | cons q t => cases hk
  | cons p t1 ih =>
    cases l2 with
    | nil => cases hk
    | cons q t2 =>
      simp only [List.map_cons, List.cons.injEq] at hk
      simp only [List.map_cons, List.nodup_cons] at hnodup
      have hval := hfind p.1
      rw [lookupN, if_pos rfl, lookupN, if_pos hk.1.symm] at hval
      have hpq : p = q := by
        cases p; cases q
        simp only [Option.some.injEq] at hval
        simp_all
      subst hpq
      have htails : ∀ id, lookupN t1 id = lookupN t2 id := by
        intro id
        by_cases hid : p.1 = id
        · subst hid
          have h1 : lookupN t1 p.1 = none := by
            rw [lookupN_eq_none]
            exact hnodup.1
          have h2 : lookupN t2 p.1 = none := by
            rw [lookupN_eq_none, ← hk.2]
            exact hnodup.1
          rw [h1, h2]
        · have := hfind id
          rw [lookupN, if_neg hid, lookupN, if_neg hid] at this
          exact this
      rw [ih t2 hk.2 hnodup.2 htails]

/-! ### Congruence for the ancestor scan -/

theorem list_any_congr (l : List NodeId) (f g : NodeId → Bool)
    (h : ∀ x ∈ l, f x = g x) : l.any f = l.any g := by
  induction l with
  | nil => rfl
  | cons a t ih =>
    simp only [List.any_cons]
    rw [h a (List.mem_cons_self a t), ih (fun x hx => h x (List.mem_cons_of_mem a hx))]

theorem anyEnabledAncestor_eq_getD (g : Graph) (modid : NodeId) :
    anyEnabledAncestor g modid =
      (g.ancestors modid).any fun a => (g.enabled? a).getD false := by
  unfold anyEnabledAncestor
  refine list_any_congr _ _ _ fun a _ => ?_
  unfold Graph.enabled?
  cases g.find? a with
  | none => rfl
  | some o => cases o with
    | none => rfl
    | some n => rfl

theorem ancestors_congr (g g' : Graph) (modid : NodeId) (hids : g'.ids = g.ids)
    (hlen : g'.nodes.length = g.nodes.length) (hedges : g'.edges = g.edges) :
    g'.ancestors modid = g.ancestors modid := by
  unfold Graph.ancestors
  rw [hids, hlen, hedges]

theorem anyEnabledAncestor_congr (g g' : Graph) (modid : NodeId)
    (hids : g'.ids = g.ids) (hlen : g'.nodes.length = g.nodes.length)
    (hedges : g'.edges = g.edges)
    (hanc : ∀ a ∈ g.ancestors modid, g'.enabled? a = g.enabled? a) :
    anyEnabledAncestor g' modid = anyEnabledAncestor g modid := by
  rw [anyEnabledAncestor_eq_getD, anyEnabledAncestor_eq_getD,
    ancestors_congr g g' modid hids hlen hedges]
  refine list_any_congr _ _ _ fun a ha => ?_
  rw [hanc a ha]

theorem ids_length (g : Graph) : g.ids.length = g.nodes.length := by
  unfold Graph.ids
  exact List.length_map _ _

/-! ### The propagation walk -/

/-- A successful `syncStep` rewrites exactly the stepped node, raising its
`enabled` flag by the ancestor scan. -/
theorem syncStep_ok_graph (c : Config) (st : St) (modid : NodeId) (st1 : St)
    (h : syncStep c st modid = .ok st1) :
    ∃ node, st.g.find? modid = some (some node) ∧
      st1.g = st.g.setNode modid
        (some { node with enabled := node.enabled || anyEnabledAncestor st.g modid }) := by
  unfold syncStep at h
  cases hf : st.g.find? modid with
  | none => rw [hf] at h; cases h
  | some o =>
    cases o with
    | none => rw [hf] at h; cases h
    | some node =>
      rw [hf] at h
      dsimp only at h
      refine ⟨node, rfl, ?_⟩
      cases hse : set_enabled c
          { st with g := st.g.setNode modid (some { node with
              enabled := node.enabled || anyEnabledAncestor st.g modid }) }
          modid (node.enabled || anyEnabledAncestor st.g modid) true with
      | error e => rw [hse] at h; cases h
      | ok p =>
        obtain ⟨b, st2⟩ := p
        rw [hse] at h
        cases h
        rcases set_enabled_ok_cases hse with ⟨m, hm, ⟨_, _, hc⟩ | ⟨_, hg, _⟩⟩
        · simp at hc
        · have hfind1 : (st.g.setNode modid (some { node with
              enabled := node.enabled || anyEnabledAncestor st.g modid })).find? modid =
              some (some { node with
                enabled := node.enabled || anyEnabledAncestor st.g modid }) :=
            find?_setNode_self _ _ _ (by rw [hf]; rfl)
          rw [hfind1] at hm
          cases hm
          rw [hg]
          unfold Graph.setNode
          dsimp only
          rw [setN_setN]

theorem propagate_find_notin (c : Config) (ord : List NodeId) :
    ∀ (st st' : St), propagate c st ord = .ok st' →
    ∀ id, id ∉ ord → st'.g.find? id = st.g.find? id := by
  induction ord with
  | nil =>
    intro st st' h id _
    rw [propagate] at h
    cases h
    rfl
  | cons modid rest ih =>
    intro st st' h id hid
    rw [propagate] at h
    cases hs : syncStep c st modid with
    | error e => rw [hs] at h; cases h
    | ok st1 =>
      rw [hs] at h
      obtain ⟨node, hf, hg1⟩ := syncStep_ok_graph c st modid st1 hs
      simp only [List.mem_cons, not_or] at hid
      rw [ih st1 st' h id hid.2, hg1, find?_setNode_ne _ _ _ _ hid.1]

theorem propagate_edges (c : Config) (ord : List NodeId) :
    ∀ (st st' : St), propagate c st ord = .ok st' → st'.g.edges = st.g.edges := by
  induction ord with
  | nil =>
    intro st st' h
    rw [propagate] at h
    cases h
    rfl
  | cons modid rest ih =>
    intro st st' h
    rw [propagate] at h
    cases hs : syncStep c st modid with
    | error e => rw [hs] at h; cases h
    | ok st1 =>
      rw [hs] at h
      obtain ⟨node, hf, hg1⟩ := syncStep_ok_graph c st modid st1 hs
      rw [ih st1 st' h, hg1]
      rfl

theorem propagate_keys (c : Config) (ord : List NodeId) :
    ∀ (st st' : St), propagate c st ord = .ok st' →
    st'.g.nodes.map Prod.fst = st.g.nodes.map Prod.fst := by
  induction ord with
  | nil =>
    intro st st' h
    rw [propagate] at h
    cases h
    rfl
  | cons modid rest ih =>
    intro st st' h
    rw [propagate] at h
    cases hs : syncStep c st modid with
    | error e => rw [hs] at h; cases h
    | ok st1 =>
      rw [hs] at h
      obtain ⟨node, hf, hg1⟩ := syncStep_ok_graph c st modid st1 hs
      rw [ih st1 st' h, hg1]
      exact setN_map_fst _ _ _

/-- The fixpoint characterization of the propagation walk: every node the
walk covers ends with `enabled = old ∨ (some ancestor enabled at the end)`. -/
theorem propagate_eq (c : Config) (ord : List NodeId) :
    ∀ (done : List NodeId) (st st' : St),
    (done ++ ord).Nodup →
    (∀ x ∈ st.g.ids, x ∈ done ++ ord) →
    (∀ e ∈ st.g.edges, (done ++ ord).indexOf e.1 < (done ++ ord).indexOf e.2) →
    propagate c st ord = .ok st' →
    ∀ id ∈ ord, ∀ n, st.g.find? id = some (some n) →
      st'.g.find? id =
        some (some { n with enabled := n.enabled || anyEnabledAncestor st'.g id }) := by
  induction ord with
  | nil =>
    intro done st st' _ _ _ h id hid
    cases hid
  | cons modid rest ih =>
    intro done st st' hnodup hcov htopo h id hid n hfind
    rw [propagate] at h
    cases hs : syncStep c st modid with
    | error e => rw [hs] at h; cases h
    | ok st1 =>
      rw [hs] at h
      obtain ⟨node, hf, hg1⟩ := syncStep_ok_graph c st modid st1 hs
      have hassoc : done ++ modid :: rest = (done ++ [modid]) ++ rest := by simp
      have hkeys1 : st1.g.nodes.map Prod.fst = st.g.nodes.map Prod.fst := by
        rw [hg1]; exact setN_map_fst _ _ _
      have hids1 : st1.g.ids = st.g.ids := hkeys1
      have hedges1 : st1.g.edges = st.g.edges := by rw [hg1]; rfl
      have hmodid_notin : modid ∉ rest := by
        have h2 := hnodup.of_append_right
        rw [List.nodup_cons] at h2
        exact h2.1
      have hcov1 : ∀ x ∈ st1.g.ids, x ∈ (done ++ [modid]) ++ rest := by
        intro x hx
        rw [← hassoc]
        exact hcov x (by rw [← hids1]; exact hx)
      have htopo1 : ∀ e ∈ st1.g.edges,
          ((done ++ [modid]) ++ rest).indexOf e.1 < ((done ++ [modid]) ++ rest).indexOf e.2 := by
        intro e he
        rw [← hassoc]
        exact htopo e (by rw [← hedges1]; exact he)
      have hnodup1 : ((done ++ [modid]) ++ rest).Nodup := by
        rw [← hassoc]; exact hnodup
      rcases List.mem_cons.mp hid with hid | hid
      · -- the stepped node itself
        subst hid
        rw [hf] at hfind
        cases hfind
        have hres : st'.g.find? id = st1.g.find? id :=
          propagate_find_notin c rest st1 st' h id hmodid_notin
        have hfind1 : st1.g.find? id = some (some { n with
            enabled := n.enabled || anyEnabledAncestor st.g id }) := by
          rw [hg1]
          exact find?_setNode_self _ _ _ (by rw [hf]; rfl)
        rw [hres, hfind1]
        -- the ancestor scan result is already final at this point
        have hanc : anyEnabledAncestor st'.g id = anyEnabledAncestor st.g id := by
          have hkeys' : st'.g.nodes.map Prod.fst = st.g.nodes.map Prod.fst := by
            rw [propagate_keys c rest st1 st' h]; exact hkeys1
          refine anyEnabledAncestor_congr st.g st'.g id hkeys' ?_ ?_ ?_
          · have h1 := congrArg List.length hkeys'
            simpa using h1
          · rw [propagate_edges c rest st1 st' h]; exact hedges1
          · intro a ha
            obtain ⟨hamem, hane, har⟩ := ancestors_sound st.g id a ha
            have hlt := reaches_indexOf_lt st.g.edges (done ++ id :: rest)
              htopo a id har hane
            have hadone : a ∈ done := by
              rcases List.mem_append.mp (hcov a hamem) with h' | h'
              · exact h'
              · rcases List.mem_cons.mp h' with h' | h'
                · exact absurd h' hane
                · have := indexOf_head_lt done rest id a hnodup h'
                  omega
            have hanotin : a ∉ rest := fun hr =>
              List.disjoint_of_nodup_append (by rw [← hassoc] at hnodup1; exact hnodup)
                hadone (List.mem_cons_of_mem _ hr)
            have h1 : st'.g.find? a = st1.g.find? a :=
              propagate_find_notin c rest st1 st' h a hanotin
            have h2 : st1.g.find? a = st.g.find? a := by
              rw [hg1]
              exact find?_setNode_ne _ _ _ _ hane
            unfold Graph.enabled?
            rw [h1, h2]
        rw [hanc]
      · -- a later node: its record is untouched by this step
        have hne : id ≠ modid := fun he => hmodid_notin (he ▸ hid)
        have hfind1 : st1.g.find? id = some (some n) := by
          rw [hg1, find?_setNode_ne _ _ _ _ hne]
          exact hfind
        exact ih (done ++ [modid]) st1 st' hnodup1 hcov1 htopo1 h id hid n hfind1

/-! ### Characterizing steps 1-3 of `sync` -/

theorem removeEmptyNodes_allSome (g : Graph) : (removeEmptyNodes g).allSome = true := by
  unfold removeEmptyNodes Graph.allSome
  rw [List.all_eq_true]
  intro p hp
  exact (List.mem_filter.mp hp).2

theorem removeEmptyNodes_edges_mem (g : Graph) (a b : NodeId)
    (h : (a, b) ∈ (removeEmptyNodes g).edges) :
    a ∈ (removeEmptyNodes g).ids ∧ b ∈ (removeEmptyNodes g).ids := by
  unfold removeEmptyNodes at h ⊢
  have := (List.mem_filter.mp h).2
  simp only [Bool.and_eq_true, List.elem_iff] at this
  exact this

theorem lookupN_filter_isSome (l : List (NodeId × Option ModNode)) (id : NodeId)
    (n : ModNode) (h : lookupN l id = some (some n)) :
    lookupN (l.filter fun p => p.2.isSome) id = some (some n) := by
  induction l with
  | nil => cases h
  | cons p rest ih =>
    simp only [List.filter_cons]
    by_cases hp : p.1 = id
    · rw [lookupN, if_pos hp] at h
      simp only [Option.some.injEq] at h
      rw [if_pos (by rw [h]; rfl), lookupN, if_pos hp, h]
    · rw [lookupN, if_neg hp] at h
      by_cases hkeep : p.2.isSome = true
      · rw [if_pos hkeep, lookupN, if_neg hp]
        exact ih h
      · rw [if_neg hkeep]
        exact ih h

theorem removeEmptyNodes_find_some (g : Graph) (id : NodeId) (n : ModNode)
    (h : g.find? id = some (some n)) :
    (removeEmptyNodes g).find? id = some (some n) :=
  lookupN_filter_isSome g.nodes id n h

theorem ensureNode_find_some (g : Graph) (x id : NodeId) (w : Option ModNode)
    (h : g.find? id = some w) : (g.ensureNode x).find? id = some w := by
  unfold Graph.ensureNode
  by_cases hm : g.mem x = true
  · rw [if_pos hm]; exact h
  · rw [if_neg hm]
    exact lookupN_append_left g.nodes _ id w h

theorem addEdge_find_some (g : Graph) (a b id : NodeId) (w : Option ModNode)
    (h : g.find? id = some w) : (g.addEdge a b).find? id = some w := by
  unfold Graph.addEdge
  dsimp only
  by_cases he : (a, b) ∈ ((g.ensureNode a).ensureNode b).edges
  · rw [if_pos he]
    exact ensureNode_find_some _ b id w (ensureNode_find_some g a id w h)
  · rw [if_neg he]
    exact ensureNode_find_some _ b id w (ensureNode_find_some g a id w h)

theorem foldl_addEdge_find_some (ds : List NodeId) (m : NodeId) :
    ∀ (g : Graph) (id : NodeId) (w : Option ModNode), g.find? id = some w →
    (ds.foldl (fun g d => g.addEdge m d) g).find? id = some w := by
  induction ds with
  | nil => intro g id w h; exact h
  | cons d rest ih =>
    intro g id w h
    exact ih _ id w (addEdge_find_some g m d id w h)

theorem addExtraDeps_find_some (eds : List (NodeId × List NodeId)) :
    ∀ (g : Graph) (id : NodeId) (w : Option ModNode), g.find? id = some w →
    (addExtraDeps eds g).find? id = some w := by
  induction eds with
  | nil => intro g id w h; exact h
  | cons p rest ih =>
    intro g id w h
    exact ih _ id w (foldl_addEdge_find_some p.2 p.1 g id w h)

theorem lookup_none_of_not_mem (ovs : List (NodeId × Bool)) (id : NodeId)
    (h : id ∉ ovs.map Prod.fst) : ovs.lookup id = none := by
  induction ovs with
  | nil => rfl
  | cons p rest ih =>
    simp only [List.map_cons, List.mem_cons, not_or] at h
    rw [List.lookup]
    have hbeq : (id == p.1) = false := by
      simp only [beq_eq_false_iff_ne, ne_eq]
      exact h.1
    rw [hbeq]
    exact ih h.2

theorem applyOverrides_find (ovs : List (NodeId × Bool)) :
    ∀ (g g1 : Graph), (ovs.map Prod.fst).Nodup →
    applyOverrides ovs g = .ok g1 →
    ∀ id n, g.find? id = some (some n) →
    g1.find? id = some (some (match ovs.lookup id with
      | some v => { n with locked := true, enabled := v }
      | none => n)) := by
  induction ovs with
  | nil =>
    intro g g1 _ h id n hf
    rw [applyOverrides] at h
    cases h
    exact hf
  | cons q rest ih =>
    intro g g1 hnodup h id n hf
    obtain ⟨k, v⟩ := q
    rw [applyOverrides] at h
    cases hk : g.find? k with
    | none => rw [hk] at h; cases h
    | some o =>
      cases o with
      | none => rw [hk] at h; cases h
      | some nk =>
        rw [hk] at h
        simp only [List.map_cons, List.nodup_cons] at hnodup
        by_cases hid : k = id
        · subst hid
          rw [hk] at hf
          cases hf
          have hfind' : (g.setNode k (some { n with locked := true, enabled := v })).find? k =
              some (some { n with locked := true, enabled := v }) :=
            find?_setNode_self _ _ _ (by rw [hk]; rfl)
          have := ih _ g1 hnodup.2 h k _ hfind'
          rw [lookup_none_of_not_mem rest k hnodup.1] at this
          rw [this, List.lookup, beq_self_eq_true]
        · have hfind' : (g.setNode k (some { nk with locked := true, enabled := v })).find? id =
              some (some n) := by
            rw [find?_setNode_ne _ _ _ _ (fun he => hid he.symm)]
            exact hf
          have := ih _ g1 hnodup.2 h id n hfind'
          rw [this, List.lookup]
          have hbeq : (id == k) = false := by
            simp only [beq_eq_false_iff_ne, ne_eq]
            exact fun he => hid he.symm
          rw [hbeq]

theorem applyOverrides_ok (ovs : List (NodeId × Bool)) :
    ∀ (g : Graph), (∀ p ∈ ovs, ∃ n, g.find? p.1 = some (some n)) →
    ∃ g1, applyOverrides ovs g = .ok g1 := by
  induction ovs with
  | nil => intro g _; exact ⟨g, rfl⟩
  | cons q rest ih =>
    intro g hpres
    obtain ⟨nk, hk⟩ := hpres q (List.mem_cons_self _ _)
    obtain ⟨g1, hg1⟩ := ih (g.setNode q.1 (some { nk with locked := true, enabled := q.2 }))
      (by
        intro p hp
        by_cases hpq : p.1 = q.1
        · refine ⟨{ nk with locked := true, enabled := q.2 }, ?_⟩
          rw [hpq]
          exact find?_setNode_self _ _ _ (by rw [hk]; rfl)
        · obtain ⟨np, hnp⟩ := hpres p (List.mem_cons_of_mem _ hp)
          refine ⟨np, ?_⟩
          rw [find?_setNode_ne _ _ _ _ hpq]
          exact hnp)
    refine ⟨g1, ?_⟩
    rw [applyOverrides, hk]
    exact hg1

theorem applyOverrides_keys (ovs : List (NodeId × Bool)) :
    ∀ (g g1 : Graph), applyOverrides ovs g = .ok g1 →
    g1.nodes.map Prod.fst = g.nodes.map Prod.fst := by
  induction ovs with
  | nil =>
    intro g g1 h
    rw [applyOverrides] at h
    cases h
    rfl
  | cons q rest ih =>
    intro g g1 h
    rw [applyOverrides] at h
    cases hk : g.find? q.1 with
    | none => rw [hk] at h; cases h
    | some o =>
      cases o with
      | none => rw [hk] at h; cases h
      | some nk =>
        rw [hk] at h
        rw [ih _ g1 h]
        exact setN_map_fst _ _ _

/-- The record `stage123` gives a surviving node: the original record, with
its override (if any) applied. -/
theorem stage123_find (c : Config) (g g3 : Graph)
    (hnodupOv : (c.overrides.map Prod.fst).Nodup)
    (hstage : stage123 c g = .ok g3) (id : NodeId) (n : ModNode)
    (hf : g.find? id = some (some n)) :
    g3.find? id = some (some (match c.overrides.lookup id with
      | some v => { n with locked := true, enabled := v }
      | none => n)) := by
  unfold stage123 at hstage
  cases happ : applyOverrides c.overrides g with
  | error e => rw [happ] at hstage; cases hstage
  | ok g1 =>
    rw [happ] at hstage
    cases hstage
    have h1 := applyOverrides_find c.overrides g g1 hnodupOv happ id n hf
    exact removeEmptyNodes_find_some _ id _ (addExtraDeps_find_some c.extra_deps g1 id _ h1)

theorem stage123_allSome (c : Config) (g g3 : Graph)
    (hstage : stage123 c g = .ok g3) : g3.allSome = true := by
  unfold stage123 at hstage
  cases happ : applyOverrides c.overrides g with
  | error e => rw [happ] at hstage; cases hstage
  | ok g1 =>
    rw [happ] at hstage
    cases hstage
    exact removeEmptyNodes_allSome _

theorem stage123_edges_mem (c : Config) (g g3 : Graph)
    (hstage : stage123 c g = .ok g3) (a b : NodeId) (h : (a, b) ∈ g3.edges) :
    a ∈ g3.ids ∧ b ∈ g3.ids := by
  unfold stage123 at hstage
  cases happ : applyOverrides c.overrides g with
  | error e => rw [happ] at hstage; cases hstage
  | ok g1 =>
    rw [happ] at hstage
    cases hstage
    exact removeEmptyNodes_edges_mem _ a b h

/-! ### Claim C1: dependency closure after `sync` and after `bisect` -/

/-- Closure holds for every edge of the graph `sync` produces. -/
theorem sync_closure_aux (c : Config) (st : St) (ord : List NodeId) (g3 : Graph)
    (st' : St) (hstage : stage123 c st.g = .ok g3) (hnodup : ord.Nodup)
    (hcov : ∀ x ∈ g3.ids, x ∈ ord)
    (htopo : ∀ e ∈ g3.edges, ord.indexOf e.1 < ord.indexOf e.2)
    (hsync : sync c st ord = .ok st') : closureP st'.g := by
  unfold sync at hsync
  rw [hstage] at hsync
  dsimp only at hsync
  by_cases hpa : pendingAcyclic g3 = true
  case neg => rw [if_neg hpa] at hsync; cases hsync
  rw [if_pos hpa] at hsync
  have hkeys := propagate_keys c ord _ _ hsync
  have hedges := propagate_edges c ord _ _ hsync
  intro a b na nb he hfa hfb hla hlb hea
  rw [hedges] at he
  obtain ⟨haid, hbid⟩ := stage123_edges_mem c st.g g3 hstage a b he
  have hane : a ≠ b := by
    have hx := htopo (a, b) he
    dsimp only at hx
    intro hab
    rw [hab] at hx
    omega
  -- the record of `b` in `g3`
  have hfb3 : ∃ nb0, g3.find? b = some (some nb0) := by
    have hsome : (g3.find? b).isSome = true := (find?_isSome_iff_mem_ids g3 b).mpr hbid
    cases hfb0 : g3.find? b with
    | none => rw [hfb0] at hsome; cases hsome
    | some o =>
      cases o with
      | none => exact absurd hfb0 (allSome_find_not_none g3 (stage123_allSome c st.g g3 hstage) b)
      | some nb0 => exact ⟨nb0, rfl⟩
  obtain ⟨nb0, hfb0⟩ := hfb3
  have heq := propagate_eq c ord [] { st with g := g3 } st' (by simpa using hnodup)
    (by simpa using hcov) (by simpa using htopo) hsync b (hcov b hbid) nb0 hfb0
  rw [hfb] at heq
  simp only [Option.some.injEq] at heq
  -- `a` is an enabled ancestor of `b` in the final graph
  have hamem' : a ∈ st'.g.ids := by
    have : st'.g.ids = g3.ids := hkeys
    rw [this]
    exact haid
  have hanc : a ∈ st'.g.ancestors b :=
    mem_ancestors_of_edge st'.g a b (by rw [hedges]; exact he) hamem' hane
  have hany : anyEnabledAncestor st'.g b = true := by
    unfold anyEnabledAncestor
    rw [List.any_eq_true]
    refine ⟨a, hanc, ?_⟩
    rw [hfa]
    exact hea
  rw [heq, hany]
  simp

/-- C1: after a completed `sync`, the dependency-closure invariant holds on
the unlocked subgraph, and a subsequent completed `bisect` preserves it.
The `ord` arguments are the walks `nx.topological_sort` yields, hypothesised
to be topological orders as that function guarantees. -/
theorem sync_bisect_dependency_closure (c : Config) (st : St) (ord : List NodeId)
    (g3 : Graph) (st' : St) (hstage : stage123 c st.g = .ok g3)
    (hnodup : ord.Nodup) (hcov : ∀ x ∈ g3.ids, x ∈ ord)
    (htopo : ∀ e ∈ g3.edges, ord.indexOf e.1 < ord.indexOf e.2)
    (hsync : sync c st ord = .ok st') :
    closureB st'.g = true ∧
    ∀ (ord2 : List NodeId) (st'' : St), ord2.Nodup →
      (∀ e ∈ st'.g.edges, ord2.indexOf e.1 < ord2.indexOf e.2) →
      (∀ x ∈ st'.g.ids, x ∈ ord2) →
      bisect c st' ord2 = .ok st'' → closureB st''.g = true := by
  have hclo := sync_closure_aux c st ord g3 st' hstage hnodup hcov htopo hsync
  refine ⟨(closureB_iff _).mpr hclo, ?_⟩
  intro ord2 st'' hnodup2 htopo2 hcov2 hbis
  exact (closureB_iff _).mpr
    (bisect_closure_aux c st' ord2 st'' hnodup2 htopo2 hcov2 hclo hbis)

theorem sync_bisect_dependency_closure_witness :
    closureB stW2.g = true ∧ closureB stW2b.g = true := by
  have h := sync_bisect_dependency_closure cW stW2 ["A", "B"] gW2 stW2
    rfl (by decide) (by decide) (by decide) rfl
  exact ⟨h.1, h.2 ["A", "B"] stW2b (by decide) (by decide) (by decide) rfl⟩

/-! ### Claim C2: the lock freeze -/

/-- C2 counterexample: with `Y` locked disabled by its override and an
enabled unlocked ancestor `X`, `sync`'s propagation step flips the locked
`Y` to enabled — an automatic operation changed a locked item's `enabled`
beyond what the override prescribed. -/
theorem sync_propagation_changes_locked :
    cC2.overrides = [("Y", false)] ∧
    stC2.g.enabled? "Y" = some false ∧
    sync cC2 stC2 ["X", "Y"] = .ok stC2s ∧
    stC2s.g.locked? "Y" = some true ∧
    stC2s.g.enabled? "Y" = some true :=
  ⟨rfl, rfl, rfl, rfl, rfl⟩

/-- C2 (amended form): `bisect` leaves every locked node's record entirely
unchanged; `sync` sets every surviving node's `enabled` to its override
value (or its prior value if it has no override) OR-ed with the presence of
an enabled ancestor after `sync` — so the propagation step may enable, but
never disable, a locked item beyond its override. -/
theorem lock_freeze_amended (c : Config) (st : St) (ord : List NodeId)
    (g3 : Graph) (st' : St) (hnodupOv : (c.overrides.map Prod.fst).Nodup)
    (hstage : stage123 c st.g = .ok g3) (hnodup : ord.Nodup)
    (hcov : ∀ x ∈ g3.ids, x ∈ ord)
    (htopo : ∀ e ∈ g3.edges, ord.indexOf e.1 < ord.indexOf e.2)
    (hsync : sync c st ord = .ok st') :
    (∀ id n, st.g.find? id = some (some n) →
      st'.g.enabled? id = some ((match c.overrides.lookup id with
        | some v => v
        | none => n.enabled) || anyEnabledAncestor st'.g id)) ∧
    (∀ (cb : Config) (ord2 : List NodeId) (stb stb' : St),
      bisect cb stb ord2 = .ok stb' →
      ∀ id n, stb.g.find? id = some (some n) → n.locked = true →
        stb'.g.find? id = some (some n)) := by
  constructor
  · intro id n hf
    have hf3 := stage123_find c st.g g3 hnodupOv hstage id n hf
    unfold sync at hsync
    rw [hstage] at hsync
    dsimp only at hsync
    by_cases hpa : pendingAcyclic g3 = true
    case neg => rw [if_neg hpa] at hsync; cases hsync
    rw [if_pos hpa] at hsync
    have hid3 : id ∈ g3.ids :=
      (find?_isSome_iff_mem_ids g3 id).mp (by rw [hf3]; rfl)
    have heq := propagate_eq c ord [] { st with g := g3 } st' (by simpa using hnodup)
      (by simpa using hcov) (by simpa using htopo) hsync id (hcov id hid3) _ hf3
    unfold Graph.enabled?
    rw [heq]
    cases c.overrides.lookup id with
    | none => rfl
    | some v => rfl
  · intro cb ord2 stb stb' hbis id n hf hl
    exact bisect_locked_unchanged_aux cb stb ord2 stb' hbis id n hf hl

theorem lock_freeze_amended_witness :
    stC2s.g.enabled? "Y" = some ((match cC2.overrides.lookup "Y" with
      | some v => v
      | none => false) || anyEnabledAncestor stC2s.g "Y") :=
  (lock_freeze_amended cC2 stC2 ["X", "Y"] gC2s stC2s (by decide) rfl
    (by decide) (by decide) (by decide) rfl).1 "Y"
    { name := "Y", path := "y.jar", enabled := false, locked := false } rfl


/-! ### Claim C4: `set_enabled_good` machinery -/

theorem exc_bind_err {ε α β : Type} (e : ε) (f : α → Except ε β) :
    (Except.error e : Except ε α) >>= f = Except.error e := rfl

theorem exc_bind_ok {ε α β : Type} (a : α) (f : α → Except ε β) :
    (Except.ok a : Except ε α) >>= f = f a := rfl

theorem eShape_refl (g : Graph) : eShape g g := by
  refine ⟨rfl, rfl, fun _ h => h, fun _ h => h,
    fun id n h => ⟨n.enabled, ?_, fun h' => h'⟩⟩
  rw [ModNode.update_enabled_self]
  exact h

theorem eShape_trans {g1 g2 g3 : Graph} (h12 : eShape g1 g2) (h23 : eShape g2 g3) :
    eShape g1 g3 := by
  obtain ⟨he12, hk12, hn12, hsn12, hs12⟩ := h12
  obtain ⟨he23, hk23, hn23, hsn23, hs23⟩ := h23
  refine ⟨he23.trans he12, hk23.trans hk12, fun id h => hn23 id (hn12 id h),
    fun id h => hsn23 id (hsn12 id h), fun id n h => ?_⟩
  obtain ⟨e2, hf2, himp2⟩ := hs12 id n h
  obtain ⟨e3, hf3, himp3⟩ := hs23 id _ hf2
  exact ⟨e3, hf3, fun h' => himp3 (himp2 h')⟩

theorem eShape_mono_true {g g' : Graph} (h : eShape g g') (id : NodeId)
    (he : g.enabled? id = some true) : g'.enabled? id = some true := by
  obtain ⟨n, hf, hne⟩ := (enabled?_eq_some g id true).mp he
  obtain ⟨e, hf', himp⟩ := h.2.2.2.2 id n hf
  exact (enabled?_eq_some g' id true).mpr ⟨_, hf', himp hne⟩

/-- A single successful `enable` is an `eShape` step that ends with the
target enabled. -/
theorem enable_step (c : Config) (st : St) (modid : NodeId) (b : Bool) (st' : St)
    (h : enable c st modid = .ok (b, st')) :
    eShape st.g st'.g ∧ st'.g.enabled? modid = some true := by
  unfold enable at h
  rcases set_enabled_ok_cases h with ⟨n, hf, ⟨_, rfl, hc⟩ | ⟨_, hg, _⟩⟩
  · refine ⟨eShape_refl _, ?_⟩
    simp only [Bool.not_false, Bool.true_and, beq_iff_eq] at hc
    exact (enabled?_eq_some _ _ true).mpr ⟨n, hf, hc.symm⟩
  · have hself : st'.g.find? modid = some (some { n with enabled := true }) := by
      rw [hg]
      exact find?_setNode_self _ _ _ (by rw [hf]; rfl)
    refine ⟨⟨by rw [hg]; rfl, by rw [hg]; exact setN_map_fst _ _ _, ?_, ?_, ?_⟩, ?_⟩
    · intro id hid
      have hne : id ≠ modid := fun he => by rw [he, hf] at hid; cases hid
      rw [hg, find?_setNode_ne _ _ _ _ hne]
      exact hid
    · intro id hid
      have hne : id ≠ modid := fun he => by rw [he, hf] at hid; cases hid
      rw [hg, find?_setNode_ne _ _ _ _ hne]
      exact hid
    · intro id m hid
      by_cases hne : id = modid
      · subst hne
        rw [hf] at hid
        cases hid
        exact ⟨true, hself, fun _ => rfl⟩
      · rw [hg, find?_setNode_ne _ _ _ _ hne]
        refine ⟨m.enabled, ?_, fun h' => h'⟩
        rw [ModNode.update_enabled_self]
        exact hid
    · exact (enabled?_eq_some _ _ true).mpr ⟨_, hself, rfl⟩

theorem descendants_congr (g g' : Graph) (hedges : g'.edges = g.edges)
    (hlen : g'.nodes.length = g.nodes.length) (m : NodeId) :
    g'.descendants m = g.descendants m := by
  unfold Graph.descendants
  rw [hedges, hlen]

theorem eShape_length {g g' : Graph} (h : eShape g g') :
    g'.nodes.length = g.nodes.length := by
  have := congrArg List.length h.2.1
  simpa using this

/-- The inner loop of `enableWithDeps`: enable a list of nodes, erasing each
from the disable set. -/
theorem ewd_inner (c : Config) (ds : List NodeId) :
    ∀ (st : St) (td : List NodeId) (st2 : St) (td2 : List NodeId),
    ds.foldlM (ewdStep c) (st, td) = .ok (st2, td2) →
    eShape st.g st2.g ∧
    (∀ id, id ∉ ds → st2.g.find? id = st.g.find? id) ∧
    (∀ d ∈ ds, st2.g.enabled? d = some true) ∧
    (td.Nodup → td2.Nodup ∧ ∀ x, x ∈ td2 ↔ (x ∈ td ∧ x ∉ ds)) := by
  induction ds with
  | nil =>
    intro st td st2 td2 h
    simp only [List.foldlM_nil] at h
    cases h
    exact ⟨eShape_refl _, fun _ _ => rfl, fun d hd => absurd hd (List.not_mem_nil d),
      fun hn => ⟨hn, fun x => by simp⟩⟩
  | cons d rest ih =>
    intro st td st2 td2 h
    rw [List.foldlM_cons] at h
    unfold ewdStep at h
    dsimp only at h
    cases hen : enable c st d with
    | error e => rw [hen] at h; dsimp only at h; rw [exc_bind_err] at h; cases h
    | ok p =>
      obtain ⟨b, stA⟩ := p
      rw [hen] at h
      dsimp only at h
      rw [exc_bind_ok] at h
      obtain ⟨hshape, htrue⟩ := enable_step c st d b stA hen
      obtain ⟨hshape2, hU, hE, hT⟩ := ih stA (td.erase d) st2 td2 h
      refine ⟨eShape_trans hshape hshape2, ?_, ?_, ?_⟩
      · intro id hid
        simp only [List.mem_cons, not_or] at hid
        rw [hU id hid.2]
        unfold enable at hen
        exact set_enabled_ok_find_ne hen id hid.1
      · intro x hx
        rcases List.mem_cons.mp hx with hx | hx
        · subst hx
          exact eShape_mono_true hshape2 x htrue
        · exact hE x hx
      · intro hn
        obtain ⟨hn2, hmem⟩ := hT (hn.erase d)
        refine ⟨hn2, fun x => ?_⟩
        rw [hmem x, List.Nodup.mem_erase_iff hn]
        simp only [List.mem_cons, not_or]
        tauto

/-- The first loop of `set_enabled_good`: enable each node of `P` together
with all of its descendants, erasing those from the disable set. -/
theorem ewd_fold (c : Config) (P : List NodeId) :
    ∀ (st : St) (td : List NodeId) (st1 : St) (td1 : List NodeId),
    P.foldlM (enableWithDeps c) (st, td) = .ok (st1, td1) →
    eShape st.g st1.g ∧
    (∀ id, id ∉ P → (∀ m ∈ P, id ∉ st.g.descendants m) →
      st1.g.find? id = st.g.find? id) ∧
    (∀ m ∈ P, st1.g.enabled? m = some true) ∧
    (∀ m ∈ P, ∀ d, d ∈ st.g.descendants m → st1.g.enabled? d = some true) ∧
    (td.Nodup → td1.Nodup ∧
      ∀ x, x ∈ td1 ↔ (x ∈ td ∧ ∀ m ∈ P, x ∉ st.g.descendants m)) := by
  induction P with
  | nil =>
    intro st td st1 td1 h
    simp only [List.foldlM_nil] at h
    cases h
    exact ⟨eShape_refl _, fun _ _ _ => rfl, fun m hm => absurd hm (List.not_mem_nil m),
      fun m hm => absurd hm (List.not_mem_nil m), fun hn => ⟨hn, fun x => by simp⟩⟩
  | cons m rest ih =>
    intro st td st1 td1 h
    rw [List.foldlM_cons] at h
    unfold enableWithDeps at h
    dsimp only at h
    cases hen : enable c st m with
    | error e => rw [hen] at h; dsimp only at h; rw [exc_bind_err] at h; cases h
    | ok p =>
      obtain ⟨b, stA⟩ := p
      rw [hen] at h
      dsimp only at h
      cases hin : (stA.g.descendants m).foldlM (ewdStep c) (stA, td) with
      | error e => rw [hin, exc_bind_err] at h; cases h
      | ok q =>
        obtain ⟨stB, tdB⟩ := q
        rw [hin, exc_bind_ok] at h
        obtain ⟨hshapeA, htrueA⟩ := enable_step c st m b stA hen
        have hdesc : stA.g.descendants m = st.g.descendants m :=
          descendants_congr st.g stA.g hshapeA.1 (eShape_length hshapeA) m
        obtain ⟨hshapeB, hUB, hEB, hTB⟩ := ewd_inner c (stA.g.descendants m) stA td stB tdB hin
        obtain ⟨hshapeC, hUC, hEC, hDC, hTC⟩ := ih stB tdB st1 td1 h
        have hshapeAB := eShape_trans hshapeA hshapeB
        have hdescB : ∀ x, stB.g.descendants x = st.g.descendants x := fun x =>
          descendants_congr st.g stB.g hshapeAB.1 (eShape_length hshapeAB) x
        refine ⟨eShape_trans hshapeAB hshapeC, ?_, ?_, ?_, ?_⟩
        · intro id hid hd
          simp only [List.mem_cons, not_or] at hid
          have hd0 : id ∉ st.g.descendants m := hd m (List.mem_cons_self _ _)
          rw [hUC id hid.2 (fun m' hm' => by
              rw [hdescB m']
              exact hd m' (List.mem_cons_of_mem _ hm'))]
          rw [hUB id (by rw [hdesc]; exact hd0)]
          unfold enable at hen
          exact set_enabled_ok_find_ne hen id hid.1
        · intro m' hm'
          rcases List.mem_cons.mp hm' with hm' | hm'
          · subst hm'
            exact eShape_mono_true (eShape_trans hshapeB hshapeC) m' htrueA
          · exact hEC m' hm'
        · intro m' hm' d hd
          rcases List.mem_cons.mp hm' with hm' | hm'
          · subst hm'
            exact eShape_mono_true hshapeC d (hEB d (by rw [hdesc]; exact hd))
          · exact hDC m' hm' d (by rw [hdescB]; exact hd)
        · intro hn
          obtain ⟨hnB, hmemB⟩ := hTB hn
          obtain ⟨hn1, hmem1⟩ := hTC hnB
          refine ⟨hn1, fun x => ?_⟩
          rw [hmem1 x, hmemB x, hdesc]
          constructor
          · rintro ⟨⟨hxtd, hxm⟩, hrest⟩
            refine ⟨hxtd, fun m' hm' => ?_⟩
            rcases List.mem_cons.mp hm' with hm' | hm'
            · subst hm'; exact hxm
            · have := hrest m' hm'
              rw [hdescB] at this
              exact this
          · rintro ⟨hxtd, hall⟩
            refine ⟨⟨hxtd, hall m (List.mem_cons_self _ _)⟩, fun m' hm' => ?_⟩
            rw [hdescB]
            exact hall m' (List.mem_cons_of_mem _ hm')

theorem locked?_of_find {g : Graph} {id : NodeId} {n : ModNode}
    (h : g.find? id = some (some n)) : g.locked? id = some n.locked := by
  unfold Graph.locked?
  rw [h]

/-- The second loop of `set_enabled_good`: disable each remaining node of the
disable set and mark it `is_good = True`. -/
theorem sl_fold (c : Config) (td : List NodeId) :
    ∀ (st st2 : St),
    td.Nodup →
    td.foldlM (sdgStep c) st = .ok st2 →
    (∀ id, id ∉ td → st2.g.find? id = st.g.find? id) ∧
    (∀ m ∈ td, ∃ n, st.g.find? m = some (some n) ∧
      st2.g.find? m = some (some { n with enabled := false, is_good := some (some true) })) ∧
    st2.g.nodes.map Prod.fst = st.g.nodes.map Prod.fst ∧
    st2.g.edges = st.g.edges := by
  induction td with
  | nil =>
    intro st st2 _ h
    simp only [List.foldlM_nil] at h
    cases h
    exact ⟨fun _ _ => rfl, fun m hm => absurd hm (List.not_mem_nil m), rfl, rfl⟩
  | cons m rest ih =>
    intro st st2 hnd h
    have hmrest : m ∉ rest := (List.nodup_cons.mp hnd).1
    have hndrest : rest.Nodup := (List.nodup_cons.mp hnd).2
    rw [List.foldlM_cons] at h
    unfold sdgStep at h
    cases hd : disable c st m with
    | error e => rw [hd] at h; dsimp only at h; rw [exc_bind_err] at h; cases h
    | ok p =>
      obtain ⟨b, stA⟩ := p
      rw [hd] at h
      dsimp only at h
      rw [exc_bind_ok] at h
      unfold disable at hd
      obtain ⟨n, hfind, _⟩ := set_enabled_ok_cases hd
      have hselfA : stA.g.find? m = some (some { n with enabled := false }) :=
        set_enabled_ok_find_self hd hfind
      obtain ⟨hU, hM, hK, hE⟩ := ih _ st2 hndrest h
      have hfB : (set_good stA.g m (some true)).find? m =
          some (some { n with enabled := false, is_good := some (some true) }) :=
        set_good_find_self stA.g m (some true) _ hselfA
      refine ⟨?_, ?_, ?_, ?_⟩
      · intro id hid
        simp only [List.mem_cons, not_or] at hid
        rw [hU id hid.2]
        dsimp only
        rw [set_good_find_ne _ _ _ _ hid.1]
        exact set_enabled_ok_find_ne hd id hid.1
      · intro m' hm'
        rcases List.mem_cons.mp hm' with hm' | hm'
        · subst hm'
          refine ⟨n, hfind, ?_⟩
          rw [hU m' hmrest]
          exact hfB
        · obtain ⟨n', hn'1, hn'2⟩ := hM m' hm'
          have hne : m' ≠ m := fun he => hmrest (he ▸ hm')
          refine ⟨n', ?_, hn'2⟩
          rw [← set_enabled_ok_find_ne hd m' hne, ← set_good_find_ne stA.g m (some true) m' hne]
          exact hn'1
      · rw [hK]
        dsimp only
        rw [set_good_keys]
        exact set_enabled_ok_keys hd
      · rw [hE]
        dsimp only
        rw [set_good_edges]
        exact set_enabled_ok_edges hd

/-- Membership in the key list of a filtered pending-node list. -/
theorem mem_pend_map (g : Graph) (hn : g.ids.Nodup) (q : NodeId × ModNode → Bool)
    (id : NodeId) :
    id ∈ ((g.pendingNodes.filter q).map Prod.fst) ↔
      ∃ n, g.find? id = some (some n) ∧ n.locked = false ∧ q (id, n) = true := by
  constructor
  · intro h
    obtain ⟨p, hp, rfl⟩ := List.mem_map.mp h
    obtain ⟨hpmem, hq⟩ := List.mem_filter.mp hp
    obtain ⟨hfind, hl⟩ := pendingNodes_find g p hpmem hn
    exact ⟨p.2, hfind, hl, hq⟩
  · rintro ⟨n, hfind, hl, hq⟩
    exact List.mem_map.mpr
      ⟨(id, n), List.mem_filter.mpr ⟨pendingNodes_complete g id n hfind hl, hq⟩, rfl⟩

theorem pend_filter_keys_nodup (g : Graph) (hn : g.ids.Nodup)
    (q : NodeId × ModNode → Bool) :
    ((g.pendingNodes.filter q).map Prod.fst).Nodup :=
  ((List.filter_sublist _).map Prod.fst).nodup (pendingNodes_keys_nodup g hn)

theorem enabled?_ext {g g' : Graph} (id : NodeId)
    (h : g'.find? id = g.find? id) : g'.enabled? id = g.enabled? id := by
  unfold Graph.enabled?
  rw [h]

/-- `set_enabled_good`, corrected: locked flags are never modified (in
particular nothing gets locked); previously-disabled unlocked nodes and all
their descendants end enabled; the remaining previously-enabled unlocked
nodes end disabled with `is_good = True` recorded. -/
theorem set_enabled_good_amended (c : Config) (st st' : St) (hkeys : st.g.ids.Nodup)
    (h : set_enabled_good c st = .ok st') :
    (∀ id n, st.g.find? id = some (some n) → st'.g.locked? id = some n.locked) ∧
    (∀ id n, st.g.find? id = some (some n) → n.locked = false → n.enabled = false →
      st'.g.enabled? id = some true) ∧
    (∀ id m nm, st.g.find? m = some (some nm) → nm.locked = false → nm.enabled = false →
      id ∈ st.g.descendants m → st'.g.enabled? id = some true) ∧
    (∀ id n, st.g.find? id = some (some n) → n.locked = false → n.enabled = true →
      (∀ m nm, st.g.find? m = some (some nm) → nm.locked = false → nm.enabled = false →
        id ∉ st.g.descendants m) →
      st'.g.find? id = some (some { n with enabled := false, is_good := some (some true) })) := by
  unfold set_enabled_good at h
  dsimp only at h
  cases hfold : (((st.g.pendingNodes.filter fun p => !p.2.enabled).map Prod.fst).foldlM
      (enableWithDeps c)
      (st, (st.g.pendingNodes.filter fun p => p.2.enabled).map Prod.fst)) with
  | error e => rw [hfold] at h; cases h
  | ok q =>
    obtain ⟨st1, td1⟩ := q
    rw [hfold] at h
    dsimp only at h
    obtain ⟨hsh, hU, hE, hD, hT⟩ := ewd_fold c _ st _ st1 td1 hfold
    have hTDnd : (((st.g.pendingNodes.filter fun p => p.2.enabled).map Prod.fst)).Nodup :=
      pend_filter_keys_nodup st.g hkeys _
    obtain ⟨hnd1, htd1⟩ := hT hTDnd
    obtain ⟨hU2, hM2, hK2, hE2⟩ := sl_fold c td1 st1 st' hnd1 h
    have hPmem : ∀ id, id ∈ ((st.g.pendingNodes.filter fun p => !p.2.enabled).map Prod.fst) ↔
        ∃ n, st.g.find? id = some (some n) ∧ n.locked = false ∧ n.enabled = false := by
      intro id
      rw [mem_pend_map st.g hkeys _ id]
      constructor
      · rintro ⟨n, hf, hl, hq⟩
        exact ⟨n, hf, hl, by simpa using hq⟩
      · rintro ⟨n, hf, hl, he⟩
        exact ⟨n, hf, hl, by simp [he]⟩
    have hTDmem : ∀ id, id ∈ ((st.g.pendingNodes.filter fun p => p.2.enabled).map Prod.fst) ↔
        ∃ n, st.g.find? id = some (some n) ∧ n.locked = false ∧ n.enabled = true := by
      intro id
      exact mem_pend_map st.g hkeys _ id
    have hnotin_td1 : ∀ id n, st.g.find? id = some (some n) → n.enabled = false →
        id ∉ td1 := by
      intro id n hf he hid
      obtain ⟨hidTD, _⟩ := (htd1 id).mp hid
      obtain ⟨n', hf', _, he'⟩ := (hTDmem id).mp hidTD
      rw [hf] at hf'
      cases hf'
      rw [he] at he'
      cases he'
    refine ⟨?_, ?_, ?_, ?_⟩
    · intro id n hf
      by_cases hid : id ∈ td1
      · obtain ⟨n1, hn1, hn1'⟩ := hM2 id hid
        obtain ⟨e, hfe, _⟩ := hsh.2.2.2.2 id n hf
        rw [hfe] at hn1
        cases hn1
        have h5 := locked?_of_find hn1'
        exact h5
      · obtain ⟨e, hfe, _⟩ := hsh.2.2.2.2 id n hf
        have hfe' : st'.g.find? id = some (some { n with enabled := e }) := by
          rw [hU2 id hid]
          exact hfe
        have h5 := locked?_of_find hfe'
        exact h5
    · intro id n hf hl he
      have hidP : id ∈ ((st.g.pendingNodes.filter fun p => !p.2.enabled).map Prod.fst) :=
        (hPmem id).mpr ⟨n, hf, hl, he⟩
      have h1 : st1.g.enabled? id = some true := hE id hidP
      have hnot : id ∉ td1 := hnotin_td1 id n hf he
      rw [enabled?_ext id (hU2 id hnot)]
      exact h1
    · intro id m nm hfm hlm hem hdm
      have hmP : m ∈ ((st.g.pendingNodes.filter fun p => !p.2.enabled).map Prod.fst) :=
        (hPmem m).mpr ⟨nm, hfm, hlm, hem⟩
      have h1 : st1.g.enabled? id = some true := hD m hmP id hdm
      have hnot : id ∉ td1 := by
        intro hid
        obtain ⟨_, hall⟩ := (htd1 id).mp hid
        exact hall m hmP hdm
      rw [enabled?_ext id (hU2 id hnot)]
      exact h1
    · intro id n hf hl he hnd
      have hallP : ∀ m ∈ ((st.g.pendingNodes.filter fun p => !p.2.enabled).map Prod.fst),
          id ∉ st.g.descendants m := by
        intro m hm
        obtain ⟨nm, hfm, hlm, hem⟩ := (hPmem m).mp hm
        exact hnd m nm hfm hlm hem
      have hidTD : id ∈ ((st.g.pendingNodes.filter fun p => p.2.enabled).map Prod.fst) :=
        (hTDmem id).mpr ⟨n, hf, hl, he⟩
      have hid1 : id ∈ td1 := (htd1 id).mpr ⟨hidTD, hallP⟩
      obtain ⟨n1, hn1, hn1'⟩ := hM2 id hid1
      have hnotP : id ∉ ((st.g.pendingNodes.filter fun p => !p.2.enabled).map Prod.fst) := by
        intro hid
        obtain ⟨n', hf', _, he'⟩ := (hPmem id).mp hid
        rw [hf] at hf'
        cases hf'
        rw [he] at he'
        cases he'
      rw [hU id hnotP hallP, hf] at hn1
      cases hn1
      exact hn1'

/-- C4: contrary to the claim, the "everything else" branch of
`set_enabled_good` does not lock anything: a single unlocked enabled node
ends disabled with `is_good = True`, but its `locked` flag is still `False`.
(`set_good` writes `is_good`; no code path sets `locked`.) -/
theorem set_enabled_good_does_not_lock :
    (set_enabled_good cW stW).map
        (fun st => (st.g.enabled? "A", st.g.locked? "A", st.g.isGood? "A")) =
      .ok (some false, some false, some (some (some true))) := rfl

theorem set_enabled_good_amended_witness :
    stC4.g.ids.Nodup ∧
    ({ g :=
         { nodes :=
             [("D", some { name := "D", path := "d.jar", enabled := true, locked := false }),
              ("B", some { name := "B", path := "b.jar", enabled := true, locked := false }),
              ("C", some { name := "C", path := "c.jar", enabled := false, locked := false,
                           is_good := some (some true) })]
           edges := [("D", "B")] }
       fs := ["r/b.jar", "r/d.jar", "r/c.jar.disabled"] } : St).g.enabled? "B" = some true :=
  ⟨by decide, (set_enabled_good_amended cW stC4 _ (by decide) rfl).2.2.1 "B" "D"
      { name := "D", path := "d.jar", enabled := false, locked := false } rfl rfl rfl
      (by decide)⟩

/-! ### Claim C8: idempotence of `sync` -/

theorem graph_ext {g g' : Graph} (h1 : g.nodes = g'.nodes) (h2 : g.edges = g'.edges) :
    g = g' := by
  obtain ⟨n1, e1⟩ := g
  obtain ⟨n2, e2⟩ := g'
  cases h1
  cases h2
  rfl

theorem exc_map_ok {ε α β : Type} (f : α → β) (a : α) :
    (Except.ok a : Except ε α).map f = .ok (f a) := rfl

theorem lookup_mem {α β : Type} [BEq α] [LawfulBEq α] (l : List (α × β)) (id : α) (v : β)
    (h : l.lookup id = some v) : (id, v) ∈ l := by
  induction l with
  | nil => cases h
  | cons p rest ih =>
    rw [List.lookup] at h
    cases hb : id == p.1 with
    | true =>
      rw [hb] at h
      cases h
      have : id = p.1 := by simpa using hb
      subst this
      exact List.mem_cons_self _ _
    | false =>
      rw [hb] at h
      exact List.mem_cons_of_mem _ (ih h)

theorem find?_mem_ids (g : Graph) (id : NodeId) (w : Option ModNode)
    (h : g.find? id = some w) : id ∈ g.ids := by
  by_contra hmem
  unfold Graph.ids at hmem
  unfold Graph.find? at h
  rw [(lookupN_eq_none g.nodes id).mpr hmem] at h
  cases h

theorem allSome_find_isSome (g : Graph) (hall : g.allSome = true) (id : NodeId)
    (w : Option ModNode) (h : g.find? id = some w) : w.isSome = true := by
  have hmem := lookupN_mem g.nodes id w h
  exact (List.all_eq_true.mp hall) (id, w) hmem

theorem setN_self (l : List (NodeId × Option ModNode)) (id : NodeId)
    (w : Option ModNode) (hnd : (l.map Prod.fst).Nodup)
    (h : lookupN l id = some w) : setN l id w = l := by
  induction l with
  | nil => rfl
  | cons p rest ih =>
    simp only [List.map_cons, List.nodup_cons] at hnd
    rw [setN]
    by_cases hp : p.1 = id
    · rw [lookupN, if_pos hp] at h
      cases h
      have hrest : setN rest id p.2 = rest := by
        have : ∀ q ∈ rest, q.1 ≠ id := by
          intro q hq he
          exact hnd.1 (by rw [hp, ← he]; exact List.mem_map_of_mem Prod.fst hq)
        clear ih hnd
        induction rest with
        | nil => rfl
        | cons q t ih2 =>
          rw [setN, if_neg (this q (List.mem_cons_self _ _))]
          rw [ih2 (fun r hr => this r (List.mem_cons_of_mem _ hr))]
      rw [if_pos hp, hrest, ← hp]
    · rw [lookupN, if_neg hp] at h
      rw [if_neg hp, ih hnd.2 h]

theorem setN_allSome (l : List (NodeId × Option ModNode)) (id : NodeId) (n : ModNode)
    (hall : l.all (fun p => p.2.isSome) = true) :
    (setN l id (some n)).all (fun p => p.2.isSome) = true := by
  induction l with
  | nil => rfl
  | cons p rest ih =>
    simp only [List.all_cons, Bool.and_eq_true] at hall
    rw [setN]
    simp only [List.all_cons, Bool.and_eq_true]
    refine ⟨?_, ih hall.2⟩
    by_cases hp : p.1 = id
    · rw [if_pos hp]; rfl
    · rw [if_neg hp]; exact hall.1

theorem setN_lockEntry (l : List (NodeId × Option ModNode)) (x : NodeId)
    (node : ModNode) (e : Bool) (hnd : (l.map Prod.fst).Nodup)
    (h : lookupN l x = some (some node)) :
    (setN l x (some { node with enabled := e })).map lockEntry = l.map lockEntry := by
  induction l with
  | nil => rfl
  | cons p rest ih =>
    simp only [List.map_cons, List.nodup_cons] at hnd
    rw [setN]
    by_cases hp : p.1 = x
    · rw [lookupN, if_pos hp] at h
      simp only [Option.some.injEq] at h
      have hrest : setN rest x (some { node with enabled := e }) = rest := by
        have : ∀ q ∈ rest, q.1 ≠ x := by
          intro q hq he
          exact hnd.1 (by rw [hp, ← he]; exact List.mem_map_of_mem Prod.fst hq)
        clear ih hnd
        induction rest with
        | nil => rfl
        | cons q t ih2 =>
          rw [setN, if_neg (this q (List.mem_cons_self _ _))]
          rw [ih2 (fun r hr => this r (List.mem_cons_of_mem _ hr))]
      rw [if_pos hp, hrest]
      simp only [List.map_cons]
      congr 1
      simp [lockEntry, hp, h]
    · rw [lookupN, if_neg hp] at h
      rw [if_neg hp]
      simp only [List.map_cons]
      rw [ih hnd.2 h]

theorem applyOverrides_edges (ovs : List (NodeId × Bool)) :
    ∀ (g g1 : Graph), applyOverrides ovs g = .ok g1 → g1.edges = g.edges := by
  induction ovs with
  | nil =>
    intro g g1 h
    rw [applyOverrides] at h
    cases h
    rfl
  | cons q rest ih =>
    intro g g1 h
    rw [applyOverrides] at h
    cases hk : g.find? q.1 with
    | none => rw [hk] at h; cases h
    | some o =>
      cases o with
      | none => rw [hk] at h; cases h
      | some nk =>
        rw [hk] at h
        dsimp only at h
        exact (ih _ g1 h).trans rfl

theorem applyOverrides_allSome (ovs : List (NodeId × Bool)) :
    ∀ (g g1 : Graph), g.allSome = true → applyOverrides ovs g = .ok g1 →
    g1.allSome = true := by
  induction ovs with
  | nil =>
    intro g g1 hall h
    rw [applyOverrides] at h
    cases h
    exact hall
  | cons q rest ih =>
    intro g g1 hall h
    rw [applyOverrides] at h
    cases hk : g.find? q.1 with
    | none => rw [hk] at h; cases h
    | some o =>
      cases o with
      | none => rw [hk] at h; cases h
      | some nk =>
        rw [hk] at h
        dsimp only at h
        refine ih _ g1 ?_ h
        unfold Graph.allSome at hall ⊢
        exact setN_allSome g.nodes q.1 _ hall

theorem applyOverrides_present (ovs : List (NodeId × Bool)) :
    ∀ (g g1 : Graph), applyOverrides ovs g = .ok g1 →
    ∀ p ∈ ovs, ∃ n, g.find? p.1 = some (some n) := by
  induction ovs with
  | nil =>
    intro g g1 _ p hp
    cases hp
  | cons q rest ih =>
    intro g g1 h p hp
    rw [applyOverrides] at h
    cases hk : g.find? q.1 with
    | none => rw [hk] at h; cases h
    | some o =>
      cases o with
      | none => rw [hk] at h; cases h
      | some nk =>
        rw [hk] at h
        dsimp only at h
        rcases List.mem_cons.mp hp with hp | hp
        · subst hp
          exact ⟨nk, hk⟩
        · obtain ⟨m, hm⟩ := ih _ g1 h p hp
          by_cases hpq : p.1 = q.1
          · exact ⟨nk, hpq ▸ hk⟩
          · refine ⟨m, ?_⟩
            rw [find?_setNode_ne _ _ _ _ hpq] at hm
            exact hm

theorem ensureNode_edges (g : Graph) (x : NodeId) : (g.ensureNode x).edges = g.edges := by
  unfold Graph.ensureNode
  split <;> rfl

theorem addEdge_edges_mono (g : Graph) (a b : NodeId) (e : NodeId × NodeId)
    (h : e ∈ g.edges) : e ∈ (g.addEdge a b).edges := by
  unfold Graph.addEdge
  dsimp only
  split
  · rw [ensureNode_edges, ensureNode_edges]
    exact h
  · dsimp only
    rw [ensureNode_edges, ensureNode_edges]
    exact List.mem_append_left _ h

theorem addEdge_self_mem (g : Graph) (a b : NodeId) : (a, b) ∈ (g.addEdge a b).edges := by
  unfold Graph.addEdge
  dsimp only
  split
  · assumption
  · dsimp only
    exact List.mem_append_right _ (List.mem_singleton.mpr rfl)

theorem foldl_addEdge_edges_mono (ds : List NodeId) (m : NodeId) :
    ∀ (g : Graph) (e : NodeId × NodeId), e ∈ g.edges →
    e ∈ (ds.foldl (fun g d => g.addEdge m d) g).edges := by
  induction ds with
  | nil => intro g e h; exact h
  | cons d rest ih => intro g e h; exact ih _ e (addEdge_edges_mono g m d e h)

theorem foldl_addEdge_pairs (ds : List NodeId) (m : NodeId) :
    ∀ (g : Graph) (d : NodeId), d ∈ ds →
    (m, d) ∈ (ds.foldl (fun g d => g.addEdge m d) g).edges := by
  induction ds with
  | nil => intro g d h; cases h
  | cons d0 rest ih =>
    intro g d h
    rcases List.mem_cons.mp h with h | h
    · subst h
      exact foldl_addEdge_edges_mono rest m _ _ (addEdge_self_mem g m d)
    · exact ih _ d h

theorem addExtraDeps_edges_mono (eds : List (NodeId × List NodeId)) :
    ∀ (g : Graph) (e : NodeId × NodeId), e ∈ g.edges → e ∈ (addExtraDeps eds g).edges := by
  induction eds with
  | nil => intro g e h; exact h
  | cons p rest ih =>
    intro g e h
    exact ih _ e (foldl_addEdge_edges_mono p.2 p.1 g e h)

theorem addExtraDeps_pairs (eds : List (NodeId × List NodeId)) :
    ∀ (g : Graph), ∀ p ∈ eds, ∀ d ∈ p.2, (p.1, d) ∈ (addExtraDeps eds g).edges := by
  induction eds with
  | nil => intro g p hp; cases hp
  | cons q rest ih =>
    intro g p hp d hd
    rcases List.mem_cons.mp hp with hp | hp
    · subst hp
      exact addExtraDeps_edges_mono rest _ _ (foldl_addEdge_pairs p.2 p.1 g d hd)
    · exact ih _ p hp d hd

theorem removeEmptyNodes_edges_keep (g : Graph) (a b : NodeId)
    (he : (a, b) ∈ g.edges) (ha : a ∈ (removeEmptyNodes g).ids)
    (hb : b ∈ (removeEmptyNodes g).ids) : (a, b) ∈ (removeEmptyNodes g).edges := by
  unfold removeEmptyNodes at ha hb ⊢
  unfold Graph.ids at ha hb
  dsimp only at ha hb ⊢
  refine List.mem_filter.mpr ⟨he, ?_⟩
  simp only [Bool.and_eq_true, List.elem_iff]
  exact ⟨ha, hb⟩

theorem ensureNode_inv (g0 : Graph) (x : NodeId) (h : Graph)
    (hn : ∃ extra, h.nodes = g0.nodes ++ extra ∧ ∀ q ∈ extra, q.2 = none ∧ q.1 ∉ g0.ids) :
    (h.ensureNode x).edges = h.edges ∧
    ∃ extra, (h.ensureNode x).nodes = g0.nodes ++ extra ∧
      ∀ q ∈ extra, q.2 = none ∧ q.1 ∉ g0.ids := by
  obtain ⟨extra, hne, hprop⟩ := hn
  unfold Graph.ensureNode
  by_cases hm : h.mem x = true
  · rw [if_pos hm]
    exact ⟨rfl, extra, hne, hprop⟩
  · rw [if_neg hm]
    refine ⟨rfl, extra ++ [(x, none)], by rw [hne, List.append_assoc], ?_⟩
    intro q hq
    rcases List.mem_append.mp hq with hq | hq
    · exact hprop q hq
    · simp only [List.mem_singleton] at hq
      subst hq
      refine ⟨rfl, fun hx => ?_⟩
      have hnone : h.find? x = none := by
        unfold Graph.mem at hm
        cases hfx : h.find? x with
        | none => rfl
        | some w => rw [hfx] at hm; simp at hm
      have : x ∉ h.nodes.map Prod.fst := (lookupN_eq_none h.nodes x).mp hnone
      rw [hne] at this
      simp only [List.map_append, List.mem_append, not_or] at this
      exact this.1 hx

theorem addEdge_inv (g0 : Graph) (m d : NodeId)
    (hpair : m ∈ g0.ids → d ∈ g0.ids → (m, d) ∈ g0.edges) (h : Graph)
    (hn : ∃ extra, h.nodes = g0.nodes ++ extra ∧ ∀ q ∈ extra, q.2 = none ∧ q.1 ∉ g0.ids)
    (he : ∃ extraE, h.edges = g0.edges ++ extraE ∧ ∀ e ∈ extraE, e.1 ∉ g0.ids ∨ e.2 ∉ g0.ids) :
    (∃ extra, (h.addEdge m d).nodes = g0.nodes ++ extra ∧
      ∀ q ∈ extra, q.2 = none ∧ q.1 ∉ g0.ids) ∧
    (∃ extraE, (h.addEdge m d).edges = g0.edges ++ extraE ∧
      ∀ e ∈ extraE, e.1 ∉ g0.ids ∨ e.2 ∉ g0.ids) := by
  obtain ⟨hedg1, hn1⟩ := ensureNode_inv g0 m h hn
  obtain ⟨hedg2, hn2⟩ := ensureNode_inv g0 d _ hn1
  obtain ⟨extraE, hee, heprop⟩ := he
  unfold Graph.addEdge
  dsimp only
  split
  · exact ⟨hn2, extraE, by rw [hedg2, hedg1, hee], heprop⟩
  · next hnotin =>
    refine ⟨hn2, extraE ++ [(m, d)], ?_, ?_⟩
    · dsimp only
      rw [hedg2, hedg1, hee, List.append_assoc]
    · intro e hmem
      rcases List.mem_append.mp hmem with hmem | hmem
      · exact heprop e hmem
      · simp only [List.mem_singleton] at hmem
        subst hmem
        by_contra hcon
        push_neg at hcon
        obtain ⟨hm0, hd0⟩ := hcon
        simp only [not_not] at hm0 hd0
        exact hnotin (by
          rw [hedg2, hedg1, hee]
          exact List.mem_append_left _ (hpair hm0 hd0))

theorem foldl_addEdge_inv (g0 : Graph) (m : NodeId) (ds : List NodeId)
    (hpair : ∀ d ∈ ds, m ∈ g0.ids → d ∈ g0.ids → (m, d) ∈ g0.edges) :
    ∀ (h : Graph),
    (∃ extra, h.nodes = g0.nodes ++ extra ∧ ∀ q ∈ extra, q.2 = none ∧ q.1 ∉ g0.ids) →
    (∃ extraE, h.edges = g0.edges ++ extraE ∧ ∀ e ∈ extraE, e.1 ∉ g0.ids ∨ e.2 ∉ g0.ids) →
    (∃ extra, (ds.foldl (fun g d => g.addEdge m d) h).nodes = g0.nodes ++ extra ∧
      ∀ q ∈ extra, q.2 = none ∧ q.1 ∉ g0.ids) ∧
    (∃ extraE, (ds.foldl (fun g d => g.addEdge m d) h).edges = g0.edges ++ extraE ∧
      ∀ e ∈ extraE, e.1 ∉ g0.ids ∨ e.2 ∉ g0.ids) := by
  induction ds with
  | nil => intro h hn he; exact ⟨hn, he⟩
  | cons d rest ih =>
    intro h hn he
    obtain ⟨hn1, he1⟩ := addEdge_inv g0 m d (hpair d (List.mem_cons_self _ _)) h hn he
    exact ih (fun d' hd' => hpair d' (List.mem_cons_of_mem _ hd')) _ hn1 he1

theorem addExtraDeps_inv (g0 : Graph) (eds : List (NodeId × List NodeId))
    (hpairs : ∀ p ∈ eds, ∀ d ∈ p.2, p.1 ∈ g0.ids → d ∈ g0.ids → (p.1, d) ∈ g0.edges) :
    (∃ extra, (addExtraDeps eds g0).nodes = g0.nodes ++ extra ∧
      ∀ q ∈ extra, q.2 = none ∧ q.1 ∉ g0.ids) ∧
    (∃ extraE, (addExtraDeps eds g0).edges = g0.edges ++ extraE ∧
      ∀ e ∈ extraE, e.1 ∉ g0.ids ∨ e.2 ∉ g0.ids) := by
  suffices hstep : ∀ (eds' : List (NodeId × List NodeId)),
      (∀ p ∈ eds', ∀ d ∈ p.2, p.1 ∈ g0.ids → d ∈ g0.ids → (p.1, d) ∈ g0.edges) →
      ∀ (h : Graph),
      (∃ extra, h.nodes = g0.nodes ++ extra ∧ ∀ q ∈ extra, q.2 = none ∧ q.1 ∉ g0.ids) →
      (∃ extraE, h.edges = g0.edges ++ extraE ∧ ∀ e ∈ extraE, e.1 ∉ g0.ids ∨ e.2 ∉ g0.ids) →
      (∃ extra, (addExtraDeps eds' h).nodes = g0.nodes ++ extra ∧
        ∀ q ∈ extra, q.2 = none ∧ q.1 ∉ g0.ids) ∧
      (∃ extraE, (addExtraDeps eds' h).edges = g0.edges ++ extraE ∧
        ∀ e ∈ extraE, e.1 ∉ g0.ids ∨ e.2 ∉ g0.ids) by
    exact hstep eds hpairs g0 ⟨[], by simp, by simp⟩ ⟨[], by simp, by simp⟩
  intro eds'
  induction eds' with
  | nil => intro _ h hn he; exact ⟨hn, he⟩
  | cons p rest ih =>
    intro hp h hn he
    obtain ⟨hn1, he1⟩ := foldl_addEdge_inv g0 p.1 p.2 (hp p (List.mem_cons_self _ _)) h hn he
    exact ih (fun q hq => hp q (List.mem_cons_of_mem _ hq)) _ hn1 he1

theorem stage23_id (g0 : Graph) (eds : List (NodeId × List NodeId))
    (hall : g0.allSome = true)
    (hclosed : ∀ e ∈ g0.edges, e.1 ∈ g0.ids ∧ e.2 ∈ g0.ids)
    (hpairs : ∀ p ∈ eds, ∀ d ∈ p.2, p.1 ∈ g0.ids → d ∈ g0.ids → (p.1, d) ∈ g0.edges) :
    removeEmptyNodes (addExtraDeps eds g0) = g0 := by
  obtain ⟨⟨extra, hne, hnp⟩, ⟨extraE, hee, hep⟩⟩ := addExtraDeps_inv g0 eds hpairs
  have hkeep : (addExtraDeps eds g0).nodes.filter (fun p => p.2.isSome) = g0.nodes := by
    rw [hne, List.filter_append]
    have h1 : g0.nodes.filter (fun p => p.2.isSome) = g0.nodes :=
      List.filter_eq_self.mpr (fun p hp => (List.all_eq_true.mp hall) p hp)
    have h2 : extra.filter (fun p => p.2.isSome) = [] := by
      rw [List.filter_eq_nil]
      intro q hq
      rw [(hnp q hq).1]
      simp
    rw [h1, h2, List.append_nil]
  refine graph_ext ?_ ?_
  · unfold removeEmptyNodes
    exact hkeep
  · unfold removeEmptyNodes
    dsimp only
    rw [hkeep, hee, List.filter_append]
    have h1 : g0.edges.filter
        (fun e => (g0.nodes.map Prod.fst).contains e.1 &&
          (g0.nodes.map Prod.fst).contains e.2) = g0.edges := by
      refine List.filter_eq_self.mpr (fun e he' => ?_)
      obtain ⟨h1, h2⟩ := hclosed e he'
      unfold Graph.ids at h1 h2
      simp only [Bool.and_eq_true, List.elem_iff]
      exact ⟨h1, h2⟩
    have h2 : extraE.filter
        (fun e => (g0.nodes.map Prod.fst).contains e.1 &&
          (g0.nodes.map Prod.fst).contains e.2) = [] := by
      rw [List.filter_eq_nil]
      intro e he'
      rcases hep e he' with hout | hout <;>
      · unfold Graph.ids at hout
        simp only [Bool.and_eq_true, List.elem_iff, not_and]
        intro
        first
        | exact absurd (by assumption) hout
        | exact fun h' => absurd h' hout
    rw [h1, h2, List.append_nil]

theorem setNode_eShape (g : Graph) (modid : NodeId) (node : ModNode) (e : Bool)
    (hf : g.find? modid = some (some node)) (he : node.enabled = true → e = true) :
    eShape g (g.setNode modid (some { node with enabled := e })) := by
  refine ⟨rfl, setN_map_fst _ _ _, ?_, ?_, ?_⟩
  · intro id hid
    have hne : id ≠ modid := fun h' => by rw [h', hf] at hid; cases hid
    rw [find?_setNode_ne _ _ _ _ hne]
    exact hid
  · intro id hid
    have hne : id ≠ modid := fun h' => by rw [h', hf] at hid; cases hid
    rw [find?_setNode_ne _ _ _ _ hne]
    exact hid
  · intro id m hid
    by_cases hne : id = modid
    · subst hne
      rw [hf] at hid
      cases hid
      exact ⟨e, find?_setNode_self _ _ _ (by rw [hf]; rfl), he⟩
    · rw [find?_setNode_ne _ _ _ _ hne]
      refine ⟨m.enabled, ?_, fun h' => h'⟩
      rw [ModNode.update_enabled_self]
      exact hid

theorem propagate_eShape (c : Config) (ord : List NodeId) :
    ∀ (st st' : St), propagate c st ord = .ok st' → eShape st.g st'.g := by
  induction ord with
  | nil =>
    intro st st' h
    rw [propagate] at h
    cases h
    exact eShape_refl _
  | cons modid rest ih =>
    intro st st' h
    rw [propagate] at h
    cases hs : syncStep c st modid with
    | error e => rw [hs] at h; cases h
    | ok st1 =>
      rw [hs] at h
      obtain ⟨node, hf, hg1⟩ := syncStep_ok_graph c st modid st1 hs
      refine eShape_trans ?_ (ih st1 st' h)
      rw [hg1]
      exact setNode_eShape st.g modid node _ hf (fun h' => by rw [h']; rfl)

theorem propagate_present (c : Config) (ord : List NodeId) :
    ∀ (st st' : St), propagate c st ord = .ok st' →
    ∀ x ∈ ord, ∃ n, st.g.find? x = some (some n) := by
  induction ord with
  | nil => intro st st' _ x hx; cases hx
  | cons modid rest ih =>
    intro st st' h x hx
    rw [propagate] at h
    cases hs : syncStep c st modid with
    | error e => rw [hs] at h; cases h
    | ok st1 =>
      rw [hs] at h
      obtain ⟨node, hf, hg1⟩ := syncStep_ok_graph c st modid st1 hs
      rcases List.mem_cons.mp hx with hx | hx
      · subst hx
        exact ⟨node, hf⟩
      · obtain ⟨m, hm⟩ := ih st1 st' h x hx
        by_cases hne : x = modid
        · subst hne
          exact ⟨node, hf⟩
        · refine ⟨m, ?_⟩
          rw [hg1, find?_setNode_ne _ _ _ _ hne] at hm
          exact hm

theorem propagate_allSome (c : Config) (ord : List NodeId) :
    ∀ (st st' : St), propagate c st ord = .ok st' → st.g.allSome = true →
    st'.g.allSome = true := by
  induction ord with
  | nil =>
    intro st st' h hall
    rw [propagate] at h
    cases h
    exact hall
  | cons modid rest ih =>
    intro st st' h hall
    rw [propagate] at h
    cases hs : syncStep c st modid with
    | error e => rw [hs] at h; cases h
    | ok st1 =>
      rw [hs] at h
      obtain ⟨node, hf, hg1⟩ := syncStep_ok_graph c st modid st1 hs
      refine ih st1 st' h ?_
      rw [hg1]
      unfold Graph.allSome at hall ⊢
      unfold Graph.setNode
      dsimp only
      exact setN_allSome st.g.nodes modid _ hall

theorem propagate_lockEntry (c : Config) (ord : List NodeId) :
    ∀ (st st' : St), propagate c st ord = .ok st' →
    (st.g.nodes.map Prod.fst).Nodup →
    st'.g.nodes.map lockEntry = st.g.nodes.map lockEntry := by
  induction ord with
  | nil =>
    intro st st' h _
    rw [propagate] at h
    cases h
    rfl
  | cons modid rest ih =>
    intro st st' h hnd
    rw [propagate] at h
    cases hs : syncStep c st modid with
    | error e => rw [hs] at h; cases h
    | ok st1 =>
      rw [hs] at h
      obtain ⟨node, hf, hg1⟩ := syncStep_ok_graph c st modid st1 hs
      have hnd1 : (st1.g.nodes.map Prod.fst).Nodup := by
        rw [hg1]
        unfold Graph.setNode
        dsimp only
        rw [setN_map_fst]
        exact hnd
      rw [ih st1 st' h hnd1, hg1]
      unfold Graph.setNode
      dsimp only
      exact setN_lockEntry st.g.nodes modid node _ hnd hf

theorem pendingIds_eq_filterMap (g : Graph) : g.pendingIds = g.nodes.filterMap pendSel := by
  unfold Graph.pendingIds Graph.pendingNodes
  rw [List.map_filterMap]
  congr 1
  funext p
  unfold pendSel
  obtain ⟨k, w⟩ := p
  cases w with
  | none => rfl
  | some n =>
    dsimp only
    by_cases hl : n.locked = true
    · rw [if_pos hl, if_pos hl]
      rfl
    · rw [if_neg hl, if_neg hl]
      rfl

theorem pendingIds_of_lockEntry (g g' : Graph)
    (h : g'.nodes.map lockEntry = g.nodes.map lockEntry) :
    g'.pendingIds = g.pendingIds := by
  have hsel : ∀ (l : List (NodeId × Option ModNode)),
      l.filterMap pendSel = (l.map lockEntry).filterMap
        (fun q => match q.2 with
          | some b => if b then none else some q.1
          | none => none) := by
    intro l
    rw [List.filterMap_map]
    congr 1
    funext p
    unfold pendSel lockEntry
    obtain ⟨k, w⟩ := p
    cases w with
    | none => rfl
    | some n => rfl
  rw [pendingIds_eq_filterMap, pendingIds_eq_filterMap, hsel, hsel, h]

theorem pendingEdges_congr (g g' : Graph) (hpids : g'.pendingIds = g.pendingIds)
    (hedges : g'.edges = g.edges) : g'.pendingEdges = g.pendingEdges := by
  unfold Graph.pendingEdges
  rw [hpids, hedges]

theorem pendingAcyclic_congr (g g' : Graph) (hpids : g'.pendingIds = g.pendingIds)
    (hedges : g'.edges = g.edges) : pendingAcyclic g' = pendingAcyclic g := by
  unfold pendingAcyclic
  rw [pendingEdges_congr g g' hpids hedges, hpids]

theorem node_paths_congr (c : Config) (n m : ModNode) (h : n.path = m.path) :
    node_paths c n = node_paths c m := by
  unfold node_paths
  rw [h]

/-- A successful forced `set_enabled`: the filesystem stays duplicate-free,
ends consistent with the written flag, and paths of other nodes are
untouched. -/
theorem set_enabled_force_fs {c : Config} {st : St} {modid : NodeId} {v b : Bool}
    {st' : St} (h : set_enabled c st modid v true = .ok (b, st')) (n : ModNode)
    (hfind : st.g.find? modid = some (some n)) (hnd : st.fs.Nodup) :
    st'.fs.Nodup ∧
    fsConsistent c st'.fs { n with enabled := v } ∧
    ∀ p, p ≠ (node_paths c n).1 → p ≠ (node_paths c n).2 → (p ∈ st'.fs ↔ p ∈ st.fs) := by
  rcases set_enabled_ok_cases h with ⟨m, hm, ⟨_, _, hc⟩ | ⟨_, _, hr⟩⟩
  · simp at hc
  · rw [hfind] at hm
    cases hm
    have hne := node_paths_ne c n
    cases v with
    | true =>
      simp only [if_pos rfl, eq_self_iff_true, if_true] at hr
      refine ⟨rename_path_ok_nodup _ _ _ _ _ hr hnd, ?_, ?_⟩
      · rcases rename_path_ok_cases _ _ _ _ _ hr with ⟨_, hfs, hs, ht⟩ | ⟨_, hfs, hs, ht⟩
        · rw [hfs]
          exact ⟨ht, hs⟩
        · rw [hfs]
          constructor
          · exact List.mem_append_right _ (List.mem_singleton.mpr rfl)
          · intro hmem
            rcases List.mem_append.mp hmem with hmem | hmem
            · exact (List.Nodup.not_mem_erase hnd) hmem
            · simp only [List.mem_singleton] at hmem
              exact hne hmem.symm
      · intro p hp1 hp2
        exact rename_path_ok_mem_other _ _ _ _ _ p hr hp2 hp1
    | false =>
      simp only [Bool.false_eq_true, if_false] at hr
      refine ⟨rename_path_ok_nodup _ _ _ _ _ hr hnd, ?_, ?_⟩
      · rcases rename_path_ok_cases _ _ _ _ _ hr with ⟨_, hfs, hs, ht⟩ | ⟨_, hfs, hs, ht⟩
        · rw [hfs]
          exact ⟨ht, hs⟩
        · rw [hfs]
          constructor
          · exact List.mem_append_right _ (List.mem_singleton.mpr rfl)
          · intro hmem
            rcases List.mem_append.mp hmem with hmem | hmem
            · exact (List.Nodup.not_mem_erase hnd) hmem
            · simp only [List.mem_singleton] at hmem
              exact hne hmem
      · intro p hp1 hp2
        exact rename_path_ok_mem_other _ _ _ _ _ p hr hp1 hp2

/-- One propagation step: the filesystem stays duplicate-free, ends
consistent with the stepped node's final record, and other paths are
untouched. -/
theorem syncStep_fs (c : Config) (st : St) (modid : NodeId) (st1 : St)
    (h : syncStep c st modid = .ok st1) (hnd : st.fs.Nodup) :
    ∀ node, st.g.find? modid = some (some node) →
    st1.fs.Nodup ∧
    fsConsistent c st1.fs
      { node with enabled := node.enabled || anyEnabledAncestor st.g modid } ∧
    ∀ p, p ≠ (node_paths c node).1 → p ≠ (node_paths c node).2 →
      (p ∈ st1.fs ↔ p ∈ st.fs) := by
  intro node hfind
  unfold syncStep at h
  rw [hfind] at h
  dsimp only at h
  cases hse : set_enabled c
      { st with g := st.g.setNode modid (some { node with
          enabled := node.enabled || anyEnabledAncestor st.g modid }) }
      modid (node.enabled || anyEnabledAncestor st.g modid) true with
  | error e => rw [hse] at h; cases h
  | ok p =>
    obtain ⟨b, st2⟩ := p
    rw [hse] at h
    cases h
    have hfind' : (st.g.setNode modid (some { node with
        enabled := node.enabled || anyEnabledAncestor st.g modid })).find? modid =
        some (some { node with enabled := node.enabled || anyEnabledAncestor st.g modid }) :=
      find?_setNode_self _ _ _ (by rw [hfind]; rfl)
    obtain ⟨hnd2, hcons2, hmem2⟩ := set_enabled_force_fs hse _ hfind' hnd
    refine ⟨hnd2, ?_, ?_⟩
    · exact hcons2
    · intro p hp1 hp2
      exact hmem2 p hp1 hp2

/-- The propagation walk leaves every path that belongs to none of the walked
nodes untouched, and keeps the filesystem duplicate-free. -/
theorem propagate_fs_mem (c : Config) (ord : List NodeId) :
    ∀ (st st' : St), propagate c st ord = .ok st' → st.fs.Nodup →
    st'.fs.Nodup ∧
    ∀ p, (∀ y ∈ ord, ∀ ny, st.g.find? y = some (some ny) →
        p ≠ (node_paths c ny).1 ∧ p ≠ (node_paths c ny).2) →
      (p ∈ st'.fs ↔ p ∈ st.fs) := by
  induction ord with
  | nil =>
    intro st st' h hnd
    rw [propagate] at h
    cases h
    exact ⟨hnd, fun p _ => Iff.rfl⟩
  | cons modid rest ih =>
    intro st st' h hnd
    rw [propagate] at h
    cases hs : syncStep c st modid with
    | error e => rw [hs] at h; cases h
    | ok st1 =>
      rw [hs] at h
      obtain ⟨node, hf, hg1⟩ := syncStep_ok_graph c st modid st1 hs
      obtain ⟨hnd1, _, hmem1⟩ := syncStep_fs c st modid st1 hs hnd node hf
      obtain ⟨hnd', hmem'⟩ := ih st1 st' h hnd1
      refine ⟨hnd', fun p hp => ?_⟩
      have hstep := hmem1 p (hp modid (List.mem_cons_self _ _) node hf).1
        (hp modid (List.mem_cons_self _ _) node hf).2
      have htail := hmem' p ?_
      · exact htail.trans hstep
      · intro y hy ny hfy
        by_cases hne : y = modid
        · subst hne
          rw [hg1, find?_setNode_self _ _ _ (by rw [hf]; rfl)] at hfy
          cases hfy
          have hyp := hp y (List.mem_cons_self _ _) node hf
          have hpc : node_paths c { node with
              enabled := node.enabled || anyEnabledAncestor st.g y } = node_paths c node :=
            node_paths_congr c _ node rfl
          rw [hpc]
          exact hyp
        · rw [hg1, find?_setNode_ne _ _ _ _ hne] at hfy
          exact hp y (List.mem_cons_of_mem _ hy) ny hfy

/-- `distinctPaths` transfers along a record update that keeps the path. -/
theorem distinctPaths_setNode (c : Config) (g : Graph) (modid : NodeId)
    (node n' : ModNode) (hfind : g.find? modid = some (some node))
    (hpath : n'.path = node.path) (hd : distinctPaths c g) :
    distinctPaths c (g.setNode modid (some n')) := by
  intro x y nx ny hxy hfx hfy
  have hconv : ∀ z nz, (g.setNode modid (some n')).find? z = some (some nz) →
      ∃ mz, g.find? z = some (some mz) ∧ node_paths c nz = node_paths c mz := by
    intro z nz hz
    by_cases hne : z = modid
    · subst hne
      rw [find?_setNode_self _ _ _ (by rw [hfind]; rfl)] at hz
      cases hz
      exact ⟨node, hfind, node_paths_congr c _ node hpath⟩
    · rw [find?_setNode_ne _ _ _ _ hne] at hz
      exact ⟨nz, hz, rfl⟩
  obtain ⟨mx, hmx, hpx⟩ := hconv x nx hfx
  obtain ⟨my, hmy, hpy⟩ := hconv y ny hfy
  rw [hpx, hpy]
  exact hd x y mx my hxy hmx hmy

/-- After the walk, the filesystem is consistent with every walked node's
final record. -/
theorem propagate_fs_cons (c : Config) (ord : List NodeId) :
    ∀ (st st' : St), propagate c st ord = .ok st' → st.fs.Nodup → ord.Nodup →
    distinctPaths c st.g →
    st'.fs.Nodup ∧
    ∀ x ∈ ord, ∀ nf, st'.g.find? x = some (some nf) → fsConsistent c st'.fs nf := by
  induction ord with
  | nil =>
    intro st st' h hnd _ _
    rw [propagate] at h
    cases h
    exact ⟨hnd, fun x hx => absurd hx (List.not_mem_nil x)⟩
  | cons modid rest ih =>
    intro st st' h hnd hordnd hdist
    have hmodnotin : modid ∉ rest := (List.nodup_cons.mp hordnd).1
    have hrestnd : rest.Nodup := (List.nodup_cons.mp hordnd).2
    rw [propagate] at h
    cases hs : syncStep c st modid with
    | error e => rw [hs] at h; cases h
    | ok st1 =>
      rw [hs] at h
      obtain ⟨node, hf, hg1⟩ := syncStep_ok_graph c st modid st1 hs
      obtain ⟨hnd1, hcons1, _⟩ := syncStep_fs c st modid st1 hs hnd node hf
      have hdist1 : distinctPaths c st1.g := by
        rw [hg1]
        exact distinctPaths_setNode c st.g modid node _ hf rfl hdist
      obtain ⟨hnd', hrest⟩ := ih st1 st' h hnd1 hrestnd hdist1
      refine ⟨hnd', ?_⟩
      intro x hx nf hfx
      rcases List.mem_cons.mp hx with hx | hx
      · subst hx
        have hfx1 : st1.g.find? x = some (some { node with
            enabled := node.enabled || anyEnabledAncestor st.g x }) := by
          rw [hg1]
          exact find?_setNode_self _ _ _ (by rw [hf]; rfl)
        rw [propagate_find_notin c rest st1 st' h x hmodnotin, hfx1] at hfx
        cases hfx
        obtain ⟨h1, h2⟩ := hcons1
        obtain ⟨_, hmem'⟩ := propagate_fs_mem c rest st1 st' h hnd1
        have huntouched : ∀ p, p = (node_paths c node).1 ∨ p = (node_paths c node).2 →
            (p ∈ st'.fs ↔ p ∈ st1.fs) := by
          intro p hform
          refine hmem' p ?_
          intro y hy ny hfy
          have hyne : y ≠ x := fun he => hmodnotin (he ▸ hy)
          have hfy0 : st.g.find? y = some (some ny) := by
            rw [hg1, find?_setNode_ne _ _ _ _ hyne] at hfy
            exact hfy
          obtain ⟨d1, d2, d3, d4⟩ := hdist x y node ny (fun he => hyne he.symm) hf hfy0
          rcases hform with rfl | rfl
          · exact ⟨d1, d2⟩
          · exact ⟨d3, d4⟩
        constructor
        · rw [huntouched _ ?_]
          · exact h1
          · cases hval : ({ node with
                enabled := node.enabled || anyEnabledAncestor st.g x }).enabled
            · right
              simp only [fsConsistent, hval] at h1 ⊢
              rfl
            · left
              simp only [fsConsistent, hval] at h1 ⊢
              rfl
        · rw [huntouched _ ?_]
          · exact h2
          · cases hval : ({ node with
                enabled := node.enabled || anyEnabledAncestor st.g x }).enabled
            · left
              simp only [fsConsistent, hval] at h2 ⊢
              rfl
            · right
              simp only [fsConsistent, hval] at h2 ⊢
              rfl
      · exact hrest x hx nf hfx

theorem nodePathList_nodes (c : Config) (g : Graph) :
    nodePathList c g = nodePathList c { nodes := g.nodes, edges := [] } := rfl

theorem mem_nodePathList (c : Config) :
    ∀ (l : List (NodeId × Option ModNode)) (y : NodeId) (ny : ModNode),
    lookupN l y = some (some ny) →
    (node_paths c ny).1 ∈ nodePathList c { nodes := l, edges := [] } ∧
    (node_paths c ny).2 ∈ nodePathList c { nodes := l, edges := [] } := by
  intro l
  induction l with
  | nil => intro y ny h; cases h
  | cons p rest ih =>
    intro y ny h
    unfold nodePathList at *
    dsimp only at *
    rw [List.foldr_cons]
    by_cases hp : p.1 = y
    · rw [lookupN, if_pos hp] at h
      simp only [Option.some.injEq] at h
      rw [h]
      dsimp only
      exact ⟨List.mem_cons_self _ _, List.mem_cons_of_mem _ (List.mem_cons_self _ _)⟩
    · rw [lookupN, if_neg hp] at h
      obtain ⟨h1, h2⟩ := ih y ny h
      cases hw : p.2 with
      | none => exact ⟨h1, h2⟩
      | some n =>
        dsimp only
        exact ⟨List.mem_cons_of_mem _ (List.mem_cons_of_mem _ h1),
          List.mem_cons_of_mem _ (List.mem_cons_of_mem _ h2)⟩

theorem nodePathList_nodup_distinct (c : Config) :
    ∀ (l : List (NodeId × Option ModNode)),
    (nodePathList c { nodes := l, edges := [] }).Nodup →
    ∀ x y nx ny, x ≠ y → lookupN l x = some (some nx) → lookupN l y = some (some ny) →
    (node_paths c nx).1 ≠ (node_paths c ny).1 ∧ (node_paths c nx).1 ≠ (node_paths c ny).2 ∧
    (node_paths c nx).2 ≠ (node_paths c ny).1 ∧ (node_paths c nx).2 ≠ (node_paths c ny).2 := by
  intro l
  induction l with
  | nil => intro _ x y nx ny _ hx; cases hx
  | cons p rest ih =>
    intro hnd x y nx ny hxy hx hy
    unfold nodePathList at hnd
    dsimp only at hnd
    rw [List.foldr_cons] at hnd
    by_cases hpx : p.1 = x
    · rw [lookupN, if_pos hpx] at hx
      simp only [Option.some.injEq] at hx
      have hyne : p.1 ≠ y := fun he => hxy (hpx ▸ he ▸ rfl)
      rw [lookupN, if_neg hyne] at hy
      obtain ⟨hy1, hy2⟩ := mem_nodePathList c rest y ny hy
      rw [hx] at hnd
      dsimp only at hnd
      rw [List.nodup_cons, List.nodup_cons] at hnd
      obtain ⟨hn1, hn2, _⟩ := hnd
      simp only [List.mem_cons, not_or] at hn1
      refine ⟨fun he => hn1.2 (he ▸ hy1), fun he => hn1.2 (he ▸ hy2),
        fun he => hn2 (he ▸ hy1), fun he => hn2 (he ▸ hy2)⟩
    · rw [lookupN, if_neg hpx] at hx
      by_cases hpy : p.1 = y
      · rw [lookupN, if_pos hpy] at hy
        simp only [Option.some.injEq] at hy
        obtain ⟨hx1, hx2⟩ := mem_nodePathList c rest x nx hx
        rw [hy] at hnd
        dsimp only at hnd
        rw [List.nodup_cons, List.nodup_cons] at hnd
        obtain ⟨hn1, hn2, _⟩ := hnd
        simp only [List.mem_cons, not_or] at hn1
        refine ⟨fun he => hn1.2 (he.symm ▸ hx1), fun he => hn2 (he.symm ▸ hx1),
          fun he => hn1.2 (he.symm ▸ hx2), fun he => hn2 (he.symm ▸ hx2)⟩
      · rw [lookupN, if_neg hpy] at hy
        have hnd' : (nodePathList c { nodes := rest, edges := [] }).Nodup := by
          cases hw : p.2 with
          | none => rw [hw] at hnd; exact hnd
          | some n =>
            rw [hw] at hnd
            dsimp only at hnd
            rw [List.nodup_cons, List.nodup_cons] at hnd
            exact hnd.2.2
        exact ih hnd' x y nx ny hxy hx hy

theorem pathsOK_distinct (c : Config) (g : Graph) (h : pathsOK c g = true) :
    distinctPaths c g := by
  intro x y nx ny hxy hx hy
  unfold pathsOK at h
  have hnd : (nodePathList c g).Nodup := of_decide_eq_true h
  rw [nodePathList_nodes] at hnd
  exact nodePathList_nodup_distinct c g.nodes hnd x y nx ny hxy hx hy

/-- A forced `set_enabled` to the value the record already holds, on a
filesystem consistent with that record, changes nothing. -/
theorem set_enabled_force_noop (c : Config) (st : St) (modid : NodeId) (n : ModNode)
    (hfind : st.g.find? modid = some (some n)) (hcons : fsConsistent c st.fs n) :
    set_enabled c st modid n.enabled true =
      .ok (false, { g := st.g.setNode modid (some n), fs := st.fs }) := by
  obtain ⟨hin, hout⟩ := hcons
  unfold set_enabled
  rw [hfind]
  dsimp only
  simp only [Bool.not_true, Bool.false_and, Bool.false_eq_true, if_false]
  cases hv : n.enabled with
  | true =>
    rw [hv] at hin hout
    simp only [if_pos rfl, eq_self_iff_true, if_true] at hin hout ⊢
    dsimp only [node_paths] at hin hout ⊢
    rw [rename_path_noop st.fs _ _ hout hin]
    rw [show ({ n with enabled := true } : ModNode) = n from by rw [← hv, ModNode.update_enabled_self]]
  | false =>
    rw [hv] at hin hout
    simp only [Bool.false_eq_true, if_false] at hin hout ⊢
    dsimp only [node_paths] at hin hout ⊢
    rw [rename_path_noop st.fs _ _ hout hin]
    rw [show ({ n with enabled := false } : ModNode) = n from by rw [← hv, ModNode.update_enabled_self]]

theorem overlay_keys (pre : NodeId → Bool) (rem : List NodeId)
    (l : List (NodeId × Option ModNode)) :
    (l.map (enabledOverlay pre rem)).map Prod.fst = l.map Prod.fst := by
  rw [List.map_map]
  congr 1

theorem map_overlay_nil (pre : NodeId → Bool) (l : List (NodeId × Option ModNode)) :
    l.map (enabledOverlay pre []) = l := by
  induction l with
  | nil => rfl
  | cons p rest ih =>
    rw [List.map_cons, ih]
    rfl

theorem overlay_step (pre : NodeId → Bool) (x : NodeId) (rest : List NodeId)
    (hx : x ∉ rest) :
    ∀ (l : List (NodeId × Option ModNode)) (nf : ModNode),
    (l.map Prod.fst).Nodup →
    lookupN l x = some (some nf) →
    setN (l.map (enabledOverlay pre (x :: rest))) x (some nf) =
      l.map (enabledOverlay pre rest) := by
  intro l
  induction l with
  | nil => intro nf _ h; cases h
  | cons p t ih =>
    intro nf hnd h
    simp only [List.map_cons, List.nodup_cons] at hnd
    rw [List.map_cons, List.map_cons, setN]
    by_cases hp : p.1 = x
    · rw [lookupN, if_pos hp] at h
      simp only [Option.some.injEq] at h
      have hhead : (enabledOverlay pre (x :: rest) p).1 = x := by
        unfold enabledOverlay
        exact hp
      rw [if_pos hhead]
      have htail : setN (t.map (enabledOverlay pre (x :: rest))) x (some nf) =
          t.map (enabledOverlay pre (x :: rest)) := by
        have hkeys : ∀ q ∈ t.map (enabledOverlay pre (x :: rest)), q.1 ≠ x := by
          intro q hq he
          obtain ⟨q0, hq0, rfl⟩ := List.mem_map.mp hq
          apply hnd.1
          rw [hp.symm] at he
          have : q0.1 = p.1 := by
            unfold enabledOverlay at he
            exact he
          rw [← this]
          exact List.mem_map_of_mem Prod.fst hq0
        clear ih hnd h
        induction t with
        | nil => rfl
        | cons q t2 ih2 =>
          rw [List.map_cons, setN]
          rw [if_neg (hkeys _ (List.mem_cons_self _ _))]
          rw [ih2 (fun r hr => hkeys r (List.mem_cons_of_mem _ hr))]
      rw [htail]
      congr 1
      · unfold enabledOverlay overlayV
        rw [hp, if_neg hx, h]
      · apply List.map_congr_left
        intro q hq
        unfold enabledOverlay overlayV
        have hqx : q.1 ≠ x := by
          intro he
          exact hnd.1 (by rw [hp, ← he]; exact List.mem_map_of_mem Prod.fst hq)
        by_cases hqr : q.1 ∈ rest
        · rw [if_pos (List.mem_cons_of_mem _ hqr), if_pos hqr]
        · rw [if_neg (by simp only [List.mem_cons]; tauto), if_neg hqr]
    · rw [lookupN, if_neg hp] at h
      have hhead : (enabledOverlay pre (x :: rest) p).1 ≠ x := by
        unfold enabledOverlay
        exact hp
      rw [if_neg hhead, ih nf hnd.2 h]
      congr 1
      unfold enabledOverlay overlayV
      by_cases hpr : p.1 ∈ rest
      · rw [if_pos (List.mem_cons_of_mem _ hpr), if_pos hpr]
      · rw [if_neg (by simp only [List.mem_cons]; tauto), if_neg hpr]

/-- Re-running the propagation walk over a graph whose enabled flags already
satisfy the fixpoint equation reproduces the final graph and leaves the
(consistent) filesystem untouched. -/
theorem propagate_rerun (c : Config) (gf : Graph) (pre : NodeId → Bool) (fs : List String)
    (hkeys : (gf.nodes.map Prod.fst).Nodup)
    (hfscons : ∀ id nf, gf.find? id = some (some nf) → fsConsistent c fs nf) :
    ∀ (rem done : List NodeId) (g : Graph),
    (done ++ rem).Nodup →
    (∀ x ∈ gf.ids, x ∈ done ++ rem) →
    (∀ e ∈ gf.edges, (done ++ rem).indexOf e.1 < (done ++ rem).indexOf e.2) →
    (∀ x ∈ rem, ∃ nf, gf.find? x = some (some nf)) →
    (∀ x ∈ rem, ∀ nf, gf.find? x = some (some nf) →
      (pre x || anyEnabledAncestor gf x) = nf.enabled) →
    g.nodes = gf.nodes.map (enabledOverlay pre rem) →
    g.edges = gf.edges →
    propagate c { g := g, fs := fs } rem = .ok { g := gf, fs := fs } := by
  intro rem
  induction rem with
  | nil =>
    intro done g _ _ _ _ _ hnodes hedges
    rw [map_overlay_nil] at hnodes
    rw [propagate]
    rw [graph_ext hnodes hedges]
  | cons x rest ih =>
    intro done g hnodup hcov htopo hpres hfix hnodes hedges
    have hxnotrest : x ∉ rest := by
      have h2 := hnodup.of_append_right
      rw [List.nodup_cons] at h2
      exact h2.1
    obtain ⟨nf, hnf⟩ := hpres x (List.mem_cons_self _ _)
    have hfind_g : g.find? x = some (some { nf with enabled := pre x }) := by
      unfold Graph.find?
      rw [hnodes]
      have hl : lookupN (gf.nodes.map (enabledOverlay pre (x :: rest))) x =
          (lookupN gf.nodes x).map (overlayV pre (x :: rest) x) :=
        lookupN_map gf.nodes (overlayV pre (x :: rest)) x
      rw [hl]
      have hnf' : lookupN gf.nodes x = some (some nf) := hnf
      rw [hnf']
      simp only [Option.map_some']
      unfold overlayV
      rw [if_pos (List.mem_cons_self x rest)]
      rfl
    have hanc : anyEnabledAncestor g x = anyEnabledAncestor gf x := by
      refine anyEnabledAncestor_congr gf g x ?_ ?_ hedges ?_
      · unfold Graph.ids
        rw [hnodes]
        exact overlay_keys pre (x :: rest) gf.nodes
      · rw [hnodes, List.length_map]
      · intro a ha
        obtain ⟨hamem, hane, har⟩ := ancestors_sound gf x a ha
        have hlt := reaches_indexOf_lt gf.edges (done ++ x :: rest) htopo a x har hane
        have hadone : a ∈ done := by
          rcases List.mem_append.mp (hcov a hamem) with h' | h'
          · exact h'
          · rcases List.mem_cons.mp h' with h' | h'
            · exact absurd h' hane
            · have := indexOf_head_lt done rest x a hnodup h'
              omega
        have hanotin : a ∉ x :: rest := by
          intro hmem
          exact (List.disjoint_of_nodup_append hnodup) hadone hmem
        have hov : overlayV pre (x :: rest) a = fun w => w := by
          funext w
          unfold overlayV
          rw [if_neg hanotin]
        have hfa : g.find? a = gf.find? a := by
          unfold Graph.find?
          rw [hnodes]
          have hl : lookupN (gf.nodes.map (enabledOverlay pre (x :: rest))) a =
              (lookupN gf.nodes a).map (overlayV pre (x :: rest) a) :=
            lookupN_map gf.nodes (overlayV pre (x :: rest)) a
          rw [hl, hov]
          simp
        exact enabled?_ext a hfa
    have he : (pre x || anyEnabledAncestor g x) = nf.enabled := by
      rw [hanc]
      exact hfix x (List.mem_cons_self _ _) nf hnf
    have hfind2 : (g.setNode x (some nf)).find? x = some (some nf) :=
      find?_setNode_self _ _ _ (by rw [hfind_g]; rfl)
    have hss : (g.setNode x (some nf)).setNode x (some nf) = g.setNode x (some nf) := by
      unfold Graph.setNode
      dsimp only
      rw [setN_setN]
    have hstep : syncStep c { g := g, fs := fs } x = .ok { g := g.setNode x (some nf), fs := fs } := by
      unfold syncStep
      dsimp only
      rw [hfind_g]
      dsimp only
      rw [he]
      rw [ModNode.update_enabled_self]
      have hnoop := set_enabled_force_noop c { g := g.setNode x (some nf), fs := fs } x nf
        hfind2 (hfscons x nf hnf)
      rw [hnoop]
      dsimp only
      rw [hss]
    rw [propagate, hstep]
    dsimp only
    have hassoc : done ++ x :: rest = (done ++ [x]) ++ rest := by simp
    refine ih (done ++ [x]) (g.setNode x (some nf)) ?_ ?_ ?_ ?_ ?_ ?_ ?_
    · rw [← hassoc]
      exact hnodup
    · intro z hz
      rw [← hassoc]
      exact hcov z hz
    · intro e he'
      rw [← hassoc]
      exact htopo e he'
    · intro z hz
      exact hpres z (List.mem_cons_of_mem _ hz)
    · intro z hz
      exact hfix z (List.mem_cons_of_mem _ hz)
    · unfold Graph.setNode
      dsimp only
      rw [hnodes]
      exact overlay_step pre x rest hxnotrest gf.nodes nf hkeys hnf
    · exact hedges

/-- C8: `sync` is idempotent.  If a run of `sync` over a topological
enumeration of the cleaned-up graph succeeds (with duplicate-free override
keys, a duplicate-free filesystem, and collision-free artifact paths), then
running `sync` again from the resulting state with the same configuration and
unchanged external state succeeds and returns the state unchanged: the graph
is identical and the filesystem is untouched (no state-changing renames). -/
theorem sync_idempotent (c : Config) (st st1 : St) (ord : List NodeId) (g3 : Graph)
    (hstage : stage123 c st.g = .ok g3)
    (hkeys : g3.ids.Nodup)
    (hovnd : (c.overrides.map Prod.fst).Nodup)
    (hordnd : ord.Nodup)
    (hcov : ∀ x ∈ g3.ids, x ∈ ord)
    (htopo : ∀ e ∈ g3.edges, ord.indexOf e.1 < ord.indexOf e.2)
    (hfsnd : st.fs.Nodup)
    (hpaths : pathsOK c g3 = true)
    (h : sync c st ord = .ok st1) :
    sync c st1 ord = .ok st1 := by
  -- unpack the first run
  unfold sync at h
  rw [hstage] at h
  dsimp only at h
  cases hac : pendingAcyclic g3 with
  | false =>
    rw [hac] at h
    simp only [Bool.false_eq_true, if_false] at h
    cases h
  | true =>
    rw [hac] at h
    simp only [if_pos rfl, eq_self_iff_true, if_true] at h
    have hprop1 : propagate c { st with g := g3 } ord = .ok st1 := h
    -- first-run applyOverrides
    have hstage0 := hstage
    unfold stage123 at hstage0
    cases happ : applyOverrides c.overrides st.g with
    | error e => rw [happ] at hstage0; cases hstage0
    | ok g1 =>
      rw [happ, exc_map_ok] at hstage0
      have hg3eq : removeEmptyNodes (addExtraDeps c.extra_deps g1) = g3 := by
        cases hstage0
        rfl
      -- structural facts about the first run
      have hsh : eShape g3 st1.g := propagate_eShape c ord _ st1 hprop1
      have hkeys1 : st1.g.nodes.map Prod.fst = g3.nodes.map Prod.fst := hsh.2.1
      have hids1 : st1.g.ids = g3.ids := hkeys1
      have hedges1 : st1.g.edges = g3.edges := hsh.1
      have hall3 : g3.allSome = true := stage123_allSome c st.g g3 hstage
      have hall1 : st1.g.allSome = true := propagate_allSome c ord _ st1 hprop1 hall3
      have hdist3 : distinctPaths c g3 := pathsOK_distinct c g3 hpaths
      obtain ⟨hfsnd1, hfscons1⟩ := propagate_fs_cons c ord _ st1 hprop1 hfsnd hordnd hdist3
      have hpres3 : ∀ x ∈ ord, ∃ n, g3.find? x = some (some n) :=
        propagate_present c ord _ st1 hprop1
      have hfix1 := propagate_eq c ord [] { st with g := g3 } st1 hordnd hcov htopo hprop1
      have hkeys1nd : (st1.g.nodes.map Prod.fst).Nodup := by
        rw [hkeys1]
        exact hkeys
      -- the override records of the cleaned graph
      have hov : ∀ k v, c.overrides.lookup k = some v →
          ∃ n0, g3.find? k = some (some n0) ∧ n0.enabled = v ∧ n0.locked = true := by
        intro k v hkv
        obtain ⟨orig, horig⟩ :=
          applyOverrides_present c.overrides st.g g1 happ (k, v) (lookup_mem _ _ _ hkv)
        have h3 := stage123_find c st.g g3 hovnd hstage k orig horig
        rw [hkv] at h3
        exact ⟨_, h3, rfl, rfl⟩
      -- override keys survive into st1
      have hovpres1 : ∀ p ∈ c.overrides, ∃ n, st1.g.find? p.1 = some (some n) := by
        intro p hp
        obtain ⟨orig, horig⟩ := applyOverrides_present c.overrides st.g g1 happ p hp
        have h3 := stage123_find c st.g g3 hovnd hstage p.1 orig horig
        obtain ⟨e, hfe, _⟩ := hsh.2.2.2.2 p.1 _ h3
        exact ⟨_, hfe⟩
      -- second-run stage 1
      obtain ⟨g1', happ'⟩ := applyOverrides_ok c.overrides st1.g hovpres1
      have hkeys1' : g1'.nodes.map Prod.fst = st1.g.nodes.map Prod.fst :=
        applyOverrides_keys _ _ _ happ'
      have hedges1' : g1'.edges = st1.g.edges := applyOverrides_edges _ _ _ happ'
      have hall1' : g1'.allSome = true := applyOverrides_allSome _ _ _ hall1 happ'
      -- the enabled values the second run starts from
      have hmap : g1'.nodes = st1.g.nodes.map (enabledOverlay (fun id =>
          match c.overrides.lookup id with
          | some v => v
          | none => (st1.g.enabled? id).getD false) ord) := by
        refine nodes_eq_of_find _ _ ?_ ?_ ?_
        · rw [hkeys1']
          have hk := overlay_keys (fun id =>
            match c.overrides.lookup id with
            | some v => v
            | none => (st1.g.enabled? id).getD false) ord st1.g.nodes
          rw [hk]
        · rw [hkeys1', hkeys1]
          exact hkeys
        · intro id
          have hl : lookupN (st1.g.nodes.map (enabledOverlay (fun id =>
              match c.overrides.lookup id with
              | some v => v
              | none => (st1.g.enabled? id).getD false) ord)) id =
              (lookupN st1.g.nodes id).map ((overlayV (fun id =>
                match c.overrides.lookup id with
                | some v => v
                | none => (st1.g.enabled? id).getD false) ord) id) :=
            lookupN_map st1.g.nodes _ id
          rw [hl]
          cases hfid : st1.g.find? id with
          | none =>
            have hrhs : lookupN st1.g.nodes id = none := hfid
            rw [hrhs]
            have hnotin : id ∉ st1.g.nodes.map Prod.fst :=
              (lookupN_eq_none st1.g.nodes id).mp hfid
            have : id ∉ g1'.nodes.map Prod.fst := by
              rw [hkeys1']
              exact hnotin
            have hnone : lookupN g1'.nodes id = none := (lookupN_eq_none g1'.nodes id).mpr this
            rw [hnone]
            rfl
          | some w =>
            have hws : w.isSome = true := allSome_find_isSome st1.g hall1 id w hfid
            cases w with
            | none => simp at hws
            | some n1 =>
              have hrhs : lookupN st1.g.nodes id = some (some n1) := hfid
              rw [hrhs]
              simp only [Option.map_some']
              have hidord : id ∈ ord := by
                refine hcov id ?_
                rw [← hids1]
                exact find?_mem_ids st1.g id _ hfid
              have hlhs := applyOverrides_find c.overrides st1.g g1' hovnd happ' id n1 hfid
              have hg1'f : lookupN g1'.nodes id = some (some (match c.overrides.lookup id with
                  | some v => { n1 with locked := true, enabled := v }
                  | none => n1)) := hlhs
              rw [hg1'f]
              unfold overlayV
              rw [if_pos hidord]
              simp only [Option.map_some']
              cases hlk : c.overrides.lookup id with
              | some v =>
                obtain ⟨n0, hn0, hv, hlck⟩ := hov id v hlk
                obtain ⟨e, hfe, _⟩ := hsh.2.2.2.2 id n0 hn0
                rw [hfid] at hfe
                simp only [Option.some.injEq] at hfe
                have hl1 : n1.locked = true := by
                  rw [hfe]
                  exact hlck
                dsimp only
                congr 1
                congr 1
                rw [← hl1]
              | none =>
                have hen : st1.g.enabled? id = some n1.enabled := by
                  unfold Graph.enabled?
                  rw [hfid]
                dsimp only
                simp only [hen, Option.getD_some]
      -- second-run stages 2-3 are the identity
      have hids1g : g1'.ids = g3.ids := by
        have : g1'.ids = st1.g.ids := hkeys1'
        rw [this, hids1]
      have hclosed1 : ∀ e ∈ g1'.edges, e.1 ∈ g1'.ids ∧ e.2 ∈ g1'.ids := by
        intro e he
        rw [hedges1', hedges1] at he
        obtain ⟨h1, h2⟩ := stage123_edges_mem c st.g g3 hstage e.1 e.2 (by
          obtain ⟨a, b⟩ := e
          exact he)
        rw [hids1g]
        exact ⟨h1, h2⟩
      have hpairs1 : ∀ p ∈ c.extra_deps, ∀ d ∈ p.2,
          p.1 ∈ g1'.ids → d ∈ g1'.ids → (p.1, d) ∈ g1'.edges := by
        intro p hp d hd hm hdm
        have hmem : (p.1, d) ∈ (addExtraDeps c.extra_deps g1).edges :=
          addExtraDeps_pairs c.extra_deps g1 p hp d hd
        have hkeep : (p.1, d) ∈ g3.edges := by
          rw [← hg3eq]
          refine removeEmptyNodes_edges_keep _ _ _ hmem ?_ ?_
          · rw [hg3eq]
            rw [hids1g] at hm
            exact hm
          · rw [hg3eq]
            rw [hids1g] at hdm
            exact hdm
        rw [hedges1', hedges1]
        exact hkeep
      have hstage' : stage123 c st1.g = .ok g1' := by
        unfold stage123
        rw [happ', exc_map_ok, stage23_id g1' c.extra_deps hall1' hclosed1 hpairs1]
      -- the pending view is unchanged, so the acyclicity check passes again
      have hlock1' : g1'.nodes.map lockEntry = g3.nodes.map lockEntry := by
        rw [hmap]
        have hcomp : (st1.g.nodes.map (enabledOverlay (fun id =>
            match c.overrides.lookup id with
            | some v => v
            | none => (st1.g.enabled? id).getD false) ord)).map lockEntry =
            st1.g.nodes.map lockEntry := by
          rw [List.map_map]
          refine List.map_congr_left ?_
          intro p _
          unfold Function.comp lockEntry enabledOverlay overlayV
          obtain ⟨k, w⟩ := p
          dsimp only
          by_cases hk : k ∈ ord
          · rw [if_pos hk]
            cases w with
            | none => rfl
            | some n => rfl
          · rw [if_neg hk]
        rw [hcomp]
        exact propagate_lockEntry c ord _ st1 hprop1 hkeys
      have hpend' : g1'.pendingIds = g3.pendingIds := pendingIds_of_lockEntry g3 g1' hlock1'
      have hedges3' : g1'.edges = g3.edges := hedges1'.trans hedges1
      have hac' : pendingAcyclic g1' = true := by
        rw [pendingAcyclic_congr g3 g1' hpend' hedges3']
        exact hac
      -- the fixpoint equation holds at st1
      have hfix2 : ∀ x ∈ ord, ∀ nf, st1.g.find? x = some (some nf) →
          ((match c.overrides.lookup x with
            | some v => v
            | none => (st1.g.enabled? x).getD false) ||
            anyEnabledAncestor st1.g x) = nf.enabled := by
        intro x hx nf hnf
        obtain ⟨n0, hn0⟩ := hpres3 x hx
        have h1 := hfix1 x hx n0 hn0
        rw [hnf] at h1
        simp only [Option.some.injEq] at h1
        cases hlk : c.overrides.lookup x with
        | some v =>
          obtain ⟨n0', hn0', hv, _⟩ := hov x v hlk
          rw [hn0] at hn0'
          simp only [Option.some.injEq] at hn0'
          rw [h1]
          dsimp only
          rw [← hv, hn0']
        | none =>
          have hen : st1.g.enabled? x = some nf.enabled := by
            unfold Graph.enabled?
            rw [hnf]
          simp only [hen, Option.getD_some]
          rw [h1]
          dsimp only
          rw [Bool.or_assoc, Bool.or_self]
      have hpres2 : ∀ x ∈ ord, ∃ nf, st1.g.find? x = some (some nf) := by
        intro x hx
        obtain ⟨n0, hn0⟩ := hpres3 x hx
        obtain ⟨e, hfe, _⟩ := hsh.2.2.2.2 x n0 hn0
        exact ⟨_, hfe⟩
      have hfscons2 : ∀ id nf, st1.g.find? id = some (some nf) →
          fsConsistent c st1.fs nf := by
        intro id nf hnf
        refine hfscons1 id ?_ nf hnf
        refine hcov id ?_
        rw [← hids1]
        exact find?_mem_ids st1.g id _ hnf
      -- assemble the second run
      unfold sync
      rw [hstage']
      dsimp only
      rw [if_pos hac']
      exact propagate_rerun c st1.g (fun id =>
          match c.overrides.lookup id with
          | some v => v
          | none => (st1.g.enabled? id).getD false) st1.fs hkeys1nd hfscons2 ord [] g1'
        hordnd
        (by
          intro z hz
          refine hcov z ?_
          rw [← hids1]
          exact hz)
        (by
          intro e he
          rw [hedges1] at he
          exact htopo e he)
        hpres2 hfix2 hmap hedges1'

theorem sync_idempotent_witness : sync cW stW2 ["A", "B"] = .ok stW2 :=
  sync_idempotent cW stW2 stW2 ["A", "B"] stW2.g rfl (by decide) (by decide) (by decide)
    (by decide) (by decide) (by decide) (by decide) rfl
